import Mathlib

/-!
Verification development for the llrt parallel scheduler and its link
iteration protocol.

Each C++ function relevant to the claims is shallowly embedded as a computable
Lean definition.  Machine integers are modelled as `Nat`/`Int`: `size_t`
arithmetic that cannot wrap in the considered states is modelled on `Nat`
(with Lean's truncated subtraction matching the places where the C++ code
subtracts guarded quantities), and signed `int64_t` arithmetic is modelled on
`Int` with truncated division/remainder (`Int.tdiv`/`Int.tmod`), which is the
C++ semantics of `/` and `%`.  `std::chrono::steady_clock::duration` is an
integer count of nanoseconds, modelled as `Int`.
-/

namespace llrt

/-! ## GeneralLocal2DLink: rounding helpers (part_000, lines 200-226) -/

/-- Embedding of `GeneralLocal2DLink::div_round_neginf` (part_000 lines
203-205).  C++ `/` and `%` on `int64_t` truncate toward zero, i.e.
`Int.tdiv` and `Int.tmod`. -/
def div_round_neginf (a b : Int) : Int :=
  if a ≥ 0 ∨ a.tmod b = 0 then a.tdiv b else a.tdiv b - 1

/-- Embedding of `GeneralLocal2DLink::div_round_posinf` (part_000 lines
210-226). -/
def div_round_posinf (a b : Int) : Int :=
  if a ≥ 0 then
    (if a.tmod b = 0 then a.tdiv b else a.tdiv b + 1)
  else
    (if (-a).tmod b = 0 then a.tdiv b else a.tdiv b + 1)

/-- Spec-side definition: `a/b` rounded toward negative infinity
(`Int.fdiv` is floor division). -/
def floorDivInt (a b : Int) : Int := Int.fdiv a b

/-- Spec-side definition: `a/b` rounded toward positive infinity. -/
def ceilDivInt (a b : Int) : Int := -(Int.fdiv (-a) b)

theorem tmod_of_neg_eq_neg_tmod (a b : Int) : (-a).tmod b = -(a.tmod b) := by
  have h1 := Int.tmod_add_tdiv a b
  have h2 := Int.tmod_add_tdiv (-a) b
  rw [Int.neg_tdiv, mul_neg] at h2
  linarith

theorem tmod_bounds_of_pos (a b : Int) (hb : 0 < b) :
    (0 ≤ a → 0 ≤ a.tmod b ∧ a.tmod b < b) ∧
    (a ≤ 0 → -b < a.tmod b ∧ a.tmod b ≤ 0) := by
  constructor
  · intro ha
    exact ⟨Int.tmod_nonneg b ha, Int.tmod_lt_of_pos a hb⟩
  · intro ha
    have h := tmod_of_neg_eq_neg_tmod (-a) b
    rw [neg_neg] at h
    have h1 : 0 ≤ (-a).tmod b := Int.tmod_nonneg b (by omega)
    have h2 : (-a).tmod b < b := Int.tmod_lt_of_pos (-a) hb
    omega

/-- `div_round_neginf` really is floor division for positive divisors; this is
the half of the claim that holds. -/
theorem div_round_neginf_eq_floor (a b : Int) (hb : 0 < b) :
    div_round_neginf a b = floorDivInt a b := by
  have hfe : a.fdiv b = a / b := Int.fdiv_eq_ediv a (le_of_lt hb)
  have hq := Int.emod_add_ediv a b
  have hr0 : 0 ≤ a % b := Int.emod_nonneg a (by omega)
  have hr1 : a % b < b := Int.emod_lt_of_pos a hb
  have ht := Int.tmod_add_tdiv a b
  unfold div_round_neginf floorDivInt
  rw [hfe]
  rcases le_or_lt 0 a with ha | ha
  · rw [if_pos (Or.inl ha)]
    exact Int.tdiv_eq_ediv ha (le_of_lt hb)
  · have hbnd := (tmod_bounds_of_pos a b hb).2 (le_of_lt ha)
    by_cases hm : a.tmod b = 0
    · rw [if_pos (Or.inr hm)]
      -- exact division: b ∣ a, both divisions agree
      have hbq : b * (a / b - a.tdiv b) = a.tmod b - a % b := by ring_nf; linarith
      have hd1 : b * (-1) < b * (a / b - a.tdiv b) := by omega
      have hd2 : b * (a / b - a.tdiv b) < b * 1 := by omega
      have e1 : (-1 : Int) < a / b - a.tdiv b := lt_of_mul_lt_mul_left hd1 (by omega)
      have e2 : a / b - a.tdiv b < 1 := lt_of_mul_lt_mul_left hd2 (by omega)
      omega
    · rw [if_neg (by push_neg; exact ⟨by omega, hm⟩)]
      have hbq : b * (a / b - a.tdiv b) = a.tmod b - a % b := by ring_nf; linarith
      have hd1 : b * (-2) < b * (a / b - a.tdiv b) := by omega
      have hd2 : b * (a / b - a.tdiv b) < b * 0 := by omega
      have e1 : (-2 : Int) < a / b - a.tdiv b := lt_of_mul_lt_mul_left hd1 (by omega)
      have e2 : a / b - a.tdiv b < 0 := lt_of_mul_lt_mul_left hd2 (by omega)
      omega

/-- C6: `div_round_posinf` is documented ("Round a/b towards pos inf") and
claimed to round toward positive infinity, but at the concrete input
`a = -3, b = 2` it returns `0` while `⌈-3/2⌉ = -1`: for negative
non-divisible numerators the C++ truncated quotient `a/b` is already the
ceiling and the code adds one more.  This contradicts the function's own
documentation comment. -/
theorem div_round_posinf_code_bug :
    div_round_posinf (-3) 2 = 0 ∧ ceilDivInt (-3) 2 = -1 ∧
      div_round_posinf (-3) 2 ≠ ceilDivInt (-3) 2 := by decide

/-- `div_round_posinf` never undershoots the ceiling (it is "conservative"):
this is the property `RowFindingIteration` actually relies on. -/
theorem ceil_le_div_round_posinf (a b : Int) (hb : 0 < b) :
    ceilDivInt a b ≤ div_round_posinf a b := by
  have hfe : (-a).fdiv b = (-a) / b := Int.fdiv_eq_ediv (-a) (le_of_lt hb)
  have hq := Int.emod_add_ediv (-a) b
  have hr0 : 0 ≤ (-a) % b := Int.emod_nonneg (-a) (by omega)
  have hr1 : (-a) % b < b := Int.emod_lt_of_pos (-a) hb
  have ht := Int.tmod_add_tdiv a b
  have hsplit : b * ((-a) / b + a.tdiv b) = b * ((-a) / b) + b * a.tdiv b :=
    mul_add b _ _
  have hsum : b * ((-a) / b + a.tdiv b) = -((-a) % b + a.tmod b) := by omega
  have hub : b * ((-a) / b + a.tdiv b) ≤ b * 1 := by
    have hbnd := tmod_bounds_of_pos a b hb
    rcases le_or_lt 0 a with ha | ha
    · have := hbnd.1 ha; omega
    · have := hbnd.2 (le_of_lt ha); omega
  have hlb : b * (-2) < b * ((-a) / b + a.tdiv b) := by
    have hbnd := tmod_bounds_of_pos a b hb
    rcases le_or_lt 0 a with ha | ha
    · have := hbnd.1 ha; omega
    · have := hbnd.2 (le_of_lt ha); omega
  have e1 : (-a) / b + a.tdiv b ≤ 1 := le_of_mul_le_mul_left hub hb
  have e2 : -2 < (-a) / b + a.tdiv b := lt_of_mul_lt_mul_left hlb (le_of_lt hb)
  -- so q + t ∈ {-1, 0, 1}; translate each possibility back through hsum
  have hval : ∀ v : Int, (-a) / b + a.tdiv b = v →
      b * v = -((-a) % b + a.tmod b) := by
    intro v hv; rw [← hv]; exact hsum
  unfold div_round_posinf ceilDivInt
  rw [hfe]
  have hbnd := tmod_bounds_of_pos a b hb
  rcases le_or_lt 0 a with ha | ha
  · have hm := hbnd.1 ha
    -- a ≥ 0: tmod and emod(-a) can't make q+t = 1, and q+t = -1 forces
    -- (-a) % b + a.tmod b = b which needs a.tmod b > 0, hence the +1 branch
    rw [if_pos ha]
    by_cases hz : a.tmod b = 0
    · rw [if_pos hz]
      -- need -((-a)/b) ≤ tdiv, i.e. q + t ≥ 0; q + t = -1 gives b = r + m = r < b
      by_cases hqt : (-a) / b + a.tdiv b = -1
      · have := hval _ hqt; omega
      · have hqt1 : ¬ ((-a) / b + a.tdiv b = 1) := by
          intro h1; have := hval _ h1; omega
        omega
    · rw [if_neg hz]
      by_cases hqt : (-a) / b + a.tdiv b = 1
      · have := hval _ hqt; omega
      · omega
  · have hm := hbnd.2 (le_of_lt ha)
    have hneg := tmod_of_neg_eq_neg_tmod a b
    rw [if_neg (by omega)]
    -- a < 0: here r + m ∈ (-b, b), so q + t = 0 and -q = t exactly
    have hqt0 : (-a) / b + a.tdiv b = 0 := by
      by_cases h1 : (-a) / b + a.tdiv b = 1
      · have := hval _ h1; omega
      · by_cases h2 : (-a) / b + a.tdiv b = -1
        · have := hval _ h2; omega
        · omega
    by_cases hz : (-a).tmod b = 0
    · rw [if_pos hz]; omega
    · rw [if_neg hz]; omega

/-! ## Kernel invocations

A link iteration invokes the user kernel as
`k(near_node_ix, near_edge_ix, far_node_ix, far_edge_ix, edge_info)`.
We record every invocation as a `KCall`. -/

structure KCall where
  near : Nat
  nearEdge : Nat
  far : Nat
  farEdge : Nat
  edgeInfo : Nat
deriving DecidableEq, Repr

/-- The tuple the claims compare:
`(near_node_ix, far_node_ix, near_edge_ix, edge_info)`. -/
def KCall.obs (c : KCall) : Nat × Nat × Nat × Nat :=
  (c.near, c.far, c.nearEdge, c.edgeInfo)

/-- `std::accumulate(begin, end, 1, std::multiplies<>())`: flat size of a
dimension vector. -/
def prodDims (d : List Nat) : Nat := d.foldl (· * ·) 1

/-! ## SameLink (samelink.hpp) -/

structure SameLink where
  dim0 : List Nat
  dim1 : List Nat
deriving Repr

/-- `SameLink::maxProgress` (samelink.hpp lines 42-44). -/
def SameLink.maxProgress (l : SameLink) (_whichEnd : Nat) : Nat := prodDims l.dim0

/-- `SameLink::requestPartialProgress` (samelink.hpp lines 46-48). -/
def SameLink.requestPartialProgress (_l : SameLink) (_whichEnd r : Nat) : Nat := r

/-- `SameLink::operator()` (samelink.hpp lines 50-59): calls `k(i,i,i,i,0)`
for `i ∈ [start, end)`. -/
def SameLink.iterate (_l : SameLink) (_whichEnd s e : Nat) : List KCall :=
  (List.range' s (e - s)).map fun i => ⟨i, i, i, i, 0⟩

/-! ## DenseLink (denselink.hpp, lines 11-77) -/

structure DenseLink where
  dim0 : List Nat
  dim1 : List Nat
deriving Repr

/-- `DenseLink::maxProgress` (denselink.hpp lines 40-44). -/
def DenseLink.maxProgress (l : DenseLink) (_whichEnd : Nat) : Nat :=
  prodDims l.dim0 * prodDims l.dim1

/-- `DenseLink::requestPartialProgress` (denselink.hpp lines 46-52).
`dimF` is the far end's dimension vector. -/
def DenseLink.requestPartialProgress (l : DenseLink) (whichEnd r : Nat) : Nat :=
  let F := prodDims (if whichEnd = 0 then l.dim1 else l.dim0)
  if r = 0 then F else ((r - 1) / F) * F + F

/-- `DenseLink::operator()` (denselink.hpp lines 54-76).  `vNlink` starts at
`start` and increments once per kernel call; `vFlink` restarts at `i` for
each near node and increments by `vNsize` per far node.  The row for near
node `i` (the `(i - start/F)`-th row emitted) therefore starts at near-edge
index `start + (i - start/F)*F`. -/
def DenseLink.iterate (l : DenseLink) (whichEnd s e : Nat) : List KCall :=
  let dimN := if whichEnd = 0 then l.dim0 else l.dim1
  let dimF := if whichEnd = 0 then l.dim1 else l.dim0
  let N := prodDims dimN
  let F := prodDims dimF
  ((List.range' (s / F) (e / F - s / F)).map fun i =>
    (List.range F).map fun j =>
      (⟨i, s + (i - s / F) * F + j, j, i + j * N, j⟩ : KCall)).flatten

/-- Spec-side form of C7: `⌈r / F⌉ × F` with `⌈x/y⌉ = (x + y - 1)/y`. -/
def ceilMulNat (r F : Nat) : Nat := ((r + F - 1) / F) * F

/-- C7 counterexample: for the dense link with `dim0 = [3]`, `dim1 = [2]`
(far flat size `F = 2` for end 0), the claim demands
`requestPartialProgress 0 0 = ⌈0/2⌉ * 2 = 0`, but the code returns `F = 2`
(the `requestedProgress == 0` branch returns `dimFtot`). -/
theorem dense_rpp_zero_counterexample :
    (DenseLink.requestPartialProgress ⟨[3], [2]⟩ 0 0 = 2) ∧ ceilMulNat 0 2 = 0 ∧
      DenseLink.requestPartialProgress ⟨[3], [2]⟩ 0 0 ≠ ceilMulNat 0 2 := by decide

/-- C7 amended: with `F` the far end's flat size positive, the dense link's
`requestPartialProgress` equals `⌈r / F⌉ × F` for every requested progress
`r ≥ 1`, and at `r = 0` it returns `F` (one whole near node), not `0`. -/
theorem dense_requestPartialProgress_eq (l : DenseLink) (whichEnd r : Nat)
    (hF : 0 < prodDims (if whichEnd = 0 then l.dim1 else l.dim0)) :
    (1 ≤ r → l.requestPartialProgress whichEnd r =
      ceilMulNat r (prodDims (if whichEnd = 0 then l.dim1 else l.dim0))) ∧
    l.requestPartialProgress whichEnd 0 =
      prodDims (if whichEnd = 0 then l.dim1 else l.dim0) := by
  set F := prodDims (if whichEnd = 0 then l.dim1 else l.dim0) with hFdef
  constructor
  · intro hr
    unfold DenseLink.requestPartialProgress ceilMulNat
    rw [← hFdef]
    have hne : ¬ (r = 0) := by omega
    rw [if_neg hne]
    have key : (r + F - 1) / F = (r - 1) / F + 1 := by
      have h1 : r + F - 1 = (r - 1) + 1 * F := by omega
      rw [h1, Nat.add_mul_div_right _ _ hF]
    rw [key]
    ring
  · unfold DenseLink.requestPartialProgress
    rw [← hFdef]
    simp

/-- C7 amended, witness. -/
theorem dense_requestPartialProgress_eq_witness :
    (1 ≤ 3 → DenseLink.requestPartialProgress ⟨[3], [2]⟩ 0 3 = ceilMulNat 3 2) ∧
      DenseLink.requestPartialProgress ⟨[3], [2]⟩ 0 0 = 2 :=
  dense_requestPartialProgress_eq ⟨[3], [2]⟩ 0 3 (by decide)

/-! ## Client submission, `Scheduler::processOp` (part_002, lines 592-666)

Only the state touched under the submission mutex matters for C5: the batch
queue and the `clientBatchNumber` counter (initialized to `1`, part_002 line
80). -/

structure ClientBatch where
  clientBatchNumber : Nat
  readyToSchedule : Bool
  scheduled : Bool
  njobs : Nat
deriving DecidableEq, Repr

structure ClientState where
  clientBatchNumber : Nat
  batches : List ClientBatch
deriving DecidableEq, Repr

/-- The state at scheduler construction: empty queue,
`clientBatchNumber = 1`. -/
def ClientState.start : ClientState := ⟨1, []⟩

/-- Apply `f` to the last element of a list (`schedChan.batches.back()`). -/
def updateLast (f : ClientBatch → ClientBatch) : List ClientBatch → List ClientBatch
  | [] => []
  | [b] => [f b]
  | b :: b' :: bs => b :: updateLast f (b' :: bs)

/-- The mutation `processOp` applies to the last batch: append one job and,
when `endOfBatch` holds, mark the batch ready to schedule. -/
def touchBatch (eob : Bool) (b : ClientBatch) : ClientBatch :=
  { b with njobs := b.njobs + 1, readyToSchedule := b.readyToSchedule || eob }

/-- Embedding of `Scheduler::processOp` (part_002 lines 593-666), restricted
to the submission-queue state.  A new batch is opened when the queue is empty
or the last batch is ready to schedule; its number is `++clientBatchNumber`
(pre-increment).  The call returns the current last batch's number. -/
def processOp (s : ClientState) (endOfBatch blocking : Bool) : ClientState × Nat :=
  let eob := blocking || endOfBatch
  let fresh := match s.batches.getLast? with
    | none => true
    | some b => b.readyToSchedule
  let cbn := if fresh then s.clientBatchNumber + 1 else s.clientBatchNumber
  let batches1 := if fresh then s.batches ++ [⟨cbn, false, false, 0⟩] else s.batches
  let batchNum := (batches1.getLast?.map (·.clientBatchNumber)).getD 0
  let batches2 := updateLast (touchBatch eob) batches1
  (⟨cbn, batches2⟩, batchNum)

/-- A sequence of `processOp` calls (each entry is that call's `endOfBatch`
argument; `blocking` forces `endOfBatch`, so it adds nothing here). -/
def processOpRun : ClientState → List Bool → ClientState × List Nat
  | s, [] => (s, [])
  | s, e :: rest =>
    let p := processOp s e false
    let q := processOpRun p.1 rest
    (q.1, p.2 :: q.2)

def processOpReturns (calls : List Bool) : List Nat :=
  (processOpRun ClientState.start calls).2

/-- C5 counterexample: two `processOp` calls that keep the batch open return
the numbers `[2, 2]`: the returned numbers are not strictly increasing, and
the first `ClientBatch` ever created carries number `2`, not `1` (the counter
starts at `1` and is pre-incremented). -/
theorem processOp_numbers_counterexample :
    processOpReturns [false, false] = [2, 2] ∧
      ¬ List.Chain' (· < ·) (processOpReturns [false, false]) ∧
      ((processOpRun ClientState.start [false]).1.batches.map
        (·.clientBatchNumber)) = [2] := by
  have h1 : processOpReturns [false, false] = [2, 2] := by rfl
  refine ⟨h1, ?_, by rfl⟩
  rw [h1]
  intro hchain
  exact absurd (List.chain'_cons.mp hchain).1 (by decide)

/-- Invariant maintained by `processOp`: the queue's batch numbers strictly
increase and are bounded by the counter, the last batch (if any) carries the
current counter value, and the counter is at least 1. -/
def ClientInv (s : ClientState) : Prop :=
  List.Chain' (· < ·) (s.batches.map (·.clientBatchNumber)) ∧
  (∀ n ∈ s.batches.map (·.clientBatchNumber), n ≤ s.clientBatchNumber) ∧
  (s.batches.map (·.clientBatchNumber) ≠ [] →
    (s.batches.map (·.clientBatchNumber)).getLast? = some s.clientBatchNumber) ∧
  1 ≤ s.clientBatchNumber

theorem touchBatch_number (eob : Bool) (b : ClientBatch) :
    (touchBatch eob b).clientBatchNumber = b.clientBatchNumber := rfl

theorem updateLast_map_number (f : ClientBatch → ClientBatch)
    (hf : ∀ b, (f b).clientBatchNumber = b.clientBatchNumber) :
    ∀ l : List ClientBatch,
      (updateLast f l).map (·.clientBatchNumber) = l.map (·.clientBatchNumber)
  | [] => rfl
  | [b] => by simp [updateLast, hf]
  | b :: b' :: bs => by
    have ih := updateLast_map_number f hf (b' :: bs)
    simp only [updateLast, List.map_cons] at ih ⊢
    rw [ih]

theorem processOp_fresh (s : ClientState) (e : Bool)
    (hf : (match s.batches.getLast? with
      | none => true
      | some b => b.readyToSchedule) = true) :
    (processOp s e false).1.clientBatchNumber = s.clientBatchNumber + 1 ∧
    (processOp s e false).1.batches.map (·.clientBatchNumber)
      = s.batches.map (·.clientBatchNumber) ++ [s.clientBatchNumber + 1] ∧
    (processOp s e false).2 = s.clientBatchNumber + 1 := by
  unfold processOp
  simp only [hf, if_pos]
  refine ⟨by trivial, ?_, ?_⟩
  · rw [updateLast_map_number _ (touchBatch_number _), List.map_append]
    rfl
  · rw [List.getLast?_concat]
    rfl

theorem processOp_stale (s : ClientState) (e : Bool) (b : ClientBatch)
    (hb : s.batches.getLast? = some b) (hr : b.readyToSchedule = false) :
    (processOp s e false).1.clientBatchNumber = s.clientBatchNumber ∧
    (processOp s e false).1.batches.map (·.clientBatchNumber)
      = s.batches.map (·.clientBatchNumber) ∧
    (processOp s e false).2 = b.clientBatchNumber := by
  unfold processOp
  simp only [hb, hr, if_neg, Bool.false_eq_true, ite_false]
  exact ⟨by trivial, updateLast_map_number _ (touchBatch_number _) s.batches,
    by simp⟩

theorem processOp_preserves_inv (s : ClientState) (e : Bool) (h : ClientInv s) :
    ClientInv (processOp s e false).1 ∧
      (processOp s e false).2 = (processOp s e false).1.clientBatchNumber ∧
      s.clientBatchNumber ≤ (processOp s e false).1.clientBatchNumber := by
  obtain ⟨hchain, hbound, hlast, hone⟩ := h
  cases hcase : (match s.batches.getLast? with
    | none => true
    | some b => b.readyToSchedule) with
  | true =>
    obtain ⟨h1, h2, h3⟩ := processOp_fresh s e hcase
    refine ⟨⟨?_, ?_, ?_, by omega⟩, by omega, by omega⟩
    · rw [h2, List.chain'_append]
      refine ⟨hchain, List.chain'_singleton _, ?_⟩
      intro x hx y hy
      simp only [List.head?_cons, Option.mem_def, Option.some.injEq] at hy
      subst hy
      by_cases hne : s.batches.map (·.clientBatchNumber) = []
      · rw [hne] at hx; simp at hx
      · rw [hlast hne] at hx
        simp only [Option.mem_def, Option.some.injEq] at hx
        omega
    · intro n hn
      rw [h2] at hn
      rcases List.mem_append.mp hn with hmem | hmem
      · have := hbound n hmem; omega
      · simp at hmem; omega
    · intro _
      rw [h2, List.getLast?_concat, h1]
  | false =>
    obtain ⟨b, hb⟩ : ∃ b, s.batches.getLast? = some b := by
      cases hgl : s.batches.getLast? with
      | none => rw [hgl] at hcase; simp at hcase
      | some b => exact ⟨b, rfl⟩
    have hr : b.readyToSchedule = false := by rw [hb] at hcase; exact hcase
    obtain ⟨h1, h2, h3⟩ := processOp_stale s e b hb hr
    have hnums : (s.batches.map (·.clientBatchNumber)).getLast?
        = some b.clientBatchNumber := by
      rw [List.getLast?_map, hb]; rfl
    have hbn : b.clientBatchNumber = s.clientBatchNumber := by
      have hne : s.batches.map (·.clientBatchNumber) ≠ [] := by
        intro hnil
        rw [hnil] at hnums
        simp at hnums
      have h := hlast hne
      rw [hnums] at h
      exact Option.some_inj.mp h
    refine ⟨⟨?_, ?_, ?_, by omega⟩, by omega, by omega⟩
    · rw [h2]; exact hchain
    · rw [h2, h1]; exact hbound
    · rw [h2, h1]; exact hlast

/-- Run-level consequences of the invariant: each call returns the counter
value after the call, and counters only grow. -/
theorem processOpRun_spec : ∀ (calls : List Bool) (s : ClientState),
    ClientInv s →
    ClientInv (processOpRun s calls).1 ∧
      s.clientBatchNumber ≤ (processOpRun s calls).1.clientBatchNumber ∧
      List.Chain' (· ≤ ·) ((processOpRun s calls).2) ∧
      (∀ n ∈ (processOpRun s calls).2, s.clientBatchNumber ≤ n)
  | [], s, h => ⟨h, le_refl _, List.chain'_nil, by intro n hn; simp [processOpRun] at hn⟩
  | e :: rest, s, h => by
    obtain ⟨hinv, hret, hmono⟩ := processOp_preserves_inv s e h
    obtain ⟨hinv', hmono', hchain', hlb'⟩ :=
      processOpRun_spec rest (processOp s e false).1 hinv
    refine ⟨hinv', by simpa [processOpRun] using le_trans hmono hmono', ?_, ?_⟩
    · show List.Chain' (· ≤ ·) ((processOp s e false).2 :: (processOpRun (processOp s e false).1 rest).2)
      rw [List.chain'_cons']
      refine ⟨?_, hchain'⟩
      intro y hy
      have hymem : y ∈ (processOpRun (processOp s e false).1 rest).2 :=
        List.mem_of_mem_head? hy
      have := hlb' y hymem
      omega
    · intro n hn
      show _ ≤ n
      simp only [processOpRun, List.mem_cons] at hn
      rcases hn with hn | hn
      · omega
      · have := hlb' n hn; omega

/-- C5 amended: for any sequence of `processOp` calls the returned client
batch numbers are non-decreasing (equal returns occur when calls land in the
same still-open batch); the numbers of distinct batches in the queue are
strictly increasing; and the numbering starts at 2 — `clientBatchNumber` is
initialized to 1 and pre-incremented, so the first `ClientBatch` ever created
has number 2. -/
theorem processOp_numbers_amended (calls : List Bool) :
    List.Chain' (· ≤ ·) (processOpReturns calls) ∧
    List.Chain' (· < ·)
      ((processOpRun ClientState.start calls).1.batches.map (·.clientBatchNumber)) ∧
    (calls ≠ [] → (processOpReturns calls).head? = some 2) := by
  have hinv : ClientInv ClientState.start := by
    refine ⟨List.chain'_nil, ?_, ?_, le_refl 1⟩ <;> simp [ClientState.start]
  obtain ⟨hinv', _, hchain, _⟩ := processOpRun_spec calls ClientState.start hinv
  refine ⟨hchain, hinv'.1, ?_⟩
  intro hne
  cases calls with
  | nil => exact absurd rfl hne
  | cons e rest =>
    obtain ⟨h1, h2, h3⟩ := processOp_fresh ClientState.start e rfl
    show (processOpRun ClientState.start (e :: rest)).2.head? = some 2
    simp only [processOpRun, List.head?_cons]
    rw [h3]
    rfl

/-- C5 amended, witness. -/
theorem processOp_numbers_amended_witness :
    List.Chain' (· ≤ ·) (processOpReturns [false, true]) ∧
      (processOpReturns [false, true]).head? = some 2 :=
  ⟨(processOp_numbers_amended [false, true]).1,
    (processOp_numbers_amended [false, true]).2.2 (by decide)⟩

/-! ## The scheduler's planning pass (scheduler.cpp lines 221-354, part_002)

`dur_t = std::chrono::steady_clock::duration` is an integer count of
nanoseconds (`Int` here).  The adaptive model's `T_op` is a `double` in the
source; it is modelled as an exact rational (the claims settled against this
embedding do not depend on double rounding, and the deterministic mode never
reads `T_op`). -/

abbrev Dur := Int

/-- Truncation toward zero, the semantics of `static_cast<int64_t>(double)`
for in-range values. -/
def ratTrunc (q : ℚ) : Int := if 0 ≤ q then ⌊q⌋ else -⌊-q⌋

/-- `microseconds(dur_t)`: nanoseconds to (exact) microseconds. -/
def microsecondsQ (d : Dur) : ℚ := (d : ℚ) / 1000

structure Job where
  id : Nat
  opTypeIndex : Nat
  cmpId : Int
  progress : Nat
  maxProgress : Nat
  indivisible : Bool
  npp : Nat → Nat

structure PerfTracker where
  totTime : Dur
  totOps : Nat
  T_op : ℚ
deriving DecidableEq, Repr

/-- `PerfTracker` defaults (part_002 lines 352-356): `totOps` starts at 1 to
avoid division by zero, `T_op` at 1 µs. -/
def PerfTracker.pristine : PerfTracker := ⟨0, 1, 1⟩

/-- A `JobChunk` as the planner records it: the owning job and the half-open
progress interval `[start, stop)`. -/
structure JobChunk where
  jobId : Nat
  start : Nat
  stop : Nat
deriving DecidableEq, Repr

structure SchedBarrier where
  sequence : Nat
  jobs : List Job
  singleThreaded : Bool
  workerBatches : List (List JobChunk)

structure SchedState where
  deterministic : Bool
  nWorkers : Nat
  singleThreadThreshold : Dur
  sequence : Nat
  timeByKernel : List (Nat × PerfTracker)
  barriers : List SchedBarrier

/-- `Scheduler::trackOp` (part_002 lines 370-379).  In deterministic mode the
function returns before touching the model. -/
def trackOp (s : SchedState) (opTypeIndex : Nat) (time : Dur) (ops : Nat) :
    SchedState :=
  if s.deterministic then s
  else
    { s with timeByKernel := s.timeByKernel.map fun kv =>
        if kv.1 = opTypeIndex then
          let totTime := kv.2.totTime + time
          let totOps := kv.2.totOps + ops
          (kv.1, ⟨totTime, totOps,
            if 0 < totOps then microsecondsQ totTime / totOps else kv.2.T_op⟩)
        else kv }

/-- `Scheduler::estimateTimeOp` (part_002 lines 387-393), in nanoseconds.
In deterministic mode: `microseconds(int64(ops*1.0))`, i.e. `ops`
microseconds (exact while `ops` fits a double). -/
def estimateTimeOp (s : SchedState) (opTypeIndex ops : Nat) : Dur :=
  if s.deterministic then 1000 * (ops : Int)
  else
    match s.timeByKernel.lookup opTypeIndex with
    | some pt => 1000 * ratTrunc (pt.T_op * ops)
    | none => 0   -- the C++ asserts the key is present; planning inserts it first

/-- `if (estSz == 0) estSz = 1; return estSz;` applied to the cast of the
double estimate (part_002 lines 408-411). -/
def opsFromEst (est : ℚ) : Nat :=
  if (ratTrunc est).toNat = 0 then 1 else (ratTrunc est).toNat

/-- `Scheduler::estimateOpsFromTime` (part_002 lines 401-412). -/
def estimateOpsFromTime (s : SchedState) (opTypeIndex : Nat) (time : Dur) : Nat :=
  opsFromEst
    (if s.deterministic then microsecondsQ time
     else
       match s.timeByKernel.lookup opTypeIndex with
       | some pt => microsecondsQ time / pt.T_op
       | none => 0)

/-- The `size_t` difference `nextProgressPoint(progress + a1) - progress`
(scheduler.cpp line 234).  A next-progress-point below the cursor would wrap
to a huge value and immediately be clamped to the remainder by the caller,
which the `2^64` arithmetic reproduces. -/
def nppAdvance (job : Job) (a1 : Nat) : Nat :=
  (job.npp (job.progress + a1) + 2 ^ 64 - job.progress) % 2 ^ 64

/-- The assigned progress computed by `Scheduler::assignJob` (scheduler.cpp
lines 226-237). -/
def assignedAmount (s : SchedState) (job : Job) (desired : Dur) : Nat :=
  if job.indivisible || desired = 0 then job.maxProgress - job.progress
  else if job.maxProgress <
      nppAdvance job
        (if estimateOpsFromTime s job.opTypeIndex desired = 0 then 1
         else estimateOpsFromTime s job.opTypeIndex desired) + job.progress then
    job.maxProgress - job.progress
  else
    nppAdvance job
      (if estimateOpsFromTime s job.opTypeIndex desired = 0 then 1
       else estimateOpsFromTime s job.opTypeIndex desired)

/-- `Scheduler::assignJob` (scheduler.cpp lines 221-245).  Returns the job
with its `progress` cursor advanced, the emitted chunk, and the estimated
time of the assigned piece. -/
def assignJob (s : SchedState) (job : Job) (desired : Dur) :
    Job × JobChunk × Dur :=
  ({ job with progress := job.progress + assignedAmount s job desired },
    ⟨job.id, job.progress, job.progress + assignedAmount s job desired⟩,
    estimateTimeOp s job.opTypeIndex (assignedAmount s job desired))

/-- `Scheduler::selectWater` (scheduler.cpp lines 247-263).  Scans the
buckets in order; a job whose `cmpId` is new is moved to the water (output)
list and its whole-job time estimate added.  Returns
`(remaining buckets, water, total water)`. -/
def selectWaterAux (s : SchedState) (cmpIds : List Int) :
    List Job → List Job × List Job × Dur
  | [] => ([], [], 0)
  | j :: rest =>
    if j.cmpId ∈ cmpIds then
      let r := selectWaterAux s cmpIds rest
      (j :: r.1, r.2.1, r.2.2)
    else
      let r := selectWaterAux s (j.cmpId :: cmpIds) rest
      (r.1, j :: r.2.1, estimateTimeOp s j.opTypeIndex j.maxProgress + r.2.2)

/-- One worker's inner loop of `Scheduler::pourWater` (scheduler.cpp lines
290-322).  Returns the chunks poured into this worker's batch, the jobs
fully finished here (in push order), and the buckets left for the next
worker.  Written without `let` so the branches are visible to rewriting;
`newHeight = waterColumn + est` is inlined. -/
def pourLoop (s : SchedState) (lastWorker : Bool) (waterLevel : Dur) :
    Dur → List Job → List JobChunk × List Job × List Job
  | _waterColumn, [] => ([], [], [])
  | waterColumn, bucket :: rest =>
    if waterColumn + estimateTimeOp s bucket.opTypeIndex
        (bucket.maxProgress - bucket.progress) < waterLevel ∨ lastWorker then
      -- pour the whole bucket; the last worker takes all remaining jobs
      ((assignJob s bucket 0).2.1 ::
          (pourLoop s lastWorker waterLevel
            (waterColumn + estimateTimeOp s bucket.opTypeIndex
              (bucket.maxProgress - bucket.progress)) rest).1,
        (assignJob s bucket 0).1 ::
          (pourLoop s lastWorker waterLevel
            (waterColumn + estimateTimeOp s bucket.opTypeIndex
              (bucket.maxProgress - bucket.progress)) rest).2.1,
        (pourLoop s lastWorker waterLevel
          (waterColumn + estimateTimeOp s bucket.opTypeIndex
            (bucket.maxProgress - bucket.progress)) rest).2.2)
    else
      -- pour as much as fits, then move on to the next worker
      if (assignJob s bucket (waterLevel - waterColumn)).1.progress
          = (assignJob s bucket (waterLevel - waterColumn)).1.maxProgress then
        ([(assignJob s bucket (waterLevel - waterColumn)).2.1],
          [(assignJob s bucket (waterLevel - waterColumn)).1], rest)
      else
        ([(assignJob s bucket (waterLevel - waterColumn)).2.1], [],
          (assignJob s bucket (waterLevel - waterColumn)).1 :: rest)

/-- The per-worker loop of `Scheduler::pourWater` (scheduler.cpp lines
284-323), by number of workers still to fill; the last worker is the one
with `remaining = 1`. -/
def pourWorkers (s : SchedState) (waterLevel : Dur) :
    Nat → List Job → List (List JobChunk) × List Job
  | 0, _buckets => ([], [])
  | r + 1, buckets =>
    ((pourLoop s (decide (r = 0)) waterLevel 0 buckets).1 ::
        (pourWorkers s waterLevel r
          (pourLoop s (decide (r = 0)) waterLevel 0 buckets).2.2).1,
      (pourLoop s (decide (r = 0)) waterLevel 0 buckets).2.1 ++
        (pourWorkers s waterLevel r
          (pourLoop s (decide (r = 0)) waterLevel 0 buckets).2.2).2)

/-- `Scheduler::pourWater` (scheduler.cpp lines 273-325): create a fresh
barrier, compute the water level `totWater / nWorkers`, fill the workers.
Returns the updated state and the jobs of the new barrier. -/
def pourWater (s : SchedState) (buckets : List Job) (totWater : Dur) :
    SchedState × List Job :=
  ({ s with
      sequence := s.sequence + 1
      barriers := s.barriers ++
        [⟨s.sequence + 1,
          (pourWorkers s (totWater / (s.nWorkers : Int)) s.nWorkers buckets).2,
          false,
          (pourWorkers s (totWater / (s.nWorkers : Int)) s.nWorkers buckets).1⟩] },
    (pourWorkers s (totWater / (s.nWorkers : Int)) s.nWorkers buckets).2)

/-- `Scheduler::singleThreadedSchedule` (scheduler.cpp lines 327-333): the
whole water goes into one single-threaded barrier; no chunks are created and
no job's `progress` is advanced. -/
def singleThreadedSchedule (s : SchedState) (jobs : List Job) :
    SchedState × List Job :=
  ({ s with
      sequence := s.sequence + 1
      barriers := s.barriers ++
        [⟨s.sequence + 1, jobs, true, List.replicate s.nWorkers []⟩] },
    jobs)

theorem selectWaterAux_rem_length (s : SchedState) :
    ∀ (l : List Job) (cmpIds : List Int),
      (selectWaterAux s cmpIds l).1.length ≤ l.length
  | [], _ => le_refl _
  | j :: rest, cmpIds => by
    unfold selectWaterAux
    by_cases h : j.cmpId ∈ cmpIds
    · simp only [if_pos h]
      have := selectWaterAux_rem_length s rest cmpIds
      simpa using Nat.succ_le_succ this
    · simp only [if_neg h]
      have := selectWaterAux_rem_length s rest (j.cmpId :: cmpIds)
      exact le_trans this (Nat.le_succ _)

theorem selectWaterAux_rem_length_lt (s : SchedState) (j : Job) (rest : List Job) :
    (selectWaterAux s [] (j :: rest)).1.length < (j :: rest).length := by
  unfold selectWaterAux
  simp only [List.not_mem_nil, if_neg, ite_false]
  have := selectWaterAux_rem_length s rest [j.cmpId]
  simpa using Nat.lt_succ_of_le this

/-- One round of `Scheduler::planAllStages` (scheduler.cpp lines 346-352):
batches whose total estimate is below the single-thread threshold go to a
single-threaded barrier, the rest are poured. -/
def planStep (s : SchedState) (water : List Job) (tot : Dur) :
    SchedState × List Job :=
  if tot < s.singleThreadThreshold then singleThreadedSchedule s water
  else pourWater s water tot

/-- The loop of `Scheduler::planAllStages` (scheduler.cpp lines 342-353),
with an explicit structural fuel (the loop removes at least one job per
round, so `fuel = jobs.length` always suffices; see
`selectWaterAux_rem_length_lt`).  Returns the final state and all processed
jobs (each barrier's jobs, in barrier order). -/
def planLoopF (s : SchedState) : Nat → List Job → SchedState × List Job
  | _, [] => (s, [])
  | 0, _ :: _ => (s, [])
  | fuel + 1, j :: rest =>
    ((planLoopF
        (planStep s (selectWaterAux s [] (j :: rest)).2.1
          (selectWaterAux s [] (j :: rest)).2.2).1
        fuel (selectWaterAux s [] (j :: rest)).1).1,
      (planStep s (selectWaterAux s [] (j :: rest)).2.1
        (selectWaterAux s [] (j :: rest)).2.2).2 ++
        (planLoopF
          (planStep s (selectWaterAux s [] (j :: rest)).2.1
            (selectWaterAux s [] (j :: rest)).2.2).1
          fuel (selectWaterAux s [] (j :: rest)).1).2)

/-- `Scheduler::planAllStages` (scheduler.cpp lines 335-354): insert missing
`timeByKernel` entries (this happens whether or not the scheduler is
deterministic), then repeatedly select and pour water. -/
def planAllStages (s : SchedState) (jobs : List Job) : SchedState × List Job :=
  let s1 := jobs.foldl (fun acc j =>
    if (acc.timeByKernel.lookup j.opTypeIndex).isNone then
      { acc with timeByKernel := acc.timeByKernel ++ [(j.opTypeIndex, PerfTracker.pristine)] }
    else acc) s
  planLoopF s1 jobs.length jobs

/-- A deterministic scheduler state with an empty adaptive model, one worker
and the default 30 µs single-thread threshold. -/
def detStart : SchedState :=
  ⟨true, 1, 30000, 0, [], []⟩

/-- A small job: `maxProgress = 1`, divisible, identity
next-progress-point. -/
def tinyJob : Job :=
  ⟨0, 7, 0, 0, 1, false, fun n => n⟩

/-- C2: the planning loop's own postcondition fails for single-threaded
barriers.  With the deterministic model a 1-unit job is estimated at 1 µs,
below the 30 µs single-thread threshold, so `planAllStages` routes it through
`singleThreadedSchedule`, which never advances `progress`; the job comes back
with `progress = 0 ≠ 1 = maxProgress`, contradicting the scheduler's own
`assert(job->progress == job->maxProgress)` (scheduler.cpp line 103) and the
claim.  No chunk is planned for the job either. -/
theorem planAllStages_single_threaded_code_bug :
    ((planAllStages detStart [tinyJob]).2.map (·.progress)) = [0] ∧
    tinyJob.maxProgress = 1 ∧
    (∀ b ∈ (planAllStages detStart [tinyJob]).1.barriers,
      b.singleThreaded = true ∧ b.workerBatches.all (·.isEmpty)) ∧
    ¬ ((planAllStages detStart [tinyJob]).2.map (·.progress))
        = ((planAllStages detStart [tinyJob]).2.map (·.maxProgress)) := by
  refine ⟨by rfl, rfl, ?_, ?_⟩
  · intro b hb
    have heq : (planAllStages detStart [tinyJob]).1.barriers
        = [⟨1, [tinyJob], true, [[]]⟩] := by rfl
    rw [heq] at hb
    simp only [List.mem_singleton] at hb
    subst hb
    exact ⟨rfl, rfl⟩
  · intro h
    rw [show ((planAllStages detStart [tinyJob]).2.map (·.progress)) = [0] from rfl,
        show ((planAllStages detStart [tinyJob]).2.map (·.maxProgress)) = [1] from rfl] at h
    exact absurd h (by decide)

/-! ## C3: distinct `cmpId`s within a barrier -/

/-- Spec-side rendering of the claim's description of `select_water`:
scanning in insertion order, pick exactly the jobs whose `cmpId` is not
already in the set selected so far. -/
def greedySelect (seen : List Int) : List Job → List Job
  | [] => []
  | j :: rest =>
    if j.cmpId ∈ seen then greedySelect seen rest
    else j :: greedySelect (j.cmpId :: seen) rest

/-- Spec-side rendering of the jobs `select_water` leaves behind. -/
def greedyRest (seen : List Int) : List Job → List Job
  | [] => []
  | j :: rest =>
    if j.cmpId ∈ seen then j :: greedyRest seen rest
    else greedyRest (j.cmpId :: seen) rest

theorem selectWaterAux_water_eq_greedy (s : SchedState) :
    ∀ (l : List Job) (ids : List Int),
      (selectWaterAux s ids l).2.1 = greedySelect ids l ∧
      (selectWaterAux s ids l).1 = greedyRest ids l
  | [], _ => ⟨rfl, rfl⟩
  | j :: rest, ids => by
    unfold selectWaterAux greedySelect greedyRest
    by_cases h : j.cmpId ∈ ids
    · simp only [if_pos h]
      exact ⟨(selectWaterAux_water_eq_greedy s rest ids).1,
        by rw [(selectWaterAux_water_eq_greedy s rest ids).2]⟩
    · simp only [if_neg h]
      exact ⟨by rw [(selectWaterAux_water_eq_greedy s rest (j.cmpId :: ids)).1],
        (selectWaterAux_water_eq_greedy s rest (j.cmpId :: ids)).2⟩

theorem greedySelect_nodup :
    ∀ (l : List Job) (seen : List Int),
      ((greedySelect seen l).map (·.cmpId)).Nodup ∧
      ∀ c ∈ (greedySelect seen l).map (·.cmpId), c ∉ seen
  | [], _ => ⟨List.nodup_nil, by intro c hc; simp [greedySelect] at hc⟩
  | j :: rest, seen => by
    unfold greedySelect
    by_cases h : j.cmpId ∈ seen
    · simp only [if_pos h]
      exact greedySelect_nodup rest seen
    · simp only [if_neg h, List.map_cons, List.nodup_cons]
      obtain ⟨hnd, hout⟩ := greedySelect_nodup rest (j.cmpId :: seen)
      refine ⟨⟨?_, hnd⟩, ?_⟩
      · intro hmem
        exact absurd (List.mem_cons_self j.cmpId seen) (hout _ hmem)
      · intro c hc
        rcases List.mem_cons.mp hc with hc | hc
        · rw [hc]; exact h
        · intro hcseen
          exact hout c hc (List.mem_cons_of_mem _ hcseen)

theorem assignJob_cmpId (s : SchedState) (j : Job) (d : Dur) :
    (assignJob s j d).1.cmpId = j.cmpId := rfl

/-- The jobs finished by one worker plus the buckets passed on are, by
`cmpId` multiset, exactly the incoming buckets. -/
theorem pourLoop_perm (s : SchedState) (lw : Bool) (wl : Dur) :
    ∀ (buckets : List Job) (wc : Dur),
      List.Perm
        (((pourLoop s lw wl wc buckets).2.1
          ++ (pourLoop s lw wl wc buckets).2.2).map (·.cmpId))
        (buckets.map (·.cmpId))
  | [], _ => by simp [pourLoop]
  | bucket :: rest, wc => by
    unfold pourLoop
    by_cases h : wc + estimateTimeOp s bucket.opTypeIndex
        (bucket.maxProgress - bucket.progress) < wl ∨ lw = true
    · rw [if_pos h]
      simp only [List.cons_append, List.map_cons, assignJob_cmpId]
      exact (pourLoop_perm s lw wl rest _).cons bucket.cmpId
    · rw [if_neg h]
      by_cases hdone : (assignJob s bucket (wl - wc)).1.progress
          = (assignJob s bucket (wl - wc)).1.maxProgress
      · rw [if_pos hdone]
        simp only [List.cons_append, List.nil_append, List.map_cons,
          assignJob_cmpId]
        exact List.Perm.refl _
      · rw [if_neg hdone]
        simp only [List.nil_append, List.map_cons, assignJob_cmpId]
        exact List.Perm.refl _

/-- Across all workers, the finished jobs' `cmpId`s form a sub-multiset of
the incoming water's `cmpId`s. -/
theorem pourWorkers_submultiset (s : SchedState) (wl : Dur) :
    ∀ (r : Nat) (buckets : List Job),
      ((pourWorkers s wl r buckets).2.map (·.cmpId) : Multiset Int) ≤
        (buckets.map (·.cmpId) : Multiset Int)
  | 0, buckets => by simp [pourWorkers]
  | r + 1, buckets => by
    unfold pourWorkers
    simp only [List.map_append]
    rw [← Multiset.coe_add]
    have h1 := pourLoop_perm s (decide (r = 0)) wl buckets 0
    have h2 := pourWorkers_submultiset s wl r
      (pourLoop s (decide (r = 0)) wl 0 buckets).2.2
    have hperm : (((pourLoop s (decide (r = 0)) wl 0 buckets).2.1).map (·.cmpId)
          : Multiset Int) +
        (((pourLoop s (decide (r = 0)) wl 0 buckets).2.2).map (·.cmpId)
          : Multiset Int) =
        (buckets.map (·.cmpId) : Multiset Int) := by
      rw [Multiset.coe_add]
      rw [← List.map_append]
      exact Multiset.coe_eq_coe.mpr h1
    calc (((pourLoop s (decide (r = 0)) wl 0 buckets).2.1).map (·.cmpId)
          : Multiset Int) +
        ((pourWorkers s wl r (pourLoop s (decide (r = 0)) wl 0 buckets).2.2).2.map
          (·.cmpId) : Multiset Int)
        ≤ (((pourLoop s (decide (r = 0)) wl 0 buckets).2.1).map (·.cmpId)
          : Multiset Int) +
          (((pourLoop s (decide (r = 0)) wl 0 buckets).2.2).map (·.cmpId)
          : Multiset Int) := add_le_add_left h2 _
    _ = (buckets.map (·.cmpId) : Multiset Int) := hperm

theorem pourWater_jobs_nodup (s : SchedState) (buckets : List Job)
    (tot : Dur) (h : (buckets.map (·.cmpId)).Nodup) :
    (((pourWater s buckets tot).2).map (·.cmpId)).Nodup := by
  unfold pourWater
  have hle := pourWorkers_submultiset s (tot / (s.nWorkers : Int))
    s.nWorkers buckets
  have hnd : ((buckets.map (·.cmpId) : List Int) : Multiset Int).Nodup :=
    (Multiset.coe_nodup).mpr h
  exact (Multiset.coe_nodup).mp (Multiset.nodup_of_le hle hnd)

/-- `timeByKernel` insertions (scheduler.cpp lines 337-340) leave everything
except the model untouched. -/
def coldInsert (s : SchedState) (jobs : List Job) : SchedState :=
  jobs.foldl (fun acc j =>
    if (acc.timeByKernel.lookup j.opTypeIndex).isNone then
      { acc with timeByKernel :=
          acc.timeByKernel ++ [(j.opTypeIndex, PerfTracker.pristine)] }
    else acc) s

theorem planAllStages_eq_coldInsert (s : SchedState) (jobs : List Job) :
    planAllStages s jobs = planLoopF (coldInsert s jobs) jobs.length jobs := rfl

theorem coldInsert_barriers (jobs : List Job) :
    ∀ s : SchedState, (coldInsert s jobs).barriers = s.barriers := by
  induction jobs with
  | nil => intro s; rfl
  | cons j rest ih =>
    intro s
    show (coldInsert _ rest).barriers = s.barriers
    rw [ih]
    by_cases h : (s.timeByKernel.lookup j.opTypeIndex).isNone
    · simp [h]
    · simp [h]

/-- The barrier invariant: each created barrier's jobs carry pairwise
distinct `cmpId`s.  The planning loop preserves it; every barrier it appends
is built from one `select_water` result. -/
theorem planLoopF_barriers_nodup :
    ∀ (fuel : Nat) (jobs : List Job) (s : SchedState),
      (∀ b ∈ s.barriers, (b.jobs.map (·.cmpId)).Nodup) →
      ∀ b ∈ (planLoopF s fuel jobs).1.barriers, (b.jobs.map (·.cmpId)).Nodup
  | fuel, [], s, h => by cases fuel <;> exact h
  | 0, _ :: _, _, h => h
  | fuel + 1, j :: rest, s, h => by
    intro b hb
    unfold planLoopF at hb
    refine planLoopF_barriers_nodup fuel _ _ ?_ b hb
    intro b' hb'
    have hwater : ((selectWaterAux s [] (j :: rest)).2.1.map (·.cmpId)).Nodup := by
      rw [(selectWaterAux_water_eq_greedy s (j :: rest) []).1]
      exact (greedySelect_nodup (j :: rest) []).1
    unfold planStep at hb'
    by_cases hth : (selectWaterAux s [] (j :: rest)).2.2 < s.singleThreadThreshold
    · rw [if_pos hth] at hb'
      unfold singleThreadedSchedule at hb'
      simp only [List.mem_append, List.mem_singleton] at hb'
      rcases hb' with hb' | hb'
      · exact h b' hb'
      · rw [hb']
        exact hwater
    · rw [if_neg hth] at hb'
      unfold pourWater at hb'
      simp only [List.mem_append, List.mem_singleton] at hb'
      rcases hb' with hb' | hb'
      · exact h b' hb'
      · rw [hb']
        exact pourWater_jobs_nodup s _ _ hwater

/-- C3: every barrier created while planning a client batch contains jobs
with pairwise distinct `cmpId` values, and `selectWater`, scanning the
remaining jobs in insertion order, moves into the barrier exactly those jobs
whose `cmpId` is not already present in the set selected for that barrier
(the others stay behind, in order). -/
theorem barriers_have_distinct_cmpIds (s : SchedState) (jobs : List Job)
    (h : ∀ b ∈ s.barriers, (b.jobs.map (·.cmpId)).Nodup) :
    (∀ b ∈ (planAllStages s jobs).1.barriers, (b.jobs.map (·.cmpId)).Nodup) ∧
    (∀ (ids : List Int) (l : List Job),
      (selectWaterAux s ids l).2.1 = greedySelect ids l ∧
      (selectWaterAux s ids l).1 = greedyRest ids l) := by
  constructor
  · rw [planAllStages_eq_coldInsert]
    refine planLoopF_barriers_nodup jobs.length jobs (coldInsert s jobs) ?_
    rw [coldInsert_barriers]
    exact h
  · intro ids l
    exact selectWaterAux_water_eq_greedy s l ids

/-- C3, witness: a concrete three-job batch with a repeated `cmpId`. -/
theorem barriers_have_distinct_cmpIds_witness :
    (∀ b ∈ (planAllStages detStart
        [tinyJob, { tinyJob with id := 1, cmpId := 5 },
          { tinyJob with id := 2, cmpId := 0 }]).1.barriers,
      (b.jobs.map (·.cmpId)).Nodup) ∧
    (∀ (ids : List Int) (l : List Job),
      (selectWaterAux detStart ids l).2.1 = greedySelect ids l ∧
      (selectWaterAux detStart ids l).1 = greedyRest ids l) :=
  barriers_have_distinct_cmpIds detStart
    [tinyJob, { tinyJob with id := 1, cmpId := 5 },
      { tinyJob with id := 2, cmpId := 0 }]
    (by intro b hb; simp [detStart] at hb)

/-! ## C4: deterministic mode -/

/-- Erase the adaptive model from a scheduler state; two states that agree
after erasure differ at most in `timeByKernel`. -/
def eraseModel (s : SchedState) : SchedState := { s with timeByKernel := [] }

theorem eraseModel_fields {s1 s2 : SchedState} (h : eraseModel s1 = eraseModel s2) :
    s1.deterministic = s2.deterministic ∧ s1.nWorkers = s2.nWorkers ∧
      s1.singleThreadThreshold = s2.singleThreadThreshold ∧
      s1.sequence = s2.sequence ∧ s1.barriers = s2.barriers := by
  refine ⟨?_, ?_, ?_, ?_, ?_⟩
  · have t := congrArg SchedState.deterministic h; exact t
  · have t := congrArg SchedState.nWorkers h; exact t
  · have t := congrArg SchedState.singleThreadThreshold h; exact t
  · have t := congrArg SchedState.sequence h; exact t
  · have t := congrArg SchedState.barriers h; exact t

theorem estimateTimeOp_det (s : SchedState) (hdet : s.deterministic = true)
    (op ops : Nat) : estimateTimeOp s op ops = 1000 * (ops : Int) := by
  unfold estimateTimeOp
  rw [if_pos hdet]

theorem estimateOpsFromTime_det (s : SchedState) (hdet : s.deterministic = true)
    (op : Nat) (t : Dur) (ht : 0 ≤ t) :
    estimateOpsFromTime s op t = max 1 (t / 1000).toNat := by
  unfold estimateOpsFromTime
  rw [if_pos hdet]
  have hq : (0 : ℚ) ≤ microsecondsQ t := by
    unfold microsecondsQ
    positivity
  have hfloor : ⌊microsecondsQ t⌋ = t / 1000 := by
    unfold microsecondsQ
    have hcast : ((1000 : ℚ)) = ((1000 : ℕ) : ℚ) := by norm_cast
    rw [hcast, Rat.floor_intCast_div_natCast]
    norm_num
  unfold opsFromEst ratTrunc
  rw [if_pos hq, hfloor]
  have h0 : 0 ≤ t / 1000 := Int.ediv_nonneg ht (by norm_num)
  by_cases hz : (t / 1000).toNat = 0
  · rw [if_pos hz, hz]
    omega
  · rw [if_neg hz]
    omega

theorem trackOp_det (s : SchedState) (hdet : s.deterministic = true)
    (op : Nat) (t : Dur) (ops : Nat) : trackOp s op t ops = s := by
  unfold trackOp
  rw [if_pos hdet]

theorem estimateTimeOp_congr {s1 s2 : SchedState}
    (h : eraseModel s1 = eraseModel s2) (hdet : s1.deterministic = true)
    (op ops : Nat) : estimateTimeOp s1 op ops = estimateTimeOp s2 op ops := by
  have hdet2 : s2.deterministic = true := (eraseModel_fields h).1 ▸ hdet
  rw [estimateTimeOp_det s1 hdet, estimateTimeOp_det s2 hdet2]

theorem estimateOpsFromTime_congr {s1 s2 : SchedState}
    (h : eraseModel s1 = eraseModel s2) (hdet : s1.deterministic = true)
    (op : Nat) (t : Dur) :
    estimateOpsFromTime s1 op t = estimateOpsFromTime s2 op t := by
  have hdet2 : s2.deterministic = true := (eraseModel_fields h).1 ▸ hdet
  unfold estimateOpsFromTime
  rw [if_pos hdet, if_pos hdet2]

theorem assignedAmount_congr {s1 s2 : SchedState}
    (h : eraseModel s1 = eraseModel s2) (hdet : s1.deterministic = true)
    (j : Job) (d : Dur) : assignedAmount s1 j d = assignedAmount s2 j d := by
  unfold assignedAmount
  rw [estimateOpsFromTime_congr h hdet]

theorem assignJob_congr {s1 s2 : SchedState}
    (h : eraseModel s1 = eraseModel s2) (hdet : s1.deterministic = true)
    (j : Job) (d : Dur) : assignJob s1 j d = assignJob s2 j d := by
  unfold assignJob
  rw [assignedAmount_congr h hdet, estimateTimeOp_congr h hdet]

theorem selectWaterAux_congr {s1 s2 : SchedState}
    (h : eraseModel s1 = eraseModel s2) (hdet : s1.deterministic = true) :
    ∀ (l : List Job) (ids : List Int),
      selectWaterAux s1 ids l = selectWaterAux s2 ids l
  | [], _ => rfl
  | j :: rest, ids => by
    unfold selectWaterAux
    by_cases hmem : j.cmpId ∈ ids
    · rw [if_pos hmem, if_pos hmem, selectWaterAux_congr h hdet rest ids]
    · rw [if_neg hmem, if_neg hmem, selectWaterAux_congr h hdet rest (j.cmpId :: ids),
        estimateTimeOp_congr h hdet]

theorem pourLoop_congr {s1 s2 : SchedState}
    (h : eraseModel s1 = eraseModel s2) (hdet : s1.deterministic = true)
    (lw : Bool) (wl : Dur) :
    ∀ (l : List Job) (wc : Dur), pourLoop s1 lw wl wc l = pourLoop s2 lw wl wc l
  | [], _ => rfl
  | bucket :: rest, wc => by
    unfold pourLoop
    rw [estimateTimeOp_congr h hdet, assignJob_congr h hdet,
      assignJob_congr h hdet, pourLoop_congr h hdet lw wl rest _]

theorem pourWorkers_congr {s1 s2 : SchedState}
    (h : eraseModel s1 = eraseModel s2) (hdet : s1.deterministic = true)
    (wl : Dur) :
    ∀ (r : Nat) (l : List Job), pourWorkers s1 wl r l = pourWorkers s2 wl r l
  | 0, _ => rfl
  | r + 1, l => by
    unfold pourWorkers
    rw [pourLoop_congr h hdet, pourWorkers_congr h hdet wl r]

theorem pourWater_congr {s1 s2 : SchedState}
    (h : eraseModel s1 = eraseModel s2) (hdet : s1.deterministic = true)
    (l : List Job) (tot : Dur) :
    eraseModel (pourWater s1 l tot).1 = eraseModel (pourWater s2 l tot).1 ∧
      (pourWater s1 l tot).2 = (pourWater s2 l tot).2 ∧
      (pourWater s1 l tot).1.timeByKernel = s1.timeByKernel := by
  obtain ⟨hd, hw, hth, hseq, hbar⟩ := eraseModel_fields h
  unfold pourWater
  rw [pourWorkers_congr h hdet, hw, hseq]
  refine ⟨?_, rfl, rfl⟩
  unfold eraseModel
  rw [hd, hth, hbar]

theorem singleThreadedSchedule_congr {s1 s2 : SchedState}
    (h : eraseModel s1 = eraseModel s2) (l : List Job) :
    eraseModel (singleThreadedSchedule s1 l).1
        = eraseModel (singleThreadedSchedule s2 l).1 ∧
      (singleThreadedSchedule s1 l).2 = (singleThreadedSchedule s2 l).2 ∧
      (singleThreadedSchedule s1 l).1.timeByKernel = s1.timeByKernel := by
  obtain ⟨hd, hw, hth, hseq, hbar⟩ := eraseModel_fields h
  unfold singleThreadedSchedule
  rw [hw, hseq]
  refine ⟨?_, rfl, rfl⟩
  unfold eraseModel
  rw [hd, hth, hbar]

theorem planStep_congr {s1 s2 : SchedState}
    (h : eraseModel s1 = eraseModel s2) (hdet : s1.deterministic = true)
    (l : List Job) (tot : Dur) :
    eraseModel (planStep s1 l tot).1 = eraseModel (planStep s2 l tot).1 ∧
      (planStep s1 l tot).2 = (planStep s2 l tot).2 ∧
      (planStep s1 l tot).1.timeByKernel = s1.timeByKernel ∧
      (planStep s1 l tot).1.deterministic = true := by
  obtain ⟨hd, hw, hth, hseq, hbar⟩ := eraseModel_fields h
  unfold planStep
  rw [hth]
  by_cases hc : tot < s2.singleThreadThreshold
  · rw [if_pos hc, if_pos hc]
    obtain ⟨h1, h2, h3⟩ := singleThreadedSchedule_congr h l
    exact ⟨h1, h2, h3, hdet⟩
  · rw [if_neg hc, if_neg hc]
    obtain ⟨h1, h2, h3⟩ := pourWater_congr h hdet l tot
    exact ⟨h1, h2, h3, hdet⟩

theorem planLoopF_congr {s1 s2 : SchedState}
    (h : eraseModel s1 = eraseModel s2) (hdet : s1.deterministic = true) :
    ∀ (fuel : Nat) (jobs : List Job),
      eraseModel (planLoopF s1 fuel jobs).1 = eraseModel (planLoopF s2 fuel jobs).1 ∧
        (planLoopF s1 fuel jobs).2 = (planLoopF s2 fuel jobs).2 ∧
        (planLoopF s1 fuel jobs).1.timeByKernel = s1.timeByKernel
  | fuel, [] => by cases fuel <;> exact ⟨h, rfl, rfl⟩
  | 0, _ :: _ => ⟨h, rfl, rfl⟩
  | fuel + 1, j :: rest => by
    unfold planLoopF
    rw [selectWaterAux_congr h hdet]
    obtain ⟨h1, h2, h3, h4⟩ := planStep_congr h hdet
      (selectWaterAux s2 [] (j :: rest)).2.1 (selectWaterAux s2 [] (j :: rest)).2.2
    obtain ⟨g1, g2, g3⟩ := planLoopF_congr h1 h4 fuel (selectWaterAux s2 [] (j :: rest)).1
    refine ⟨g1, by rw [h2, g2], by rw [g3, h3]⟩

/-- Planning never writes the adaptive model after the cold-start
insertions: the loop only appends barriers and advances the sequence. -/
theorem planLoopF_model :
    ∀ (fuel : Nat) (jobs : List Job) (s : SchedState),
      (planLoopF s fuel jobs).1.timeByKernel = s.timeByKernel
  | fuel, [], s => by cases fuel <;> rfl
  | 0, _ :: _, _ => rfl
  | fuel + 1, j :: rest, s => by
    unfold planLoopF
    rw [planLoopF_model fuel _ _]
    unfold planStep
    by_cases hc : (selectWaterAux s [] (j :: rest)).2.2 < s.singleThreadThreshold
    · rw [if_pos hc]
      rfl
    · rw [if_neg hc]
      rfl

theorem lookup_append (l1 l2 : List (Nat × PerfTracker)) (k : Nat) :
    (l1 ++ l2).lookup k = (l1.lookup k).or (l2.lookup k) := by
  induction l1 with
  | nil => simp [List.lookup]
  | cons a t ih =>
    simp only [List.cons_append, List.lookup]
    by_cases hk : k = a.1
    · have : (k == a.1) = true := by simpa using hk
      rw [this]
      rfl
    · have : (k == a.1) = false := by simpa using hk
      rw [this]
      exact ih

theorem coldInsert_erase : ∀ (jobs : List Job) (s : SchedState),
    eraseModel (coldInsert s jobs) = eraseModel s := by
  intro jobs
  induction jobs with
  | nil => intro s; rfl
  | cons j rest ih =>
    intro s
    show eraseModel (coldInsert _ rest) = eraseModel s
    rw [ih]
    by_cases hn : (s.timeByKernel.lookup j.opTypeIndex).isNone
    · simp only [if_pos hn]
      rfl
    · simp only [if_neg hn]

/-- What the cold-start insertions do to the model, key by key:
existing entries are preserved, and a missing key that occurs among the
jobs' `opTypeIndex`es gets the pristine tracker. -/
theorem coldInsert_lookup : ∀ (jobs : List Job) (s : SchedState) (k : Nat),
    (coldInsert s jobs).timeByKernel.lookup k =
      (s.timeByKernel.lookup k).or
        (if k ∈ jobs.map (·.opTypeIndex) then some PerfTracker.pristine else none) := by
  intro jobs
  induction jobs with
  | nil =>
    intro s k
    simp [coldInsert]
  | cons j rest ih =>
    intro s k
    show (coldInsert _ rest).timeByKernel.lookup k = _
    rw [ih]
    by_cases hn : (s.timeByKernel.lookup j.opTypeIndex).isNone
    · simp only [if_pos hn]
      show ((s.timeByKernel ++ [(j.opTypeIndex, PerfTracker.pristine)]).lookup k).or _ = _
      rw [lookup_append]
      by_cases hk : k = j.opTypeIndex
      · rw [hk]
        have hnone : s.timeByKernel.lookup j.opTypeIndex = none := by
          cases hl : s.timeByKernel.lookup j.opTypeIndex with
          | none => rfl
          | some pt => rw [hl] at hn; simp at hn
        rw [hnone]
        simp [List.lookup]
      · have hne : (k == j.opTypeIndex) = false := by simpa using hk
        have hl1 : ([(j.opTypeIndex, PerfTracker.pristine)] : List (Nat × PerfTracker)).lookup k = none := by
          simp [List.lookup, hne]
        rw [hl1]
        have hmem : (k ∈ (j :: rest).map (·.opTypeIndex)) ↔ (k ∈ rest.map (·.opTypeIndex)) := by
          simp only [List.map_cons, List.mem_cons]
          constructor
          · rintro (h | h)
            · exact absurd h hk
            · exact h
          · exact Or.inr
        by_cases hr : k ∈ rest.map (·.opTypeIndex)
        · rw [if_pos hr, if_pos (hmem.mpr hr)]
          cases s.timeByKernel.lookup k <;> rfl
        · rw [if_neg hr, if_neg (fun hc => hr (hmem.mp hc))]
          cases s.timeByKernel.lookup k <;> rfl
    · simp only [if_neg hn]
      obtain ⟨pt, hpt⟩ : ∃ pt, s.timeByKernel.lookup j.opTypeIndex = some pt := by
        cases hl : s.timeByKernel.lookup j.opTypeIndex with
        | none => rw [hl] at hn; simp at hn
        | some pt => exact ⟨pt, rfl⟩
      by_cases hk : k = j.opTypeIndex
      · subst hk
        rw [hpt]
        rfl
      · have hmem : (k ∈ (j :: rest).map (·.opTypeIndex)) ↔ (k ∈ rest.map (·.opTypeIndex)) := by
          simp only [List.map_cons, List.mem_cons]
          constructor
          · rintro (h | h)
            · exact absurd h hk
            · exact h
          · exact Or.inr
        by_cases hr : k ∈ rest.map (·.opTypeIndex)
        · rw [if_pos hr, if_pos (hmem.mpr hr)]
        · rw [if_neg hr, if_neg (fun hc => hr (hmem.mp hc))]

/-- C4 counterexample: in deterministic mode, `planAllStages` *does* write
the adaptive model: running it with an empty `timeByKernel` on a job with a
fresh `opTypeIndex` inserts a default entry (scheduler.cpp lines 337-340 run
unconditionally), so "the scheduler neither reads nor writes the adaptive
model during planning" is false as stated. -/
theorem deterministic_planning_writes_model :
    detStart.deterministic = true ∧
      (planAllStages detStart [tinyJob]).1.timeByKernel ≠ detStart.timeByKernel := by
  refine ⟨rfl, ?_⟩
  intro hmodel
  rw [show (planAllStages detStart [tinyJob]).1.timeByKernel
      = [(7, PerfTracker.pristine)] from rfl] at hmodel
  simp [detStart] at hmodel

/-- C4 amended: with the scheduler in deterministic mode,
`estimateTimeOp(op, ops)` is exactly `ops` microseconds,
`estimateOpsFromTime(op, t)` is `max(1, ⌊t in µs⌋)` (for `t ≥ 0`),
`trackOp` leaves the timing model unchanged, and planning does not *read*
the adaptive model — the planned jobs and barriers are identical for any two
states that differ only in `timeByKernel`.  However planning still *writes*
the model: `planAllStages` inserts a pristine tracker for every previously
unseen `opTypeIndex` (and changes nothing else in the model). -/
theorem deterministic_mode_amended (s s' : SchedState) (op ops : Nat) (t : Dur)
    (jobs : List Job) (hdet : s.deterministic = true) (ht : 0 ≤ t)
    (hs' : eraseModel s' = eraseModel s) :
    estimateTimeOp s op ops = 1000 * (ops : Int) ∧
    estimateOpsFromTime s op t = max 1 (t / 1000).toNat ∧
    trackOp s op t ops = s ∧
    (planAllStages s' jobs).2 = (planAllStages s jobs).2 ∧
    eraseModel (planAllStages s' jobs).1 = eraseModel (planAllStages s jobs).1 ∧
    ∀ k, (planAllStages s jobs).1.timeByKernel.lookup k =
      (s.timeByKernel.lookup k).or
        (if k ∈ jobs.map (·.opTypeIndex) then some PerfTracker.pristine
         else none) := by
  have hchain : eraseModel (coldInsert s' jobs) = eraseModel (coldInsert s jobs) := by
    rw [coldInsert_erase, coldInsert_erase, hs']
  have hdetCold : (coldInsert s' jobs).deterministic = true := by
    have h1 := congrArg SchedState.deterministic (coldInsert_erase jobs s')
    have h2 := congrArg SchedState.deterministic hs'
    show (coldInsert s' jobs).deterministic = true
    rw [show (coldInsert s' jobs).deterministic = s'.deterministic from h1,
      show s'.deterministic = s.deterministic from h2]
    exact hdet
  obtain ⟨g1, g2, _⟩ := planLoopF_congr hchain hdetCold jobs.length jobs
  refine ⟨estimateTimeOp_det s hdet op ops, estimateOpsFromTime_det s hdet op t ht,
    trackOp_det s hdet op t ops, g2, g1, ?_⟩
  intro k
  show (planLoopF (coldInsert s jobs) jobs.length jobs).1.timeByKernel.lookup k = _
  rw [planLoopF_model, coldInsert_lookup]

/-- C4 amended, witness. -/
theorem deterministic_mode_amended_witness :
    estimateTimeOp detStart 0 3 = 1000 * (3 : Int) ∧
    estimateOpsFromTime detStart 0 2500 = max 1 ((2500 : Int) / 1000).toNat ∧
    trackOp detStart 0 2500 3 = detStart ∧
    (planAllStages detStart [tinyJob]).2 = (planAllStages detStart [tinyJob]).2 ∧
    eraseModel (planAllStages detStart [tinyJob]).1
      = eraseModel (planAllStages detStart [tinyJob]).1 ∧
    ∀ k, (planAllStages detStart [tinyJob]).1.timeByKernel.lookup k =
      (detStart.timeByKernel.lookup k).or
        (if k ∈ [tinyJob].map (·.opTypeIndex) then some PerfTracker.pristine
         else none) :=
  deterministic_mode_amended detStart detStart 0 3 2500 [tinyJob] rfl
    (by decide) rfl

/-! ## AdjListLink (denselink.hpp, lines 1089-1402)

An adjacency entry is a pair `(edgeIx, farNode)` (`NeighborIndices`).  The
type-erased edge tensors (`AnyVector` behind `VariantVectorWrapper`) are
modelled with a representative payload type `Nat` whose default value is `0`:
`resize` pads with the default, `refreshIndex` resets one slot to the
default, `move` copies a slot. -/

structure AdjState where
  dim0 : List Nat
  dim1 : List Nat
  end0Adjacency : List (List (Nat × Nat))
  end1Adjacency : List (List (Nat × Nat))
  edgeIxBound : Nat
  destructedStatus : List Bool
  end0LinkData : List Nat
  end1LinkData : List Nat
  dirty : Bool
  end0CumulativeEdgeCounts : List Nat
  end1CumulativeEdgeCounts : List Nat
deriving DecidableEq, Repr

/-- `std::vector::resize(n, v)` / `resize(n)` with default payload. -/
def resizeList (l : List Nat) (n : Nat) (v : Nat) : List Nat :=
  if n ≤ l.length then l.take n else l ++ List.replicate (n - l.length) v

def resizeBools (l : List Bool) (n : Nat) (v : Bool) : List Bool :=
  if n ≤ l.length then l.take n else l ++ List.replicate (n - l.length) v

/-- `AdjListLink::setDimensions` (denselink.hpp lines 1113-1122) on a fresh
link. -/
def AdjState.fresh (dim0 dim1 : List Nat) : AdjState :=
  ⟨dim0, dim1, List.replicate (prodDims dim0) [],
    List.replicate (prodDims dim1) [], 0, [], [], [], false, [], []⟩

/-- The per-pair loop of `AdjListLink::insertEdges` (denselink.hpp lines
1186-1192).  `end0Adjacency.at(end0ix)` is evaluated (and throws) before the
push; a successful end-0 push precedes the end-1 `at`, so an end-1 failure
leaves the end-0 half inserted.  On error the partially mutated state is
returned together with the error. -/
def insertEdgesLoop : AdjState → List (Nat × Nat) → AdjState × Option String
  | st, [] => (st, none)
  | st, (a, b) :: rest =>
    if a < st.end0Adjacency.length then
      if b < st.end1Adjacency.length then
        insertEdgesLoop
          { st with
              end0Adjacency := st.end0Adjacency.set a
                (st.end0Adjacency.getD a [] ++ [(st.edgeIxBound, b)])
              end1Adjacency := st.end1Adjacency.set b
                (st.end1Adjacency.getD b [] ++ [(st.edgeIxBound, a)])
              edgeIxBound := st.edgeIxBound + 1 }
          rest
      else
        ({ st with
            end0Adjacency := st.end0Adjacency.set a
              (st.end0Adjacency.getD a [] ++ [(st.edgeIxBound, b)]) },
          some "out of range")
    else (st, some "out of range")

/-- `AdjListLink::insertEdges` (denselink.hpp lines 1182-1205): run the pair
loop; only a fully successful run reaches the data resizes and the dirty
flag. -/
def insertEdges (st : AdjState) (pairs : List (Nat × Nat)) :
    AdjState × Option String :=
  match insertEdgesLoop st pairs with
  | (st', none) =>
    ({ st' with
        end0LinkData := resizeList st'.end0LinkData st'.edgeIxBound 0
        end1LinkData := resizeList st'.end1LinkData st'.edgeIxBound 0
        destructedStatus := resizeBools st'.destructedStatus st'.edgeIxBound false
        dirty := true }, none)
  | (st', some e) => (st', some e)

/-- Erase the first entry whose `farNode` equals `far`; also report its
`edgeIx`. -/
def removeFirstMatch (far : Nat) : List (Nat × Nat) →
    List (Nat × Nat) × Option Nat
  | [] => ([], none)
  | p :: t =>
    if p.2 = far then (t, some p.1)
    else ((p :: (removeFirstMatch far t).1), (removeFirstMatch far t).2)

/-- `AdjListLink::callEdgeDataDestructor` (denselink.hpp lines 1216-1241):
refresh both edge-data slots to the default and tombstone the index. -/
def callEdgeDataDestructor (st : AdjState) (edgeIx : Nat) : AdjState :=
  { st with
      end0LinkData := st.end0LinkData.set edgeIx 0
      end1LinkData := st.end1LinkData.set edgeIx 0
      destructedStatus := st.destructedStatus.set edgeIx true }

/-- The end-1 half of a `removeEdges` pair (denselink.hpp lines 1267-1273):
erase the first entry of `end1Adjacency.at(b)` whose far node is `a`. -/
def eraseEnd1First (st : AdjState) (a b : Nat) : AdjState :=
  { st with end1Adjacency := st.end1Adjacency.set b (removeFirstMatch a (st.end1Adjacency.getD b [])).1 }

/-- One in-range pair of `AdjListLink::removeEdges` (denselink.hpp lines
1256-1273): erase the first far-`b` entry of `end0Adjacency.at(a)` (if any,
destructing its edge data), then the first far-`a` entry of
`end1Adjacency.at(b)`. -/
def removePairStep (st : AdjState) (a b : Nat) : AdjState :=
  match removeFirstMatch b (st.end0Adjacency.getD a []) with
  | (v0', some edgeIx) =>
    eraseEnd1First (callEdgeDataDestructor { st with end0Adjacency := st.end0Adjacency.set a v0' } edgeIx) a b
  | (_, none) => eraseEnd1First st a b

/-- The per-pair loop of `AdjListLink::removeEdges` (denselink.hpp lines
1253-1274).  Both `at` calls precede any mutation for a pair, so a bad index
fails before the pair takes effect; earlier pairs stay applied. -/
def removeEdgesLoop : AdjState → List (Nat × Nat) → AdjState × Option String
  | st, [] => (st, none)
  | st, (a, b) :: rest =>
    if a < st.end0Adjacency.length then
      if b < st.end1Adjacency.length then
        removeEdgesLoop (removePairStep st a b) rest
      else (st, some "out of range")
    else (st, some "out of range")

/-- `AdjListLink::removeEdges` (denselink.hpp lines 1252-1276). -/
def removeEdges (st : AdjState) (pairs : List (Nat × Nat)) :
    AdjState × Option String :=
  match removeEdgesLoop st pairs with
  | (st', none) => ({ st' with dirty := true }, none)
  | (st', some e) => (st', some e)

/-- Running prefix sums with carried accumulator (the in-place cumulative
loops of `initialize`/`resetCumulativeEdgeCounts`/`defragmentEdges`):
entry `i` of the result is `acc + xs[0] + ... + xs[i]`. -/
def cumFrom (acc : Nat) : List Nat → List Nat
  | [] => []
  | x :: xs => (acc + x) :: cumFrom (acc + x) xs

/-- The `partialSums` array of `AdjListLink::defragmentEdges` (denselink.hpp
lines 1287-1293): `partialSums[i]` counts the non-tombstoned edges with
index `≤ i`. -/
def liveCounts (destructed : List Bool) : List Nat :=
  cumFrom 0 (destructed.map fun d => if d then 0 else 1)

/-- The data-compaction loop of `defragmentEdges` (denselink.hpp lines
1328-1343): `vec.move(i, partialSums[i]-1)` for each live `i` (detected by
`partialSums[i] > j`); the caller then applies `resize(edgeCount)`.  The
index sequence `0, 1, ..., size-1` is materialized up front (`set` keeps the
length unchanged, as the C++ moves do). -/
def defragMoveAux (ps : List Nat) : List Nat → Nat → List Nat → List Nat
  | [], _, data => data
  | i :: is, j, data =>
    if j < ps.getD i 0 then
      defragMoveAux ps is (ps.getD i 0)
        (data.set (ps.getD i 0 - 1) (data.getD i 0))
    else defragMoveAux ps is j data

def defragMoveFrom (ps : List Nat) (data : List Nat) : List Nat :=
  defragMoveAux ps (List.range data.length) 0 data

/-- `AdjListLink::defragmentEdges` (denselink.hpp lines 1284-1350). -/
def defragmentEdges (st : AdjState) : AdjState :=
  { st with
      end0Adjacency := st.end0Adjacency.map fun row =>
        row.map fun p => ((liveCounts st.destructedStatus).getD p.1 0 - 1, p.2)
      end1Adjacency := st.end1Adjacency.map fun row =>
        row.map fun p => ((liveCounts st.destructedStatus).getD p.1 0 - 1, p.2)
      edgeIxBound := ((liveCounts st.destructedStatus).getLastD 0)
      end0LinkData := resizeList
        (defragMoveFrom (liveCounts st.destructedStatus) st.end0LinkData)
        ((liveCounts st.destructedStatus).getLastD 0) 0
      end1LinkData := resizeList
        (defragMoveFrom (liveCounts st.destructedStatus) st.end1LinkData)
        ((liveCounts st.destructedStatus).getLastD 0) 0
      destructedStatus :=
        List.replicate ((liveCounts st.destructedStatus).getLastD 0) false }

/-- `AdjListLink::resetCumulativeEdgeCounts` (denselink.hpp lines
1141-1155). -/
def resetCumulativeEdgeCounts (st : AdjState) : AdjState :=
  if st.dirty then
    { st with
        end0CumulativeEdgeCounts := cumFrom 0 (st.end0Adjacency.map (·.length))
        end1CumulativeEdgeCounts := cumFrom 0 (st.end1Adjacency.map (·.length))
        dirty := false }
  else st

/-- `AdjListLink::maxProgress` (denselink.hpp lines 1356-1361): refresh the
cumulative counts, then return the *end-0* total whatever `whichEnd` is. -/
def AdjState.maxProgress (st : AdjState) (_whichEnd : Nat) : Nat :=
  (resetCumulativeEdgeCounts st).end0CumulativeEdgeCounts.getLastD 0

/-- The index returned by `std::lower_bound(arr.begin(), arr.end(), v)` on a
sorted vector: the first position whose entry is `≥ v`, or the length when
there is none. -/
def lowB (v : Nat) : List Nat → Nat
  | [] => 0
  | x :: xs => if v ≤ x then 0 else lowB v xs + 1

/-- `AdjListLink::requestPartialProgress` (denselink.hpp lines 1363-1373). -/
def AdjState.requestPartialProgress (st : AdjState) (whichEnd r : Nat) : Nat :=
  let st' := resetCumulativeEdgeCounts st
  let arr := if whichEnd = 0 then st'.end0CumulativeEdgeCounts
             else st'.end1CumulativeEdgeCounts
  if arr.isEmpty then 0
  else match arr.get? (lowB r arr) with
    | some x => x
    | none => arr.getLastD 0

/-! ### C9: failure semantics of the adjacency edits -/

/-- A 1×1 adjacency link. -/
def adjTiny : AdjState := AdjState.fresh [1] [1]

/-- C9 counterexample: `insertEdges` on the pairs `[(0,0), (0,5)]` over a
1-node-per-end link raises the out-of-range error for the second pair, but
the state *is* mutated on this failure: the first pair was fully inserted
(and the failing pair's end-0 half was pushed as well) — `edgeIxBound` went
from 0 to 1 and `end0Adjacency[0]` holds two entries.  There is no
rollback. -/
theorem adjlist_oob_mutation_counterexample :
    (insertEdges adjTiny [(0, 0), (0, 5)]).2 = some "out of range" ∧
    (insertEdges adjTiny [(0, 0), (0, 5)]).1 ≠ adjTiny := by
  refine ⟨rfl, ?_⟩
  intro h
  have hbound : (insertEdges adjTiny [(0, 0), (0, 5)]).1.edgeIxBound = 1 := rfl
  rw [h] at hbound
  exact absurd hbound (by decide)

theorem removeFirstMatch_no_match (far : Nat) :
    ∀ l : List (Nat × Nat), (∀ p ∈ l, p.2 ≠ far) →
      removeFirstMatch far l = (l, none)
  | [], _ => rfl
  | p :: t, h => by
    unfold removeFirstMatch
    rw [if_neg (h p (List.mem_cons_self p t))]
    rw [removeFirstMatch_no_match far t (fun q hq => h q (List.mem_cons_of_mem p hq))]

theorem set_getD_self : ∀ (l : List (List (Nat × Nat))) (i : Nat),
    l.set i (l.getD i []) = l
  | [], _ => rfl
  | x :: xs, 0 => rfl
  | x :: xs, i + 1 => by
    show x :: xs.set i (xs.getD i []) = x :: xs
    rw [set_getD_self xs i]

/-- C9 amended: out-of-range node indices in `insertEdges`/`removeEdges`
raise the out-of-bounds error.  A single-pair `removeEdges` mutates nothing
on failure, and an `insertEdges` whose end-0 index is bad mutates nothing;
but an `insertEdges` pair whose end-1 index is bad leaves its end-0 half
inserted (and in multi-pair calls all earlier pairs stay applied): there is
no rollback.  `removeEdges` on an in-range pair with no matching edge leaves
the adjacency lists and the edge data unchanged (it only marks the
cumulative counts dirty). -/
theorem adjlist_failure_semantics_amended (st : AdjState) (a b : Nat) :
    (¬ a < st.end0Adjacency.length →
      insertEdges st [(a, b)] = (st, some "out of range") ∧
      removeEdges st [(a, b)] = (st, some "out of range")) ∧
    (a < st.end0Adjacency.length → ¬ b < st.end1Adjacency.length →
      insertEdges st [(a, b)] =
        ({ st with end0Adjacency := st.end0Adjacency.set a (st.end0Adjacency.getD a [] ++ [(st.edgeIxBound, b)]) },
          some "out of range") ∧
      removeEdges st [(a, b)] = (st, some "out of range")) ∧
    (a < st.end0Adjacency.length → b < st.end1Adjacency.length →
      (∀ p ∈ st.end0Adjacency.getD a [], p.2 ≠ b) →
      (∀ p ∈ st.end1Adjacency.getD b [], p.2 ≠ a) →
      removeEdges st [(a, b)] = ({ st with dirty := true }, none)) := by
  refine ⟨?_, ?_, ?_⟩
  · intro hA
    constructor
    · unfold insertEdges insertEdgesLoop
      rw [if_neg hA]
    · unfold removeEdges removeEdgesLoop
      rw [if_neg hA]
  · intro hA hB
    constructor
    · unfold insertEdges insertEdgesLoop
      rw [if_pos hA, if_neg hB]
    · unfold removeEdges removeEdgesLoop
      rw [if_pos hA, if_neg hB]
  · intro hA hB h0 h1
    have hstep : removePairStep st a b = st := by
      unfold removePairStep
      rw [removeFirstMatch_no_match b _ h0]
      show eraseEnd1First st a b = st
      unfold eraseEnd1First
      rw [removeFirstMatch_no_match a _ h1]
      show { st with end1Adjacency := st.end1Adjacency.set b (st.end1Adjacency.getD b []) } = st
      rw [set_getD_self]
    unfold removeEdges removeEdgesLoop
    rw [if_pos hA, if_pos hB, hstep]
    rfl

/-- C9 amended, witness. -/
theorem adjlist_failure_semantics_amended_witness :
    insertEdges adjTiny [(5, 0)] = (adjTiny, some "out of range") ∧
    removeEdges adjTiny [(0, 0)] = ({ adjTiny with dirty := true }, none) :=
  ⟨((adjlist_failure_semantics_amended adjTiny 5 0).1 (by decide)).1,
    (adjlist_failure_semantics_amended adjTiny 0 0).2.2 (by decide) (by decide)
      (by decide) (by decide)⟩

/-! ### C10: the two ends of the adjacency link mirror each other

Helper notions: `seqOf far row` is the ordered list of edge indices of the
entries of one adjacency row that point at a given far node; `flatIx rows`
is the list of all edge indices stored at one end. -/

def seqOf (far : Nat) (row : List (Nat × Nat)) : List Nat :=
  row.filterMap fun p => if p.2 = far then some p.1 else none

def seq0 (st : AdjState) (a b : Nat) : List Nat := seqOf b (st.end0Adjacency.getD a [])

def seq1 (st : AdjState) (b a : Nat) : List Nat := seqOf a (st.end1Adjacency.getD b [])

def ixRow (row : List (Nat × Nat)) : List Nat := row.map (·.1)

def flatIx (rows : List (List (Nat × Nat))) : List Nat := (rows.map ixRow).flatten

theorem mem_seqOf {e far : Nat} {row : List (Nat × Nat)} :
    e ∈ seqOf far row ↔ (e, far) ∈ row := by
  unfold seqOf
  rw [List.mem_filterMap]
  constructor
  · rintro ⟨p, hp, hf⟩
    by_cases h : p.2 = far
    · rw [if_pos h] at hf
      have he : p.1 = e := by injection hf
      have : p = (e, far) := Prod.ext he h
      rw [← this]
      exact hp
    · rw [if_neg h] at hf
      cases hf
  · intro hp
    exact ⟨(e, far), hp, by simp⟩

theorem mem_ixRow {e : Nat} {row : List (Nat × Nat)} :
    e ∈ ixRow row ↔ ∃ far, (e, far) ∈ row := by
  unfold ixRow
  rw [List.mem_map]
  constructor
  · rintro ⟨p, hp, he⟩
    exact ⟨p.2, by rw [show (e, p.2) = p from Prod.ext he.symm rfl]; exact hp⟩
  · rintro ⟨far, hp⟩
    exact ⟨(e, far), hp, rfl⟩

theorem getD_set_self {α : Type} (l : List α) (i : Nat) (v d : α)
    (h : i < l.length) : (l.set i v).getD i d = v := by
  simp [List.getD_eq_getElem?_getD, List.getElem?_set_self, h]

theorem getD_set_ne {α : Type} (l : List α) {i j : Nat} (v d : α)
    (h : i ≠ j) : (l.set i v).getD j d = l.getD j d := by
  simp [List.getD_eq_getElem?_getD, List.getElem?_set_ne h]

theorem getD_map_nil {α β : Type} (f : List α → List β) (hf : f [] = []) :
    ∀ (rows : List (List α)) (a : Nat),
      (rows.map f).getD a [] = f (rows.getD a [])
  | [], a => by simp [hf]
  | r :: rs, 0 => rfl
  | r :: rs, a + 1 => getD_map_nil f hf rs a

theorem flatten_set_append {α : Type} :
    ∀ (l : List (List α)) (a : Nat) (x : α), a < l.length →
      List.Perm ((l.set a (l.getD a [] ++ [x])).flatten) (x :: l.flatten)
  | [], a, x, h => absurd h (by simp)
  | r :: rs, 0, x, _ => by
    simp only [List.set, List.getD_cons_zero, List.flatten_cons, List.append_assoc,
      List.singleton_append]
    exact List.perm_middle
  | r :: rs, a + 1, x, h => by
    simp only [List.set, List.getD_cons_succ, List.flatten_cons]
    have ih := flatten_set_append rs a x (by simpa using h)
    exact (List.Perm.append_left r ih).trans List.perm_middle

theorem flatten_set_sublist {α : Type} :
    ∀ (l : List (List α)) (a : Nat) (v : List α), v.Sublist (l.getD a []) →
      ((l.set a v).flatten).Sublist l.flatten
  | [], _, _, _ => by simp
  | r :: rs, 0, v, h => by
    simp only [List.set, List.flatten_cons]
    exact (h : v.Sublist r).append (List.Sublist.refl rs.flatten)
  | r :: rs, a + 1, v, h => by
    simp only [List.set, List.flatten_cons]
    exact (List.Sublist.refl r).append (flatten_set_sublist rs a v h)

theorem sum_map_set {α : Type} (f : α → Nat) :
    ∀ (l : List α) (a : Nat) (v d : α), a < l.length →
      ((l.set a v).map f).sum + f (l.getD a d) = (l.map f).sum + f v
  | [], _, _, _, h => absurd h (by simp)
  | x :: xs, 0, v, d, _ => by
    simp only [List.set, List.map_cons, List.sum_cons, List.getD_cons_zero]
    omega
  | x :: xs, a + 1, v, d, h => by
    simp only [List.set, List.map_cons, List.sum_cons, List.getD_cons_succ]
    have ih := sum_map_set f xs a v d (by simpa using h)
    omega

theorem cumFrom_length : ∀ (a : Nat) (l : List Nat),
    (cumFrom a l).length = l.length
  | _, [] => rfl
  | a, x :: xs => by
    simp only [cumFrom, List.length_cons]
    rw [cumFrom_length (a + x) xs]

theorem sum_take_succ : ∀ (l : List Nat) (i : Nat), i < l.length →
    (l.take (i + 1)).sum = (l.take i).sum + l.getD i 0
  | [], i, h => absurd h (by simp)
  | x :: xs, 0, _ => by simp
  | x :: xs, i + 1, h => by
    simp only [List.take, List.sum_cons, List.getD_cons_succ]
    rw [sum_take_succ xs i (by simpa using h)]
    omega

theorem sum_take_mono (l : List Nat) {i j : Nat} (h : i ≤ j) :
    (l.take i).sum ≤ (l.take j).sum := by
  have heq : (l.take j).take i = l.take i := by
    rw [List.take_take, Nat.min_eq_left h]
  have hsub : (l.take i).Sublist (l.take j) := by
    rw [← heq]
    exact List.take_sublist i (l.take j)
  exact hsub.sum_le_sum (fun a _ => Nat.zero_le a)

theorem cumFrom_getD : ∀ (l : List Nat) (a i : Nat), i < l.length →
    (cumFrom a l).getD i 0 = a + (l.take (i + 1)).sum
  | [], _, i, h => absurd h (by simp)
  | x :: xs, a, 0, _ => by simp [cumFrom]
  | x :: xs, a, i + 1, h => by
    simp only [cumFrom, List.getD_cons_succ, List.take, List.sum_cons]
    rw [cumFrom_getD xs (a + x) i (by simpa using h)]
    omega

theorem cumFrom_getLastD : ∀ (a : Nat) (l : List Nat),
    (cumFrom a l).getLastD a = a + l.sum
  | _, [] => by simp [cumFrom]
  | a, x :: xs => by
    simp only [cumFrom, List.getLastD_cons, List.sum_cons]
    rw [cumFrom_getLastD (a + x) xs]
    omega

/-- The weight vector underlying `liveCounts`. -/
def liveWeights (destructed : List Bool) : List Nat :=
  destructed.map fun d => if d then 0 else 1

theorem liveWeights_getD (destructed : List Bool) (e : Nat)
    (he : e < destructed.length) (hlive : destructed.getD e false = false) :
    (liveWeights destructed).getD e 0 = 1 := by
  unfold liveWeights
  rw [List.getD_eq_getElem?_getD, List.getElem?_map]
  rw [List.getD_eq_getElem?_getD] at hlive
  cases hx : destructed[e]? with
  | none =>
    rw [List.getElem?_eq_none_iff] at hx
    omega
  | some x =>
    rw [hx] at hlive
    simp only [Option.getD_some] at hlive
    rw [hlive]
    rfl

/-- `liveCounts` of a live index is at least 1 and bounded by the live
total; distinct live indices get distinct `partialSums[·]-1` values, in
order. -/
theorem liveCounts_getD_eq (destructed : List Bool) (e : Nat)
    (he : e < destructed.length) :
    (liveCounts destructed).getD e 0 = ((liveWeights destructed).take (e + 1)).sum := by
  unfold liveCounts
  have hlen : e < (liveWeights destructed).length := by
    unfold liveWeights; simpa using he
  have := cumFrom_getD (liveWeights destructed) 0 e hlen
  unfold liveWeights at this ⊢
  omega

theorem liveCounts_pos (destructed : List Bool) (e : Nat)
    (he : e < destructed.length) (hlive : destructed.getD e false = false) :
    1 ≤ (liveCounts destructed).getD e 0 := by
  rw [liveCounts_getD_eq destructed e he]
  have h1 := sum_take_succ (liveWeights destructed) e
    (by unfold liveWeights; simpa using he)
  rw [liveWeights_getD destructed e he hlive] at h1
  omega

theorem liveCounts_le_total (destructed : List Bool) (e : Nat)
    (he : e < destructed.length) :
    (liveCounts destructed).getD e 0 ≤ (liveCounts destructed).getLastD 0 := by
  rw [liveCounts_getD_eq destructed e he]
  show _ ≤ (cumFrom 0 (liveWeights destructed)).getLastD 0
  rw [cumFrom_getLastD 0 (liveWeights destructed)]
  have : ((liveWeights destructed).take (e + 1)).sum
      ≤ ((liveWeights destructed).take (liveWeights destructed).length).sum := by
    apply sum_take_mono
    unfold liveWeights
    simpa using he
  rw [List.take_length] at this
  omega

theorem liveCounts_strict (destructed : List Bool) {e e' : Nat}
    (hlt : e < e') (he' : e' < destructed.length)
    (hlive' : destructed.getD e' false = false) :
    (liveCounts destructed).getD e 0 < (liveCounts destructed).getD e' 0 := by
  have he : e < destructed.length := lt_trans hlt he'
  rw [liveCounts_getD_eq destructed e he, liveCounts_getD_eq destructed e' he']
  have hw : e' < (liveWeights destructed).length := by
    unfold liveWeights; simpa using he'
  have hstep := sum_take_succ (liveWeights destructed) e' hw
  rw [liveWeights_getD destructed e' he' hlive'] at hstep
  have hmono : ((liveWeights destructed).take (e + 1)).sum
      ≤ ((liveWeights destructed).take e').sum :=
    sum_take_mono _ (by omega)
  omega

/-- The new index a live edge receives in `defragmentEdges`. -/
theorem renum_lt_total (destructed : List Bool) (e : Nat)
    (he : e < destructed.length) (hlive : destructed.getD e false = false) :
    (liveCounts destructed).getD e 0 - 1 < (liveCounts destructed).getLastD 0 := by
  have h1 := liveCounts_pos destructed e he hlive
  have h2 := liveCounts_le_total destructed e he
  omega

theorem renum_inj (destructed : List Bool) {e e' : Nat}
    (he : e < destructed.length) (he' : e' < destructed.length)
    (hlive : destructed.getD e false = false)
    (hlive' : destructed.getD e' false = false)
    (hne : e ≠ e') :
    (liveCounts destructed).getD e 0 - 1 ≠ (liveCounts destructed).getD e' 0 - 1 := by
  rcases Nat.lt_or_ge e e' with h | h
  · have hs := liveCounts_strict destructed h he' hlive'
    have hp := liveCounts_pos destructed e he hlive
    omega
  · have hlt : e' < e := by omega
    have hs := liveCounts_strict destructed hlt he hlive
    have hp := liveCounts_pos destructed e' he' hlive'
    omega

theorem seqOf_cons (f : Nat) (p : Nat × Nat) (t : List (Nat × Nat)) :
    seqOf f (p :: t) = if p.2 = f then p.1 :: seqOf f t else seqOf f t := by
  unfold seqOf
  rw [List.filterMap_cons]
  by_cases h : p.2 = f
  · rw [if_pos h, if_pos h]
  · rw [if_neg h, if_neg h]

theorem ixRow_cons (p : Nat × Nat) (t : List (Nat × Nat)) :
    ixRow (p :: t) = p.1 :: ixRow t := rfl

/-- The full specification of `removeFirstMatch`: the far-`far` index
sequence loses its head (which is the reported edge index), all other far
sequences are untouched, the result is a sublist, and exactly one occurrence
of the removed edge index disappears from the row. -/
theorem removeFirstMatch_spec (far : Nat) :
    ∀ row : List (Nat × Nat),
      seqOf far (removeFirstMatch far row).1 = (seqOf far row).tail ∧
      (removeFirstMatch far row).2 = (seqOf far row).head? ∧
      (∀ f', f' ≠ far → seqOf f' (removeFirstMatch far row).1 = seqOf f' row) ∧
      (removeFirstMatch far row).1.Sublist row ∧
      (∀ e, (removeFirstMatch far row).2 = some e →
        (ixRow (removeFirstMatch far row).1).count e + 1 = (ixRow row).count e)
  | [] => by
    refine ⟨rfl, rfl, fun _ _ => rfl, List.Sublist.refl _, ?_⟩
    intro e he
    cases he
  | p :: t => by
    obtain ⟨ih1, ih2, ih3, ih4, ih5⟩ := removeFirstMatch_spec far t
    by_cases hp : p.2 = far
    · have hr : removeFirstMatch far (p :: t) = (t, some p.1) := by
        unfold removeFirstMatch
        rw [if_pos hp]
      rw [hr]
      refine ⟨?_, ?_, ?_, List.sublist_cons_self p t, ?_⟩
      · rw [seqOf_cons, if_pos hp]
        rfl
      · rw [seqOf_cons, if_pos hp]
        rfl
      · intro f' hf'
        rw [seqOf_cons, if_neg (by rw [hp]; exact fun hc => hf' hc.symm)]
      · intro e he
        have hpe : p.1 = e := Option.some_inj.mp he
        rw [ixRow_cons, List.count_cons, hpe]
        simp
    · have hr : removeFirstMatch far (p :: t) =
          ((p :: (removeFirstMatch far t).1), (removeFirstMatch far t).2) := by
        rw [removeFirstMatch]
        rw [if_neg hp]
      rw [hr]
      refine ⟨?_, ?_, ?_, List.Sublist.cons₂ p ih4, ?_⟩
      · rw [seqOf_cons, if_neg hp, seqOf_cons (t := t), if_neg hp]
        exact ih1
      · rw [seqOf_cons, if_neg hp]
        exact ih2
      · intro f' hf'
        by_cases hpf : p.2 = f'
        · rw [seqOf_cons, if_pos hpf, seqOf_cons (t := t), if_pos hpf, ih3 f' hf']
        · rw [seqOf_cons, if_neg hpf, seqOf_cons (t := t), if_neg hpf]
          exact ih3 f' hf'
      · intro e he
        rw [ixRow_cons, ixRow_cons, List.count_cons, List.count_cons]
        have := ih5 e he
        omega

theorem mem_flatIx {e : Nat} {rows : List (List (Nat × Nat))} :
    e ∈ flatIx rows ↔ ∃ a far, (e, far) ∈ rows.getD a [] := by
  unfold flatIx
  rw [List.mem_flatten]
  constructor
  · rintro ⟨l, hl, he⟩
    rw [List.mem_map] at hl
    obtain ⟨row, hrow, hfl⟩ := hl
    rw [← hfl, mem_ixRow] at he
    obtain ⟨far, hp⟩ := he
    obtain ⟨i, hi, hrget⟩ := List.getElem_of_mem hrow
    refine ⟨i, far, ?_⟩
    rw [List.getD_eq_getElem?_getD, List.getElem?_eq_getElem hi, Option.getD_some, hrget]
    exact hp
  · rintro ⟨a, far, hp⟩
    have ha : a < rows.length := by
      by_contra h
      rw [List.getD_eq_getElem?_getD, List.getElem?_eq_none (by omega)] at hp
      cases hp
    refine ⟨ixRow (rows.getD a []), ?_, mem_ixRow.mpr ⟨far, hp⟩⟩
    apply List.mem_map_of_mem
    rw [List.getD_eq_getElem?_getD, List.getElem?_eq_getElem ha, Option.getD_some]
    exact List.getElem_mem ha

theorem seqOf_append_single (f n far : Nat) (row : List (Nat × Nat)) :
    seqOf f (row ++ [(n, far)]) = seqOf f row ++ if far = f then [n] else [] := by
  unfold seqOf
  rw [List.filterMap_append]
  congr 1
  rw [List.filterMap_cons]
  by_cases h : far = f
  · rw [if_pos h, if_pos h]
    rfl
  · rw [if_neg h, if_neg h]
    rfl

theorem seqOf_map_fst (f : Nat → Nat) (far : Nat) : ∀ row : List (Nat × Nat),
    seqOf far (row.map fun p => (f p.1, p.2)) = (seqOf far row).map f
  | [] => rfl
  | p :: t => by
    rw [List.map_cons, seqOf_cons, seqOf_cons]
    by_cases h : p.2 = far
    · rw [if_pos h, if_pos (show (f p.1, p.2).2 = far from h), List.map_cons,
        seqOf_map_fst f far t]
    · rw [if_neg h, if_neg (show ¬ (f p.1, p.2).2 = far from h), seqOf_map_fst f far t]

theorem ixRow_map_fst (f : Nat → Nat) (row : List (Nat × Nat)) :
    ixRow (row.map fun p => (f p.1, p.2)) = (ixRow row).map f := by
  unfold ixRow
  rw [List.map_map, List.map_map]
  rfl

theorem flatIx_map_fst (f : Nat → Nat) : ∀ rows : List (List (Nat × Nat)),
    flatIx (rows.map fun row => row.map fun p => (f p.1, p.2)) = (flatIx rows).map f
  | [] => rfl
  | r :: rs => by
    unfold flatIx
    simp only [List.map_cons, List.flatten_cons, List.map_append]
    have ih := flatIx_map_fst f rs
    unfold flatIx at ih
    rw [ih, ixRow_map_fst]

theorem flatIx_length : ∀ rows : List (List (Nat × Nat)),
    (flatIx rows).length = (rows.map (·.length)).sum
  | [] => rfl
  | r :: rs => by
    unfold flatIx
    simp only [List.map_cons, List.flatten_cons, List.length_append, List.sum_cons]
    have ih := flatIx_length rs
    unfold flatIx at ih
    rw [ih, show (ixRow r).length = r.length from List.length_map r _]

theorem flatIx_set_append (rows : List (List (Nat × Nat))) (a n b : Nat)
    (ha : a < rows.length) :
    List.Perm (flatIx (rows.set a (rows.getD a [] ++ [(n, b)]))) (n :: flatIx rows) := by
  unfold flatIx
  rw [List.map_set,
    show ixRow (rows.getD a [] ++ [(n, b)]) = ixRow (rows.getD a []) ++ [n] from by
      unfold ixRow; rw [List.map_append]; rfl,
    show ixRow (rows.getD a []) = (rows.map ixRow).getD a [] from
      (getD_map_nil ixRow rfl rows a).symm]
  exact flatten_set_append (rows.map ixRow) a n (by simpa using ha)

theorem flatIx_set_sublist (rows : List (List (Nat × Nat))) (a : Nat)
    (v : List (Nat × Nat)) (h : v.Sublist (rows.getD a [])) :
    (flatIx (rows.set a v)).Sublist (flatIx rows) := by
  unfold flatIx
  rw [List.map_set]
  apply flatten_set_sublist
  rw [getD_map_nil ixRow rfl rows a]
  exact h.map _

theorem count_flatIx_set (rows : List (List (Nat × Nat))) (a : Nat)
    (v : List (Nat × Nat)) (ha : a < rows.length) (e : Nat) :
    (flatIx (rows.set a v)).count e + (ixRow (rows.getD a [])).count e
      = (flatIx rows).count e + (ixRow v).count e := by
  unfold flatIx
  rw [List.map_set, List.count_flatten, List.count_flatten]
  have h := sum_map_set (List.count e) (rows.map ixRow) a (ixRow v) []
    (by simpa using ha)
  rw [getD_map_nil ixRow rfl rows a] at h
  omega

theorem getD_replicate_false : ∀ (n e : Nat),
    (List.replicate n false).getD e false = false
  | 0, _ => rfl
  | _ + 1, 0 => rfl
  | n + 1, e + 1 => getD_replicate_false n e

theorem getD_replicate_nil {α : Type} : ∀ (n a : Nat),
    (List.replicate n ([] : List α)).getD a [] = []
  | 0, _ => rfl
  | _ + 1, 0 => rfl
  | n + 1, a + 1 => getD_replicate_nil n a

theorem flatIx_replicate_nil : ∀ n : Nat,
    flatIx (List.replicate n ([] : List (Nat × Nat))) = []
  | 0 => rfl
  | n + 1 => by
    show flatIx ([] :: List.replicate n []) = []
    unfold flatIx
    rw [List.map_cons, List.flatten_cons]
    have ih := flatIx_replicate_nil n
    unfold flatIx at ih
    rw [ih]
    rfl

theorem resizeBools_length (l : List Bool) (n : Nat) (v : Bool) :
    (resizeBools l n v).length = n := by
  unfold resizeBools
  by_cases h : n ≤ l.length
  · rw [if_pos h, List.length_take]
    omega
  · rw [if_neg h, List.length_append, List.length_replicate]
    omega

theorem getD_take_false : ∀ (l : List Bool) (n e : Nat),
    l.getD e false = false → (l.take n).getD e false = false
  | _, 0, _, _ => rfl
  | [], _ + 1, _, h => h
  | _ :: _, _ + 1, 0, h => h
  | _ :: xs, n + 1, e + 1, h => getD_take_false xs n e h

theorem getD_append_false : ∀ (l : List Bool) (k e : Nat),
    l.getD e false = false → (l ++ List.replicate k false).getD e false = false
  | [], k, e, _ => by
    rw [List.nil_append]
    exact getD_replicate_false k e
  | _ :: _, _, 0, h => h
  | _ :: xs, k, e + 1, h => getD_append_false xs k e h

theorem resizeBools_getD_false (l : List Bool) (n e : Nat)
    (h : l.getD e false = false) :
    (resizeBools l n false).getD e false = false := by
  unfold resizeBools
  by_cases hn : n ≤ l.length
  · rw [if_pos hn]
    exact getD_take_false l n e h
  · rw [if_neg hn]
    exact getD_append_false l (n - l.length) e h

/-- The core invariant of `AdjListLink`, maintained even mid-`insertEdges`
(before the final `destructedStatus.resize`): the two ends store the same
edges in mirrored order, every stored edge index is below `edgeIxBound`,
occurs exactly once at each end, and is not tombstoned. -/
structure AdjCore (st : AdjState) : Prop where
  mirror : ∀ a b, seq0 st a b = seq1 st b a
  bound0 : ∀ e ∈ flatIx st.end0Adjacency, e < st.edgeIxBound
  nd0 : (flatIx st.end0Adjacency).Nodup
  nd1 : (flatIx st.end1Adjacency).Nodup
  live0 : ∀ e ∈ flatIx st.end0Adjacency, st.destructedStatus.getD e false = false
  dle : st.destructedStatus.length ≤ st.edgeIxBound

/-- The full invariant between top-level calls: additionally
`destructedStatus` has exactly `edgeIxBound` entries, and when the link is
not dirty the stored cumulative totals agree with the adjacency lists. -/
structure AdjInv (st : AdjState) extends AdjCore st : Prop where
  dlen : st.destructedStatus.length = st.edgeIxBound
  clean : st.dirty = false →
    st.end0CumulativeEdgeCounts.getLastD 0 = (flatIx st.end0Adjacency).length ∧
    st.end1CumulativeEdgeCounts.getLastD 0 = (flatIx st.end1Adjacency).length

theorem core_mem_flat_iff {st : AdjState} (core : AdjCore st) (e : Nat) :
    e ∈ flatIx st.end0Adjacency ↔ e ∈ flatIx st.end1Adjacency := by
  rw [mem_flatIx, mem_flatIx]
  constructor
  · rintro ⟨a, b, hp⟩
    have h0 : e ∈ seq0 st a b := mem_seqOf.mpr hp
    rw [core.mirror a b] at h0
    exact ⟨b, a, mem_seqOf.mp h0⟩
  · rintro ⟨b, a, hp⟩
    have h1 : e ∈ seq1 st b a := mem_seqOf.mpr hp
    rw [← core.mirror a b] at h1
    exact ⟨a, b, mem_seqOf.mp h1⟩

theorem core_flat_perm {st : AdjState} (core : AdjCore st) :
    List.Perm (flatIx st.end0Adjacency) (flatIx st.end1Adjacency) :=
  (List.perm_ext_iff_of_nodup core.nd0 core.nd1).mpr (core_mem_flat_iff core)

theorem inv_reset_totals {st : AdjState} (inv : AdjInv st) :
    (resetCumulativeEdgeCounts st).end0CumulativeEdgeCounts.getLastD 0
      = (flatIx st.end0Adjacency).length ∧
    (resetCumulativeEdgeCounts st).end1CumulativeEdgeCounts.getLastD 0
      = (flatIx st.end1Adjacency).length := by
  unfold resetCumulativeEdgeCounts
  cases hd : st.dirty
  · rw [if_neg Bool.false_ne_true]
    exact inv.clean hd
  · rw [if_pos rfl]
    constructor
    · show (cumFrom 0 (st.end0Adjacency.map (·.length))).getLastD 0 = _
      rw [cumFrom_getLastD, flatIx_length]
      omega
    · show (cumFrom 0 (st.end1Adjacency.map (·.length))).getLastD 0 = _
      rw [cumFrom_getLastD, flatIx_length]
      omega

theorem adjInv_fresh (d0 d1 : List Nat) : AdjInv (AdjState.fresh d0 d1) := by
  have h0 : flatIx (AdjState.fresh d0 d1).end0Adjacency = [] :=
    flatIx_replicate_nil (prodDims d0)
  have h1 : flatIx (AdjState.fresh d0 d1).end1Adjacency = [] :=
    flatIx_replicate_nil (prodDims d1)
  refine ⟨⟨?_, ?_, ?_, ?_, ?_, ?_⟩, ?_, ?_⟩
  · intro a b
    show seqOf b ((List.replicate (prodDims d0) []).getD a []) =
      seqOf a ((List.replicate (prodDims d1) []).getD b [])
    rw [getD_replicate_nil, getD_replicate_nil]
    rfl
  · rw [h0]
    intro e he
    cases he
  · rw [h0]
    exact List.nodup_nil
  · rw [h1]
    exact List.nodup_nil
  · rw [h0]
    intro e he
    cases he
  · exact Nat.le_refl 0
  · rfl
  · intro _
    rw [h0, h1]
    exact ⟨rfl, rfl⟩

/-- The successful body of one `insertEdges` pair (denselink.hpp lines
1189-1191): push `(edgeIxBound, far)` at both ends and bump the bound. -/
def insStep (st : AdjState) (a b : Nat) : AdjState :=
  { st with
      end0Adjacency := st.end0Adjacency.set a
        (st.end0Adjacency.getD a [] ++ [(st.edgeIxBound, b)])
      end1Adjacency := st.end1Adjacency.set b
        (st.end1Adjacency.getD b [] ++ [(st.edgeIxBound, a)])
      edgeIxBound := st.edgeIxBound + 1 }

theorem insertEdgesLoop_cons (st : AdjState) (a b : Nat)
    (ha : a < st.end0Adjacency.length) (hb : b < st.end1Adjacency.length)
    (rest : List (Nat × Nat)) :
    insertEdgesLoop st ((a, b) :: rest) = insertEdgesLoop (insStep st a b) rest := by
  rw [insertEdgesLoop]
  rw [if_pos ha, if_pos hb]
  rfl

theorem insStep_seq0 (st : AdjState) (a b : Nat)
    (ha : a < st.end0Adjacency.length) (a' b' : Nat) :
    seq0 (insStep st a b) a' b' =
      if a' = a then seq0 st a b' ++ (if b = b' then [st.edgeIxBound] else [])
      else seq0 st a' b' := by
  show seqOf b' ((st.end0Adjacency.set a _).getD a' []) = _
  by_cases h : a' = a
  · rw [if_pos h, h, getD_set_self _ _ _ _ ha, seqOf_append_single]
    rfl
  · rw [if_neg h, getD_set_ne _ _ _ (fun hc => h hc.symm)]
    rfl

theorem insStep_seq1 (st : AdjState) (a b : Nat)
    (hb : b < st.end1Adjacency.length) (b' a' : Nat) :
    seq1 (insStep st a b) b' a' =
      if b' = b then seq1 st b a' ++ (if a = a' then [st.edgeIxBound] else [])
      else seq1 st b' a' := by
  show seqOf a' ((st.end1Adjacency.set b _).getD b' []) = _
  by_cases h : b' = b
  · rw [if_pos h, h, getD_set_self _ _ _ _ hb, seqOf_append_single]
    rfl
  · rw [if_neg h, getD_set_ne _ _ _ (fun hc => h hc.symm)]
    rfl

theorem insStep_core {st : AdjState} (core : AdjCore st) (a b : Nat)
    (ha : a < st.end0Adjacency.length) (hb : b < st.end1Adjacency.length) :
    AdjCore (insStep st a b) := by
  have hperm0 : List.Perm (flatIx (insStep st a b).end0Adjacency)
      (st.edgeIxBound :: flatIx st.end0Adjacency) :=
    flatIx_set_append st.end0Adjacency a st.edgeIxBound b ha
  have hperm1 : List.Perm (flatIx (insStep st a b).end1Adjacency)
      (st.edgeIxBound :: flatIx st.end1Adjacency) :=
    flatIx_set_append st.end1Adjacency b st.edgeIxBound a hb
  have hnotin0 : st.edgeIxBound ∉ flatIx st.end0Adjacency := fun hmem => by
    have := core.bound0 _ hmem
    omega
  have hnotin1 : st.edgeIxBound ∉ flatIx st.end1Adjacency := fun hmem =>
    hnotin0 ((core_mem_flat_iff core _).mpr hmem)
  refine ⟨?_, ?_, ?_, ?_, ?_, ?_⟩
  · intro a' b'
    rw [insStep_seq0 st a b ha a' b', insStep_seq1 st a b hb b' a']
    by_cases h1 : a' = a <;> by_cases h2 : b' = b
    · rw [if_pos h1, if_pos h2.symm, if_pos h2, if_pos h1.symm, h1, h2,
        core.mirror a b]
    · rw [if_pos h1, if_neg (fun hc : b = b' => h2 hc.symm), List.append_nil,
        if_neg h2, h1, core.mirror a b']
    · rw [if_neg h1, if_pos h2, if_neg (fun hc : a = a' => h1 hc.symm),
        List.append_nil, h2, core.mirror a' b]
    · rw [if_neg h1, if_neg h2, core.mirror a' b']
  · intro e he
    have : e ∈ st.edgeIxBound :: flatIx st.end0Adjacency := hperm0.mem_iff.mp he
    show e < st.edgeIxBound + 1
    rcases List.mem_cons.mp this with h | h
    · omega
    · have := core.bound0 e h
      omega
  · exact (hperm0.symm).nodup (List.nodup_cons.mpr ⟨hnotin0, core.nd0⟩)
  · exact (hperm1.symm).nodup (List.nodup_cons.mpr ⟨hnotin1, core.nd1⟩)
  · intro e he
    have hm : e ∈ st.edgeIxBound :: flatIx st.end0Adjacency := hperm0.mem_iff.mp he
    show st.destructedStatus.getD e false = false
    rcases List.mem_cons.mp hm with h | h
    · subst h
      rw [List.getD_eq_getElem?_getD, List.getElem?_eq_none core.dle]
      rfl
    · exact core.live0 e h
  · show st.destructedStatus.length ≤ st.edgeIxBound + 1
    have := core.dle
    omega

theorem insertEdgesLoop_core : ∀ (pairs : List (Nat × Nat)) (st : AdjState),
    AdjCore st →
    (∀ p ∈ pairs, p.1 < st.end0Adjacency.length ∧ p.2 < st.end1Adjacency.length) →
    (insertEdgesLoop st pairs).2 = none ∧
    AdjCore (insertEdgesLoop st pairs).1 ∧
    (insertEdgesLoop st pairs).1.end0Adjacency.length = st.end0Adjacency.length ∧
    (insertEdgesLoop st pairs).1.end1Adjacency.length = st.end1Adjacency.length
  | [], st, core, _ => ⟨rfl, core, rfl, rfl⟩
  | (a, b) :: rest, st, core, hrange => by
    have ha := (hrange (a, b) (List.mem_cons_self _ _)).1
    have hb := (hrange (a, b) (List.mem_cons_self _ _)).2
    rw [insertEdgesLoop_cons st a b ha hb rest]
    have hlen0 : (insStep st a b).end0Adjacency.length = st.end0Adjacency.length :=
      List.length_set _ _ _
    have hlen1 : (insStep st a b).end1Adjacency.length = st.end1Adjacency.length :=
      List.length_set _ _ _
    obtain ⟨i1, i2, i3, i4⟩ := insertEdgesLoop_core rest (insStep st a b)
      (insStep_core core a b ha hb)
      (fun p hp => by
        rw [hlen0, hlen1]
        exact hrange p (List.mem_cons_of_mem _ hp))
    exact ⟨i1, i2, by rw [i3, hlen0], by rw [i4, hlen1]⟩

/-- A fully in-range `insertEdges` succeeds and re-establishes the link
invariant. -/
theorem insertEdges_inv {st : AdjState} (inv : AdjInv st)
    (pairs : List (Nat × Nat))
    (hrange : ∀ p ∈ pairs,
      p.1 < st.end0Adjacency.length ∧ p.2 < st.end1Adjacency.length) :
    (insertEdges st pairs).2 = none ∧ AdjInv (insertEdges st pairs).1 := by
  obtain ⟨h2, core', _, _⟩ := insertEdgesLoop_core pairs st inv.toAdjCore hrange
  have hrr : insertEdgesLoop st pairs = ((insertEdgesLoop st pairs).1, none) :=
    Prod.ext rfl h2
  unfold insertEdges
  rw [hrr]
  refine ⟨rfl, ⟨⟨core'.mirror, core'.bound0, core'.nd0, core'.nd1, ?_, ?_⟩, ?_, ?_⟩⟩
  · intro e he
    exact resizeBools_getD_false _ _ _ (core'.live0 e he)
  · exact Nat.le_of_eq (resizeBools_length _ _ _)
  · exact resizeBools_length _ _ _
  · intro h
    exact Bool.noConfusion h

/-- One in-range `removeEdges` pair preserves the core invariant and the
shape of the link (row counts, tombstone count, `edgeIxBound`). -/
theorem removePairStep_core {st : AdjState} (core : AdjCore st) (a b : Nat)
    (ha : a < st.end0Adjacency.length) (hb : b < st.end1Adjacency.length) :
    AdjCore (removePairStep st a b) ∧
    (removePairStep st a b).end0Adjacency.length = st.end0Adjacency.length ∧
    (removePairStep st a b).end1Adjacency.length = st.end1Adjacency.length ∧
    (removePairStep st a b).destructedStatus.length = st.destructedStatus.length ∧
    (removePairStep st a b).edgeIxBound = st.edgeIxBound := by
  cases hm : removeFirstMatch b (st.end0Adjacency.getD a []) with
  | mk v0' oe =>
    cases oe with
    | none =>
      have hs := removeFirstMatch_spec b (st.end0Adjacency.getD a [])
      rw [hm] at hs
      obtain ⟨-, s02, -, -, -⟩ := hs
      have s02' : (none : Option Nat) =
          (seqOf b (st.end0Adjacency.getD a [])).head? := s02
      have hseq0 : seqOf b (st.end0Adjacency.getD a []) = [] := by
        cases hsq : seqOf b (st.end0Adjacency.getD a []) with
        | nil => rfl
        | cons y ys =>
          rw [hsq] at s02'
          exact Option.noConfusion s02'
      have hseq1 : seqOf a (st.end1Adjacency.getD b []) = [] := by
        have hmir := core.mirror a b
        unfold seq0 seq1 at hmir
        rw [← hmir]
        exact hseq0
      have hno : ∀ p ∈ st.end1Adjacency.getD b [], p.2 ≠ a := by
        intro p hp hpa
        have hmem : p.1 ∈ seqOf a (st.end1Adjacency.getD b []) := by
          rw [mem_seqOf, show (p.1, a) = p from Prod.ext rfl hpa.symm]
          exact hp
        rw [hseq1] at hmem
        cases hmem
      have hid : removePairStep st a b = st := by
        unfold removePairStep
        rw [hm]
        show eraseEnd1First st a b = st
        unfold eraseEnd1First
        rw [removeFirstMatch_no_match a _ hno]
        show { st with end1Adjacency :=
          st.end1Adjacency.set b (st.end1Adjacency.getD b []) } = st
        rw [set_getD_self]
      rw [hid]
      exact ⟨core, rfl, rfl, rfl, rfl⟩
    | some edgeIx =>
      have hs := removeFirstMatch_spec b (st.end0Adjacency.getD a [])
      rw [hm] at hs
      obtain ⟨s01, s02, s03, s04, s05⟩ := hs
      have s01' : seqOf b v0' = (seqOf b (st.end0Adjacency.getD a [])).tail := s01
      have s02' : (some edgeIx : Option Nat) =
          (seqOf b (st.end0Adjacency.getD a [])).head? := s02
      have s03' : ∀ f', f' ≠ b →
          seqOf f' v0' = seqOf f' (st.end0Adjacency.getD a []) := s03
      have s04' : v0'.Sublist (st.end0Adjacency.getD a []) := s04
      have s05' : (ixRow v0').count edgeIx + 1
          = (ixRow (st.end0Adjacency.getD a [])).count edgeIx := s05 edgeIx rfl
      obtain ⟨xs, hrow0seq, hxs⟩ :
          ∃ xs, seqOf b (st.end0Adjacency.getD a []) = edgeIx :: xs ∧
            seqOf b v0' = xs := by
        cases hsq : seqOf b (st.end0Adjacency.getD a []) with
        | nil =>
          rw [hsq] at s02'
          exact Option.noConfusion s02'
        | cons y ys =>
          rw [hsq] at s02' s01'
          have hy : edgeIx = y := Option.some_inj.mp s02'
          exact ⟨ys, by rw [hy], by rw [s01']; rfl⟩
      obtain ⟨s11, -, s13, s14, -⟩ :=
        removeFirstMatch_spec a (st.end1Adjacency.getD b [])
      have hmir0 : seqOf a (st.end1Adjacency.getD b []) = edgeIx :: xs := by
        have hmir := core.mirror a b
        unfold seq0 seq1 at hmir
        rw [← hmir, hrow0seq]
      have hxs1 :
          seqOf a (removeFirstMatch a (st.end1Adjacency.getD b [])).1 = xs := by
        rw [s11, hmir0]
        rfl
      have hp0 : (removePairStep st a b).end0Adjacency
          = st.end0Adjacency.set a v0' := by
        unfold removePairStep
        rw [hm]
        rfl
      have hp1 : (removePairStep st a b).end1Adjacency
          = st.end1Adjacency.set b
            (removeFirstMatch a (st.end1Adjacency.getD b [])).1 := by
        unfold removePairStep
        rw [hm]
        rfl
      have hpd : (removePairStep st a b).destructedStatus
          = st.destructedStatus.set edgeIx true := by
        unfold removePairStep
        rw [hm]
        rfl
      have hpb : (removePairStep st a b).edgeIxBound = st.edgeIxBound := by
        unfold removePairStep
        rw [hm]
        rfl
      have hsub0 : (flatIx (removePairStep st a b).end0Adjacency).Sublist
          (flatIx st.end0Adjacency) := by
        rw [hp0]
        exact flatIx_set_sublist _ a v0' s04'
      have hsub1 : (flatIx (removePairStep st a b).end1Adjacency).Sublist
          (flatIx st.end1Adjacency) := by
        rw [hp1]
        exact flatIx_set_sublist _ b _ s14
      have hmem_old : edgeIx ∈ flatIx st.end0Adjacency := by
        rw [mem_flatIx]
        refine ⟨a, b, ?_⟩
        rw [← mem_seqOf, hrow0seq]
        exact List.mem_cons_self _ _
      have hcnt0 : (flatIx (removePairStep st a b).end0Adjacency).count edgeIx
          = 0 := by
        have h1 := count_flatIx_set st.end0Adjacency a v0' ha edgeIx
        have h2 := List.count_eq_one_of_mem core.nd0 hmem_old
        rw [hp0]
        omega
      have hnot0 : edgeIx ∉ flatIx (removePairStep st a b).end0Adjacency :=
        List.count_eq_zero.mp hcnt0
      refine ⟨⟨?_, ?_, ?_, ?_, ?_, ?_⟩, ?_, ?_, ?_, ?_⟩
      · intro a' b'
        unfold seq0 seq1
        rw [hp0, hp1]
        by_cases h1 : a' = a <;> by_cases h2 : b' = b
        · rw [h1, h2, getD_set_self _ _ _ _ ha, getD_set_self _ _ _ _ hb,
            hxs, hxs1]
        · rw [h1, getD_set_self _ _ _ _ ha,
            getD_set_ne _ _ _ (fun hc => h2 hc.symm), s03' b' h2]
          have hmir := core.mirror a b'
          unfold seq0 seq1 at hmir
          exact hmir
        · rw [h2, getD_set_ne _ _ _ (fun hc => h1 hc.symm),
            getD_set_self _ _ _ _ hb, s13 a' h1]
          have hmir := core.mirror a' b
          unfold seq0 seq1 at hmir
          exact hmir
        · rw [getD_set_ne _ _ _ (fun hc => h1 hc.symm),
            getD_set_ne _ _ _ (fun hc => h2 hc.symm)]
          have hmir := core.mirror a' b'
          unfold seq0 seq1 at hmir
          exact hmir
      · intro e he
        rw [hpb]
        exact core.bound0 e (hsub0.subset he)
      · exact core.nd0.sublist hsub0
      · exact core.nd1.sublist hsub1
      · intro e he
        rw [hpd]
        have hne : edgeIx ≠ e := fun hc => hnot0 (hc ▸ he)
        rw [getD_set_ne _ _ _ hne]
        exact core.live0 e (hsub0.subset he)
      · rw [hpd, hpb, List.length_set]
        exact core.dle
      · rw [hp0, List.length_set]
      · rw [hp1, List.length_set]
      · rw [hpd, List.length_set]
      · exact hpb

theorem removeEdgesLoop_cons (st : AdjState) (a b : Nat)
    (ha : a < st.end0Adjacency.length) (hb : b < st.end1Adjacency.length)
    (rest : List (Nat × Nat)) :
    removeEdgesLoop st ((a, b) :: rest)
      = removeEdgesLoop (removePairStep st a b) rest := by
  rw [removeEdgesLoop]
  rw [if_pos ha, if_pos hb]

theorem removeEdgesLoop_core : ∀ (pairs : List (Nat × Nat)) (st : AdjState),
    AdjCore st →
    (∀ p ∈ pairs, p.1 < st.end0Adjacency.length ∧ p.2 < st.end1Adjacency.length) →
    (removeEdgesLoop st pairs).2 = none ∧
    AdjCore (removeEdgesLoop st pairs).1 ∧
    (removeEdgesLoop st pairs).1.end0Adjacency.length = st.end0Adjacency.length ∧
    (removeEdgesLoop st pairs).1.end1Adjacency.length = st.end1Adjacency.length ∧
    (removeEdgesLoop st pairs).1.destructedStatus.length
      = st.destructedStatus.length ∧
    (removeEdgesLoop st pairs).1.edgeIxBound = st.edgeIxBound
  | [], st, core, _ => ⟨rfl, core, rfl, rfl, rfl, rfl⟩
  | (a, b) :: rest, st, core, hrange => by
    have ha := (hrange (a, b) (List.mem_cons_self _ _)).1
    have hb := (hrange (a, b) (List.mem_cons_self _ _)).2
    obtain ⟨c', l0, l1, ld, lb⟩ := removePairStep_core core a b ha hb
    rw [removeEdgesLoop_cons st a b ha hb rest]
    obtain ⟨i1, i2, i3, i4, i5, i6⟩ :=
      removeEdgesLoop_core rest (removePairStep st a b) c'
        (fun p hp => by
          rw [l0, l1]
          exact hrange p (List.mem_cons_of_mem _ hp))
    exact ⟨i1, i2, by rw [i3, l0], by rw [i4, l1], by rw [i5, ld],
      by rw [i6, lb]⟩

/-- A fully in-range `removeEdges` succeeds and re-establishes the link
invariant. -/
theorem removeEdges_inv {st : AdjState} (inv : AdjInv st)
    (pairs : List (Nat × Nat))
    (hrange : ∀ p ∈ pairs,
      p.1 < st.end0Adjacency.length ∧ p.2 < st.end1Adjacency.length) :
    (removeEdges st pairs).2 = none ∧ AdjInv (removeEdges st pairs).1 := by
  obtain ⟨h2, core', _, _, hdl, hbd⟩ :=
    removeEdgesLoop_core pairs st inv.toAdjCore hrange
  have hrr : removeEdgesLoop st pairs = ((removeEdgesLoop st pairs).1, none) :=
    Prod.ext rfl h2
  unfold removeEdges
  rw [hrr]
  refine ⟨rfl, ⟨⟨core'.mirror, core'.bound0, core'.nd0, core'.nd1,
    core'.live0, core'.dle⟩, ?_, ?_⟩⟩
  · show (removeEdgesLoop st pairs).1.destructedStatus.length
      = (removeEdgesLoop st pairs).1.edgeIxBound
    rw [hdl, hbd]
    exact inv.dlen
  · intro h
    exact Bool.noConfusion h

theorem seqOf_map_renum (ps : List Nat) (far : Nat) (row : List (Nat × Nat)) :
    seqOf far (row.map fun p => (ps.getD p.1 0 - 1, p.2))
      = (seqOf far row).map (fun e => ps.getD e 0 - 1) :=
  seqOf_map_fst (fun e => ps.getD e 0 - 1) far row

theorem flatIx_map_renum (ps : List Nat) (rows : List (List (Nat × Nat))) :
    flatIx (rows.map fun row => row.map fun p => (ps.getD p.1 0 - 1, p.2))
      = (flatIx rows).map (fun e => ps.getD e 0 - 1) :=
  flatIx_map_fst (fun e => ps.getD e 0 - 1) rows

/-- `defragmentEdges` preserves the link invariant: live edges are
renumbered injectively below the new (compacted) bound. -/
theorem defragmentEdges_inv {st : AdjState} (inv : AdjInv st) :
    AdjInv (defragmentEdges st) := by
  have hflat0 : flatIx (defragmentEdges st).end0Adjacency
      = (flatIx st.end0Adjacency).map
        (fun e => (liveCounts st.destructedStatus).getD e 0 - 1) :=
    flatIx_map_renum _ st.end0Adjacency
  have hflat1 : flatIx (defragmentEdges st).end1Adjacency
      = (flatIx st.end1Adjacency).map
        (fun e => (liveCounts st.destructedStatus).getD e 0 - 1) :=
    flatIx_map_renum _ st.end1Adjacency
  have hlr : ∀ e ∈ flatIx st.end0Adjacency,
      e < st.destructedStatus.length ∧
      st.destructedStatus.getD e false = false := by
    intro e he
    refine ⟨?_, inv.live0 e he⟩
    rw [inv.dlen]
    exact inv.bound0 e he
  have hlr1 : ∀ e ∈ flatIx st.end1Adjacency,
      e < st.destructedStatus.length ∧
      st.destructedStatus.getD e false = false :=
    fun e he => hlr e ((core_mem_flat_iff inv.toAdjCore e).mpr he)
  refine ⟨⟨?_, ?_, ?_, ?_, ?_, ?_⟩, ?_, ?_⟩
  · intro a b
    unfold seq0 seq1
    show seqOf b ((st.end0Adjacency.map fun row => row.map fun p =>
        ((liveCounts st.destructedStatus).getD p.1 0 - 1, p.2)).getD a [])
      = seqOf a ((st.end1Adjacency.map fun row => row.map fun p =>
        ((liveCounts st.destructedStatus).getD p.1 0 - 1, p.2)).getD b [])
    rw [getD_map_nil _ rfl st.end0Adjacency a,
      getD_map_nil _ rfl st.end1Adjacency b,
      seqOf_map_renum, seqOf_map_renum]
    have hmir := inv.mirror a b
    unfold seq0 seq1 at hmir
    rw [hmir]
  · intro e' he'
    rw [hflat0] at he'
    obtain ⟨e, he, rfl⟩ := List.mem_map.mp he'
    obtain ⟨hr, hl⟩ := hlr e he
    show (liveCounts st.destructedStatus).getD e 0 - 1
      < (liveCounts st.destructedStatus).getLastD 0
    exact renum_lt_total st.destructedStatus e hr hl
  · rw [hflat0]
    apply inv.nd0.map_on
    intro x hx y hy hxy
    by_contra hne
    obtain ⟨hxr, hxl⟩ := hlr x hx
    obtain ⟨hyr, hyl⟩ := hlr y hy
    exact renum_inj st.destructedStatus hxr hyr hxl hyl hne hxy
  · rw [hflat1]
    apply inv.nd1.map_on
    intro x hx y hy hxy
    by_contra hne
    obtain ⟨hxr, hxl⟩ := hlr1 x hx
    obtain ⟨hyr, hyl⟩ := hlr1 y hy
    exact renum_inj st.destructedStatus hxr hyr hxl hyl hne hxy
  · intro e' he'
    exact getD_replicate_false _ _
  · exact Nat.le_of_eq (List.length_replicate _ _)
  · exact List.length_replicate _ _
  · intro hd
    obtain ⟨c0, c1⟩ := inv.clean hd
    constructor
    · show st.end0CumulativeEdgeCounts.getLastD 0 = _
      rw [hflat0, List.length_map]
      exact c0
    · show st.end1CumulativeEdgeCounts.getLastD 0 = _
      rw [hflat1, List.length_map]
      exact c1

/-- The top-level mutating calls of `AdjListLink`. -/
inductive AdjOp where
  | ins (pairs : List (Nat × Nat))
  | rem (pairs : List (Nat × Nat))
  | defrag
deriving DecidableEq, Repr

def applyOp (st : AdjState) : AdjOp → AdjState
  | .ins pairs => (insertEdges st pairs).1
  | .rem pairs => (removeEdges st pairs).1
  | .defrag => defragmentEdges st

def runOps (st : AdjState) : List AdjOp → AdjState
  | [] => st
  | op :: ops => runOps (applyOp st op) ops

/-- All node indices mentioned by an op are within the configured component
sizes (`at` never throws). -/
def opInRange (st : AdjState) : AdjOp → Prop
  | .ins pairs => ∀ p ∈ pairs,
      p.1 < st.end0Adjacency.length ∧ p.2 < st.end1Adjacency.length
  | .rem pairs => ∀ p ∈ pairs,
      p.1 < st.end0Adjacency.length ∧ p.2 < st.end1Adjacency.length
  | .defrag => True

def opsInRange (st : AdjState) : List AdjOp → Prop
  | [] => True
  | op :: ops => opInRange st op ∧ opsInRange (applyOp st op) ops

theorem applyOp_inv {st : AdjState} (inv : AdjInv st) (op : AdjOp)
    (h : opInRange st op) : AdjInv (applyOp st op) := by
  cases op with
  | ins pairs => exact (insertEdges_inv inv pairs h).2
  | rem pairs => exact (removeEdges_inv inv pairs h).2
  | defrag => exact defragmentEdges_inv inv

theorem runOps_inv : ∀ (ops : List AdjOp) (st : AdjState), AdjInv st →
    opsInRange st ops → AdjInv (runOps st ops)
  | [], _, inv, _ => inv
  | _ :: ops, _, inv, h => runOps_inv ops _ (applyOp_inv inv _ h.1) h.2

/-- C10: after any in-range sequence of `insertEdges`, `removeEdges` and
`defragmentEdges` calls on a freshly configured adjacency-list link, the two
ends stay mirrored — `(edgeIx, b)` appears in `end0Adjacency[a]` iff
`(edgeIx, a)` appears in `end1Adjacency[b]` — every stored edge index is
strictly below `edgeIxBound` and occurs exactly once in each end's
adjacency structure, the two cumulative edge-count vectors have equal
totals, and `maxProgress` returns that common live edge count regardless of
`whichEnd`. -/
theorem adjlist_ends_mirrored (d0 d1 : List Nat) (ops : List AdjOp)
    (st : AdjState) (hst : st = runOps (AdjState.fresh d0 d1) ops)
    (hops : opsInRange (AdjState.fresh d0 d1) ops) :
    (∀ a b e, (e, b) ∈ st.end0Adjacency.getD a []
      ↔ (e, a) ∈ st.end1Adjacency.getD b []) ∧
    (∀ e ∈ flatIx st.end0Adjacency, e < st.edgeIxBound ∧
      (flatIx st.end0Adjacency).count e = 1 ∧
      (flatIx st.end1Adjacency).count e = 1) ∧
    (flatIx st.end0Adjacency).Nodup ∧
    (flatIx st.end1Adjacency).Nodup ∧
    (resetCumulativeEdgeCounts st).end0CumulativeEdgeCounts.getLastD 0
      = (resetCumulativeEdgeCounts st).end1CumulativeEdgeCounts.getLastD 0 ∧
    (∀ whichEnd whichEnd' : Nat,
      st.maxProgress whichEnd = st.maxProgress whichEnd') ∧
    st.maxProgress 0 = (flatIx st.end0Adjacency).length := by
  have inv : AdjInv st := hst ▸ runOps_inv ops _ (adjInv_fresh d0 d1) hops
  obtain ⟨t0, t1⟩ := inv_reset_totals inv
  have hlen : (flatIx st.end0Adjacency).length
      = (flatIx st.end1Adjacency).length :=
    (core_flat_perm inv.toAdjCore).length_eq
  refine ⟨?_, ?_, inv.nd0, inv.nd1, ?_, fun _ _ => rfl, ?_⟩
  · intro a b e
    constructor
    · intro hp
      have h0 : e ∈ seq0 st a b := mem_seqOf.mpr hp
      rw [inv.mirror a b] at h0
      exact mem_seqOf.mp h0
    · intro hp
      have h1 : e ∈ seq1 st b a := mem_seqOf.mpr hp
      rw [← inv.mirror a b] at h1
      exact mem_seqOf.mp h1
  · intro e he
    exact ⟨inv.bound0 e he, List.count_eq_one_of_mem inv.nd0 he,
      List.count_eq_one_of_mem inv.nd1
        ((core_mem_flat_iff inv.toAdjCore e).mp he)⟩
  · rw [t0, t1, hlen]
  · show (resetCumulativeEdgeCounts st).end0CumulativeEdgeCounts.getLastD 0 = _
    exact t0

/-- A sample op sequence for the mirroring theorem: three inserts, one
remove, one defragmentation on a 2-node-per-end link. -/
def adjDemoOps : List AdjOp :=
  [AdjOp.ins [(0, 1), (1, 0), (0, 0)], AdjOp.rem [(0, 1)], AdjOp.defrag]

/-- C10, witness. -/
theorem adjlist_ends_mirrored_witness :
    opsInRange (AdjState.fresh [2] [2]) adjDemoOps ∧
    (runOps (AdjState.fresh [2] [2]) adjDemoOps).maxProgress 0
      = (flatIx (runOps (AdjState.fresh [2] [2])
          adjDemoOps).end0Adjacency).length :=
  ⟨⟨by unfold opInRange; decide, by unfold opInRange; decide, trivial, trivial⟩,
    (adjlist_ends_mirrored [2] [2] adjDemoOps
      (runOps (AdjState.fresh [2] [2]) adjDemoOps) rfl
      ⟨by unfold opInRange; decide, by unfold opInRange; decide, trivial,
        trivial⟩).2.2.2.2.2.2⟩

/-! ## GeneralLocal2DLink (src/unnamed/part_000)

The configured filter parameters (lines 117-130).  `startRow`/`startCol`
are C++ `int`; the remaining parameters are `size_t`.  Row and column
positions are computed in `int64_t`, modelled by `Int` (the sizes involved
are far below the 64-bit range). -/
structure GL2D where
  startRow : Int
  startCol : Int
  filterRows : Nat
  filterCols : Nat
  strideRows : Nat
  strideCols : Nat
  atrousRows : Nat
  atrousCols : Nat
  end1rows : Nat
  end1cols : Nat
  end1depth : Nat
  end0rows : Nat
  end0cols : Nat
  end0depth : Nat
deriving DecidableEq, Repr

/-- `end0row = end1row * strideRows + filterRow * atrousRows + startRow`
(`RowRowIteration`, line 232). -/
def GL2D.end0rowOf (L : GL2D) (filterRow end1row : Nat) : Int :=
  (end1row : Int) * L.strideRows + (filterRow : Int) * L.atrousRows + L.startRow

/-- The column the filter cell `cIx` covers when the filter sits at
`end1col`: `curLeftSideFilter + cIx * atrousCols` where `curLeftSideFilter
= startCol + end1col * strideCols` (lines 246-250, 273). -/
def GL2D.end0colOf (L : GL2D) (end1col cIx : Nat) : Int :=
  L.startCol + (end1col : Int) * L.strideCols + (cIx : Int) * L.atrousCols

/-- The `edgeIx` initialisation of `RowRowIteration` (lines 243-244). -/
def GL2D.edgeIxBase (L : GL2D) (filterRow end1row : Nat) : Nat :=
  end1row * (L.end1cols * L.filterRows * L.filterCols * L.end0depth * L.end1depth)
    + filterRow * (L.end1cols * L.filterCols * L.end1depth * L.end0depth)

/-- The kernel calls made for one filter cell `(end1col, cIx)` of
`RowRowIteration` (lines 247-272).  Whether or not the covered column is in
bounds, the loop advances `edgeIx` by exactly `end0depth * end1depth` and
`edgeInfo` by one per cell, so at cell `(end1col, cIx)` they hold
`edgeIxBase + (end1col * filterCols + cIx) * end0depth * end1depth` and
`filterRow * filterCols + cIx`; within an in-bounds cell `edgeIx` then
increments once per `(i, j)`. -/
def GL2D.slotCalls (L : GL2D) (filterRow end1row : Nat) (end1 : Bool)
    (end1col cIx : Nat) : List KCall :=
  if L.end0colOf end1col cIx < 0 ∨ (L.end0cols : Int) ≤ L.end0colOf end1col cIx
  then []
  else
    ((List.range L.end1depth).map fun i =>
      (List.range L.end0depth).map fun j =>
        if end1 then
          (⟨end1row * L.end1cols * L.end1depth + end1col * L.end1depth + i,
            L.edgeIxBase filterRow end1row
              + (end1col * L.filterCols + cIx) * (L.end0depth * L.end1depth)
              + i * L.end0depth + j,
            (L.end0rowOf filterRow end1row).toNat * L.end0cols * L.end0depth
              + (L.end0colOf end1col cIx).toNat * L.end0depth + j,
            L.edgeIxBase filterRow end1row
              + (end1col * L.filterCols + cIx) * (L.end0depth * L.end1depth)
              + i * L.end0depth + j,
            filterRow * L.filterCols + cIx⟩ : KCall)
        else
          (⟨(L.end0rowOf filterRow end1row).toNat * L.end0cols * L.end0depth
              + (L.end0colOf end1col cIx).toNat * L.end0depth + j,
            L.edgeIxBase filterRow end1row
              + (end1col * L.filterCols + cIx) * (L.end0depth * L.end1depth)
              + i * L.end0depth + j,
            end1row * L.end1cols * L.end1depth + end1col * L.end1depth + i,
            L.edgeIxBase filterRow end1row
              + (end1col * L.filterCols + cIx) * (L.end0depth * L.end1depth)
              + i * L.end0depth + j,
            filterRow * L.filterCols + cIx⟩ : KCall)).flatten

/-- `GeneralLocal2DLink::RowRowIteration` (lines 229-274) as the list of
kernel calls it makes, in order.  The column loop runs `filterCols` times
when `atrousCols ≥ 1` (`end0col` steps by `atrousCols` up to
`filterCols * atrousCols`) and zero times when `atrousCols = 0`. -/
def GL2D.rowRow (L : GL2D) (filterRow end1row : Nat) (end1 : Bool) :
    List KCall :=
  if L.end0rowOf filterRow end1row < 0
      ∨ (L.end0rows : Int) ≤ L.end0rowOf filterRow end1row
  then []
  else
    ((List.range L.end1cols).map fun end1col =>
      ((List.range (if L.atrousCols = 0 then 0 else L.filterCols)).map fun cIx =>
        L.slotCalls filterRow end1row end1 end1col cIx).flatten).flatten

/-- The count the `RowRowFinder` kernel of `initialize` accumulates (lines
326-334): the number of calls of one row-row iteration. -/
def GL2D.rowRowCount (L : GL2D) (filterRow end1row : Nat) : Nat :=
  (L.rowRow filterRow end1row true).length

/-- The `(end1row, filterRow)` pairs visited by the main loop of
`initialize` (lines 321-322), in order. -/
def GL2D.pairList (L : GL2D) : List (Nat × Nat) :=
  ((List.range L.end1rows).map fun er =>
    (List.range L.filterRows).map fun fr => (er, fr)).flatten

/-- `rowrowsize` is recomputed while it is still zero, otherwise reused
(lines 325-334). -/
def GL2D.stepWeight (L : GL2D) (rrs : Nat) (p : Nat × Nat) : Nat :=
  if rrs = 0 then L.rowRowCount p.2 p.1 else rrs

/-- One iteration of the main loop of `initialize` (lines 321-338) over the
state (`cumulativeEnd0RowSizes`, `cumulativeEnd1RowSizes`, `rowrowsize`);
`p = (end1row, filterRow)`. -/
def GL2D.initStep (L : GL2D) (s : List Nat × List Nat × Nat) (p : Nat × Nat) :
    List Nat × List Nat × Nat :=
  if L.end0rowOf p.2 p.1 < 0 ∨ (L.end0rows : Int) ≤ L.end0rowOf p.2 p.1 then s
  else
    (s.1.set (L.end0rowOf p.2 p.1).toNat
        (s.1.getD (L.end0rowOf p.2 p.1).toNat 0 + L.stepWeight s.2.2 p),
      s.2.1.set p.1 (s.2.1.getD p.1 0 + L.stepWeight s.2.2 p),
      L.stepWeight s.2.2 p)

/-- The per-row size vectors after the main loop of `initialize`, before
the in-place prefix sums (lines 314-339). -/
def GL2D.rawCums (L : GL2D) : List Nat × List Nat × Nat :=
  List.foldl L.initStep
    (List.replicate L.end0rows 0, List.replicate L.end1rows 0, 0) L.pairList

/-- `cumulativeEnd0RowSizes` after `initialize` (the in-place loop of lines
347-352 forms inclusive prefix sums). -/
def GL2D.cum0 (L : GL2D) : List Nat := cumFrom 0 L.rawCums.1

/-- `cumulativeEnd1RowSizes` after `initialize` (lines 340-346). -/
def GL2D.cum1 (L : GL2D) : List Nat := cumFrom 0 L.rawCums.2.1

/-- `GeneralLocal2DLink::maxProgress` (lines 355-357): the last entry of
the *end-0* cumulative vector, whatever `whichEnd` is. -/
def GL2D.maxProgress (L : GL2D) (_whichEnd : Nat) : Nat :=
  L.cum0.getD (L.cum0.length - 1) 0

/-- The cumulative vector `requestPartialProgress` selects (line 360). -/
def GL2D.cumFor (L : GL2D) (whichEnd : Nat) : List Nat :=
  if whichEnd = 0 then L.cum0 else L.cum1

/-- `GeneralLocal2DLink::requestPartialProgress` (lines 359-368). -/
def GL2D.requestPartialProgress (L : GL2D) (whichEnd r : Nat) : Nat :=
  if (L.cumFor whichEnd).isEmpty then 0
  else
    match (L.cumFor whichEnd).get? (lowB r (L.cumFor whichEnd)) with
    | some x => x
    | none => (L.cumFor whichEnd).getLastD 0

theorem sum_set_add : ∀ (l : List Nat) (i v : Nat), i < l.length →
    (l.set i (l.getD i 0 + v)).sum = l.sum + v
  | [], _, _, h => absurd h (by simp)
  | x :: xs, 0, v, _ => by
    simp only [List.getD_cons_zero, List.set, List.sum_cons]
    omega
  | x :: xs, i + 1, v, h => by
    simp only [List.getD_cons_succ, List.set, List.sum_cons]
    have ih := sum_set_add xs i v (by simpa using h)
    omega

theorem lowB_le_length (v : Nat) : ∀ l : List Nat, lowB v l ≤ l.length
  | [] => Nat.le_refl 0
  | x :: xs => by
    unfold lowB
    by_cases h : v ≤ x
    · rw [if_pos h]
      simp
    · rw [if_neg h]
      have := lowB_le_length v xs
      simp only [List.length_cons]
      omega

theorem lowB_ge (v : Nat) : ∀ l : List Nat, lowB v l < l.length →
    v ≤ l.getD (lowB v l) 0
  | [] => by
    intro h
    simp [lowB] at h
  | x :: xs => by
    unfold lowB
    by_cases h : v ≤ x
    · rw [if_pos h]
      intro _
      exact h
    · rw [if_neg h]
      intro hlen
      show v ≤ (x :: xs).getD (lowB v xs + 1) 0
      rw [List.getD_cons_succ]
      exact lowB_ge v xs (by simpa using hlen)

theorem lowB_before (v : Nat) : ∀ (l : List Nat) (j : Nat), j < lowB v l →
    l.getD j 0 < v
  | [], j => by
    intro h
    simp [lowB] at h
  | x :: xs, j => by
    unfold lowB
    by_cases h : v ≤ x
    · rw [if_pos h]
      intro hj
      exact absurd hj (Nat.not_lt_zero j)
    · rw [if_neg h]
      cases j with
      | zero =>
        intro _
        show x < v
        omega
      | succ j' =>
        intro hj
        show xs.getD j' 0 < v
        exact lowB_before v xs j' (by omega)

theorem getLastD_eq_getD : ∀ l : List Nat, l.getLastD 0 = l.getD (l.length - 1) 0
  | [] => rfl
  | [_] => rfl
  | x :: y :: ys => by
    have ih := getLastD_eq_getD (y :: ys)
    rw [List.getLastD_cons, List.getLastD_cons]
    rw [List.getLastD_cons] at ih
    simp only [List.length_cons, Nat.add_sub_cancel] at ih ⊢
    rw [List.getD_cons_succ]
    exact ih

theorem pairList_mem (L : GL2D) : ∀ p ∈ L.pairList,
    p.1 < L.end1rows ∧ p.2 < L.filterRows := by
  intro p hp
  unfold GL2D.pairList at hp
  rw [List.mem_flatten] at hp
  obtain ⟨l, hl, hpl⟩ := hp
  rw [List.mem_map] at hl
  obtain ⟨er, her, rfl⟩ := hl
  rw [List.mem_map] at hpl
  obtain ⟨fr, hfr, rfl⟩ := hpl
  exact ⟨List.mem_range.mp her, List.mem_range.mp hfr⟩

/-- Through the main loop of `initialize`, every valid `(end1row,
filterRow)` pair adds the same amount to both per-row size vectors, so
their lengths are preserved and their sums stay equal. -/
theorem initFold_spec (L : GL2D) : ∀ (ps : List (Nat × Nat))
    (c0 c1 : List Nat) (rrs : Nat),
    (∀ p ∈ ps, p.1 < c1.length) →
    c0.length = L.end0rows →
    (List.foldl L.initStep (c0, c1, rrs) ps).1.length = c0.length ∧
    (List.foldl L.initStep (c0, c1, rrs) ps).2.1.length = c1.length ∧
    (List.foldl L.initStep (c0, c1, rrs) ps).1.sum + c1.sum
      = (List.foldl L.initStep (c0, c1, rrs) ps).2.1.sum + c0.sum
  | [], c0, c1, rrs, _, _ =>
    ⟨rfl, rfl, by
      show c0.sum + c1.sum = c1.sum + c0.sum
      omega⟩
  | p :: ps, c0, c1, rrs, hmem, hlen => by
    rw [List.foldl_cons]
    by_cases hv : L.end0rowOf p.2 p.1 < 0
        ∨ (L.end0rows : Int) ≤ L.end0rowOf p.2 p.1
    · have hskip : L.initStep (c0, c1, rrs) p = (c0, c1, rrs) := by
        unfold GL2D.initStep
        rw [if_pos hv]
      rw [hskip]
      exact initFold_spec L ps c0 c1 rrs
        (fun q hq => hmem q (List.mem_cons_of_mem _ hq)) hlen
    · have hstep : L.initStep (c0, c1, rrs) p =
          (c0.set (L.end0rowOf p.2 p.1).toNat
            (c0.getD (L.end0rowOf p.2 p.1).toNat 0 + L.stepWeight rrs p),
           c1.set p.1 (c1.getD p.1 0 + L.stepWeight rrs p),
           L.stepWeight rrs p) := by
        unfold GL2D.initStep
        rw [if_neg hv]
      rw [hstep]
      have ht : (L.end0rowOf p.2 p.1).toNat < c0.length := by
        rw [hlen]
        omega
      have hb : p.1 < c1.length := hmem p (List.mem_cons_self _ _)
      obtain ⟨i1, i2, i3⟩ := initFold_spec L ps
        (c0.set (L.end0rowOf p.2 p.1).toNat
          (c0.getD (L.end0rowOf p.2 p.1).toNat 0 + L.stepWeight rrs p))
        (c1.set p.1 (c1.getD p.1 0 + L.stepWeight rrs p))
        (L.stepWeight rrs p)
        (fun q hq => by
          rw [List.length_set]
          exact hmem q (List.mem_cons_of_mem _ hq))
        (by rw [List.length_set]; exact hlen)
      have s0 := sum_set_add c0 (L.end0rowOf p.2 p.1).toNat (L.stepWeight rrs p) ht
      have s1 := sum_set_add c1 p.1 (L.stepWeight rrs p) hb
      exact ⟨by rw [i1, List.length_set], by rw [i2, List.length_set], by omega⟩

theorem rawCums_lengths (L : GL2D) :
    L.rawCums.1.length = L.end0rows ∧ L.rawCums.2.1.length = L.end1rows := by
  obtain ⟨i1, i2, -⟩ := initFold_spec L L.pairList
    (List.replicate L.end0rows 0) (List.replicate L.end1rows 0) 0
    (fun p hp => by
      rw [List.length_replicate]
      exact (pairList_mem L p hp).1)
    (List.length_replicate _ _)
  unfold GL2D.rawCums
  rw [i1, i2, List.length_replicate, List.length_replicate]
  exact ⟨rfl, rfl⟩

/-- The end-0 and end-1 cumulative totals agree: every valid pair added the
same `rowrowsize` to both raw vectors. -/
theorem cum_totals (L : GL2D) : L.cum0.getLastD 0 = L.cum1.getLastD 0 := by
  obtain ⟨-, -, h3⟩ := initFold_spec L L.pairList
    (List.replicate L.end0rows 0) (List.replicate L.end1rows 0) 0
    (fun p hp => by
      rw [List.length_replicate]
      exact (pairList_mem L p hp).1)
    (List.length_replicate _ _)
  have z0 : (List.replicate L.end0rows (0 : Nat)).sum = 0 := by simp
  have z1 : (List.replicate L.end1rows (0 : Nat)).sum = 0 := by simp
  unfold GL2D.cum0 GL2D.cum1 GL2D.rawCums
  rw [cumFrom_getLastD, cumFrom_getLastD]
  omega

theorem isEmpty_false_of_length (l : List Nat) (h : 1 ≤ l.length) :
    l.isEmpty = false := by
  cases l with
  | nil => simp at h
  | cons x xs => rfl

theorem cum0_length (L : GL2D) : L.cum0.length = L.end0rows := by
  unfold GL2D.cum0
  rw [cumFrom_length]
  exact (rawCums_lengths L).1

theorem cum1_length (L : GL2D) : L.cum1.length = L.end1rows := by
  unfold GL2D.cum1
  rw [cumFrom_length]
  exact (rawCums_lengths L).2

/-- C8: for an initialized locally connected 2D link (`end1rows ≥ 1` and
`filterRows ≥ 1` so `initialize` did not return early, `end0rows ≥ 1` so
the end-0 vector read by `maxProgress` is nonempty), `maxProgress` equals
the last entry of the cumulative row-size vector of each end — the code
always reads the end-0 vector, but the two totals coincide because every
valid `(end1row, filterRow)` pair adds the same `rowrowsize` to both — and
`requestPartialProgress(whichEnd, r)` returns the first entry `≥ r` of
that end's cumulative vector, or the total when no entry is `≥ r`. -/
theorem gl2d_progress_endpoints (L : GL2D) (w r : Nat)
    (h0 : 1 ≤ L.end0rows) (h1 : 1 ≤ L.end1rows) (hf : 1 ≤ L.filterRows) :
    (L.maxProgress 0 = L.cum0.getLastD 0 ∧
      L.maxProgress 1 = L.cum1.getLastD 0) ∧
    (lowB r (L.cumFor w) < (L.cumFor w).length →
      L.requestPartialProgress w r = (L.cumFor w).getD (lowB r (L.cumFor w)) 0 ∧
      r ≤ (L.cumFor w).getD (lowB r (L.cumFor w)) 0 ∧
      ∀ j < lowB r (L.cumFor w), (L.cumFor w).getD j 0 < r) ∧
    ((L.cumFor w).length ≤ lowB r (L.cumFor w) →
      L.requestPartialProgress w r = (L.cumFor w).getLastD 0) := by
  have hne : (L.cumFor w).isEmpty = false := by
    apply isEmpty_false_of_length
    unfold GL2D.cumFor
    by_cases hw : w = 0
    · rw [if_pos hw, cum0_length]
      exact h0
    · rw [if_neg hw, cum1_length]
      exact h1
  have hI : ¬ ((L.cumFor w).isEmpty = true) := by
    rw [hne]
    exact Bool.false_ne_true
  refine ⟨⟨?_, ?_⟩, ?_, ?_⟩
  · unfold GL2D.maxProgress
    rw [getLastD_eq_getD]
  · unfold GL2D.maxProgress
    rw [← cum_totals L, getLastD_eq_getD]
  · intro hlt
    unfold GL2D.requestPartialProgress
    rw [if_neg hI, List.get?_eq_getElem?, List.getElem?_eq_getElem hlt]
    refine ⟨?_, lowB_ge r _ hlt, fun j hj => lowB_before r _ j hj⟩
    rw [List.getD_eq_getElem?_getD, List.getElem?_eq_getElem hlt]
    rfl
  · intro hge
    unfold GL2D.requestPartialProgress
    rw [if_neg hI, List.get?_eq_getElem?, List.getElem?_eq_none hge]

/-- A 4×4 → 3×3 link with a 2×2 filter, stride 1, no atrous spreading. -/
def gl2dDemo : GL2D := ⟨0, 0, 2, 2, 1, 1, 1, 1, 3, 3, 1, 4, 4, 1⟩

/-- C8, witness. -/
theorem gl2d_progress_endpoints_witness :
    (1 ≤ gl2dDemo.end0rows ∧ 1 ≤ gl2dDemo.end1rows ∧
      1 ≤ gl2dDemo.filterRows) ∧
    (gl2dDemo.maxProgress 0 = gl2dDemo.cum0.getLastD 0 ∧
      gl2dDemo.maxProgress 1 = gl2dDemo.cum1.getLastD 0) :=
  ⟨⟨by decide, by decide, by decide⟩,
    (gl2d_progress_endpoints gl2dDemo 1 5 (by decide) (by decide)
      (by decide)).1⟩

/-! ## C1: three-segment iteration equals one full iteration -/

theorem range'_append_nat (s m n : Nat) :
    List.range' s m ++ List.range' (s + m) n = List.range' s (m + n) := by
  have h := List.range'_append s m n 1
  rw [one_mul] at h
  rw [h, Nat.add_comm n m]

/-- `SameLink` iterations over adjacent windows concatenate. -/
theorem same_iterate_append (l : SameLink) (w p q r : Nat)
    (h1 : p ≤ q) (h2 : q ≤ r) :
    l.iterate w p q ++ l.iterate w q r = l.iterate w p r := by
  unfold SameLink.iterate
  rw [← List.map_append]
  have h := range'_append_nat p (q - p) (r - q)
  rw [show p + (q - p) = q from by omega,
    show q - p + (r - q) = r - p from by omega] at h
  rw [h]

/-- A dense iteration between multiples of the far flat size `F` emits
rows whose near-edge indices depend only on the absolute near node `i`:
the running `vNlink` equals `i * F + j` whenever `start` is `u * F`. -/
theorem dense_iterate_aligned (l : DenseLink) (w u v : Nat)
    (hF : 0 < prodDims (if w = 0 then l.dim1 else l.dim0)) :
    l.iterate w (u * prodDims (if w = 0 then l.dim1 else l.dim0))
        (v * prodDims (if w = 0 then l.dim1 else l.dim0))
      = ((List.range' u (v - u)).map fun i =>
          (List.range (prodDims (if w = 0 then l.dim1 else l.dim0))).map fun j =>
            (⟨i, i * prodDims (if w = 0 then l.dim1 else l.dim0) + j, j,
              i + j * prodDims (if w = 0 then l.dim0 else l.dim1), j⟩ : KCall)).flatten := by
  show ((List.range'
      (u * prodDims (if w = 0 then l.dim1 else l.dim0)
        / prodDims (if w = 0 then l.dim1 else l.dim0))
      (v * prodDims (if w = 0 then l.dim1 else l.dim0)
          / prodDims (if w = 0 then l.dim1 else l.dim0)
        - u * prodDims (if w = 0 then l.dim1 else l.dim0)
          / prodDims (if w = 0 then l.dim1 else l.dim0))).map fun i =>
    (List.range (prodDims (if w = 0 then l.dim1 else l.dim0))).map fun j =>
      (⟨i, u * prodDims (if w = 0 then l.dim1 else l.dim0)
          + (i - u * prodDims (if w = 0 then l.dim1 else l.dim0)
              / prodDims (if w = 0 then l.dim1 else l.dim0))
            * prodDims (if w = 0 then l.dim1 else l.dim0) + j, j,
        i + j * prodDims (if w = 0 then l.dim0 else l.dim1), j⟩ : KCall)).flatten = _
  rw [Nat.mul_div_cancel u hF, Nat.mul_div_cancel v hF]
  apply congrArg List.flatten
  apply List.map_congr_left
  intro i hi
  have hu : u ≤ i := (List.mem_range'_1.mp hi).1
  apply List.map_congr_left
  intro j _
  have he : u * prodDims (if w = 0 then l.dim1 else l.dim0)
      + (i - u) * prodDims (if w = 0 then l.dim1 else l.dim0)
      = i * prodDims (if w = 0 then l.dim1 else l.dim0) := by
    have hmul : u * prodDims (if w = 0 then l.dim1 else l.dim0)
        ≤ i * prodDims (if w = 0 then l.dim1 else l.dim0) :=
      Nat.mul_le_mul_right _ hu
    rw [Nat.sub_mul]
    omega
  rw [← he]

theorem nat_min_mul (x y c : Nat) : min (x * c) (y * c) = min x y * c := by
  rcases le_total x y with h | h
  · rw [min_eq_left (Nat.mul_le_mul_right c h), min_eq_left h]
  · rw [min_eq_right (Nat.mul_le_mul_right c h), min_eq_right h]

theorem dense_rpp_mul (l : DenseLink) (w x : Nat) (hx : 1 ≤ x) :
    l.requestPartialProgress w x
      = ((x - 1) / prodDims (if w = 0 then l.dim1 else l.dim0) + 1)
        * prodDims (if w = 0 then l.dim1 else l.dim0) := by
  unfold DenseLink.requestPartialProgress
  rw [if_neg (by omega : ¬ x = 0)]
  ring

theorem dense_max_mul (l : DenseLink) (w : Nat) :
    l.maxProgress w
      = prodDims (if w = 0 then l.dim0 else l.dim1)
        * prodDims (if w = 0 then l.dim1 else l.dim0) := by
  unfold DenseLink.maxProgress
  by_cases hw : w = 0
  · rw [if_pos hw, if_pos hw]
  · rw [if_neg hw, if_neg hw, Nat.mul_comm]

/-- Three adjacent `range'` windows over `[0, N)` concatenate. -/
theorem range'_three (u1 u2 n : Nat) (h1 : u1 ≤ u2) (h2 : u2 ≤ n) :
    List.range' 0 (u1 - 0) ++ List.range' u1 (u2 - u1) ++ List.range' u2 (n - u2)
      = List.range' 0 (n - 0) := by
  rw [show u1 - 0 = u1 from by omega]
  have hb := range'_append_nat 0 u1 (u2 - u1)
  rw [Nat.zero_add] at hb
  rw [hb, show u1 + (u2 - u1) = u2 from by omega]
  have hc := range'_append_nat 0 u2 (n - u2)
  rw [Nat.zero_add] at hc
  rw [hc]
  congr 1
  omega

/-- The three dense segments concatenate to the full dense iteration: all
boundaries produced by `requestPartialProgress` (clamped to `maxProgress`)
are multiples of the far flat size `F`, where the emissions agree with the
full run's. -/
theorem dense_segments (l : DenseLink) (w a b : Nat) (ha : 1 ≤ a) (hb : 1 ≤ b)
    (hF : 0 < prodDims (if w = 0 then l.dim1 else l.dim0))
    (hN : 0 < prodDims (if w = 0 then l.dim0 else l.dim1)) :
    l.iterate w 0 (min (l.requestPartialProgress w a) (l.maxProgress w))
      ++ l.iterate w (min (l.requestPartialProgress w a) (l.maxProgress w))
          (min (l.requestPartialProgress w
              (min (l.requestPartialProgress w a) (l.maxProgress w) + b))
            (l.maxProgress w))
      ++ l.iterate w (min (l.requestPartialProgress w
              (min (l.requestPartialProgress w a) (l.maxProgress w) + b))
            (l.maxProgress w))
          (l.maxProgress w)
      = l.iterate w 0 (l.maxProgress w) := by
  have hp1 : min (l.requestPartialProgress w a) (l.maxProgress w)
      = min ((a - 1) / prodDims (if w = 0 then l.dim1 else l.dim0) + 1)
          (prodDims (if w = 0 then l.dim0 else l.dim1))
        * prodDims (if w = 0 then l.dim1 else l.dim0) := by
    rw [dense_rpp_mul l w a ha, dense_max_mul, nat_min_mul]
  have hp1b : 1 ≤ min (l.requestPartialProgress w a) (l.maxProgress w) + b := by
    omega
  have hp2 : min (l.requestPartialProgress w
        (min (l.requestPartialProgress w a) (l.maxProgress w) + b))
      (l.maxProgress w)
      = min ((min (l.requestPartialProgress w a) (l.maxProgress w) + b - 1)
            / prodDims (if w = 0 then l.dim1 else l.dim0) + 1)
          (prodDims (if w = 0 then l.dim0 else l.dim1))
        * prodDims (if w = 0 then l.dim1 else l.dim0) := by
    rw [dense_rpp_mul l w _ hp1b, dense_max_mul, nat_min_mul]
  have hu12 : min ((a - 1) / prodDims (if w = 0 then l.dim1 else l.dim0) + 1)
        (prodDims (if w = 0 then l.dim0 else l.dim1))
      ≤ min ((min (l.requestPartialProgress w a) (l.maxProgress w) + b - 1)
            / prodDims (if w = 0 then l.dim1 else l.dim0) + 1)
          (prodDims (if w = 0 then l.dim0 else l.dim1)) := by
    apply le_min
    · apply Nat.le_of_mul_le_mul_right _ hF
      rw [← hp1]
      have hlt := Nat.lt_mul_div_succ
        (min (l.requestPartialProgress w a) (l.maxProgress w) + b - 1) hF
      rw [Nat.mul_comm] at hlt
      omega
    · exact min_le_right _ _
  have hu2N : min ((min (l.requestPartialProgress w a) (l.maxProgress w) + b - 1)
          / prodDims (if w = 0 then l.dim1 else l.dim0) + 1)
        (prodDims (if w = 0 then l.dim0 else l.dim1))
      ≤ prodDims (if w = 0 then l.dim0 else l.dim1) := min_le_right _ _
  rw [hp1] at hu12 hu2N
  rw [hp2, hp1, dense_max_mul]
  have hseg1 := dense_iterate_aligned l w 0
    (min ((a - 1) / prodDims (if w = 0 then l.dim1 else l.dim0) + 1)
      (prodDims (if w = 0 then l.dim0 else l.dim1))) hF
  rw [Nat.zero_mul] at hseg1
  have hfull := dense_iterate_aligned l w 0
    (prodDims (if w = 0 then l.dim0 else l.dim1)) hF
  rw [Nat.zero_mul] at hfull
  rw [hseg1, hfull, dense_iterate_aligned l w _ _ hF,
    dense_iterate_aligned l w _ _ hF,
    ← List.flatten_append, ← List.flatten_append, ← List.map_append,
    ← List.map_append]
  apply congrArg List.flatten
  apply congrArg
  exact range'_three _ _ _ hu12 hu2N

/-- The three same-link segments concatenate to the full iteration:
`requestPartialProgress` is the identity, so the clamped boundaries are
ordered and the window lists join. -/
theorem same_segments (l : SameLink) (w a b : Nat) :
    l.iterate w 0 (min (l.requestPartialProgress w a) (l.maxProgress w))
      ++ l.iterate w (min (l.requestPartialProgress w a) (l.maxProgress w))
          (min (l.requestPartialProgress w
              (min (l.requestPartialProgress w a) (l.maxProgress w) + b))
            (l.maxProgress w))
      ++ l.iterate w (min (l.requestPartialProgress w
              (min (l.requestPartialProgress w a) (l.maxProgress w) + b))
            (l.maxProgress w))
          (l.maxProgress w)
      = l.iterate w 0 (l.maxProgress w) := by
  have hrpp : ∀ r : Nat, l.requestPartialProgress w r = r := fun _ => rfl
  rw [hrpp, hrpp]
  rw [same_iterate_append l w 0 (min a (l.maxProgress w))
    (min (min a (l.maxProgress w) + b) (l.maxProgress w)) (by omega) (by omega)]
  rw [same_iterate_append l w 0
    (min (min a (l.maxProgress w) + b) (l.maxProgress w)) (l.maxProgress w)
    (by omega) (by omega)]

/-! ### AdjListLink iteration (denselink.hpp lines 1375-1399) -/

/-- The kernel calls for one adjacency row: `k(ix, ixs.edgeIx, ixs.farNode,
ixs.edgeIx, f++)` per entry. -/
def rowCalls (ix : Nat) (row : List (Nat × Nat)) : List KCall :=
  (List.range row.length).map fun f =>
    ⟨ix, (row.getD f (0, 0)).1, (row.getD f (0, 0)).2, (row.getD f (0, 0)).1, f⟩

/-- The `while` loop of `AdjListLink::operator()`: starting at row `ix`
with running `progress`, emit whole rows while the updated progress stays
`≤ end`, stopping at the first row that would overshoot.  `fuel` bounds the
iteration count (the loop advances `ix` every round, so `adj.length` fuel
suffices). -/
def adjLoopF (adj : List (List (Nat × Nat))) (e : Nat) :
    Nat → Nat → Nat → List KCall
  | 0, _, _ => []
  | fuel + 1, progress, ix =>
    if ix < adj.length then
      if e < progress + (adj.getD ix []).length then []
      else
        rowCalls ix (adj.getD ix []) ++
          adjLoopF adj e fuel (progress + (adj.getD ix []).length) (ix + 1)
    else []

/-- `AdjListLink::operator()` (denselink.hpp lines 1375-1399): pick the
near end's adjacency and cumulative vector, start at the first row whose
cumulative count is `≥ start + 1`, and run the row loop. -/
def AdjState.iterate (st : AdjState) (whichEnd s e : Nat) : List KCall :=
  adjLoopF (if whichEnd = 0 then st.end0Adjacency else st.end1Adjacency) e
    (if whichEnd = 0 then st.end0Adjacency else st.end1Adjacency).length s
    (lowB (s + 1)
      (if whichEnd = 0 then st.end0CumulativeEdgeCounts
       else st.end1CumulativeEdgeCounts))

theorem getD_map_len : ∀ (adj : List (List (Nat × Nat))) (ix : Nat),
    (adj.map (·.length)).getD ix 0 = (adj.getD ix []).length
  | [], _ => rfl
  | _ :: _, 0 => rfl
  | _ :: rs, ix + 1 => getD_map_len rs ix

theorem lowB_gt (v : Nat) : ∀ (l : List Nat) (j : Nat), j < l.length →
    (∀ i, i ≤ j → l.getD i 0 < v) → j < lowB v l
  | [], j, hj, _ => absurd hj (by simp)
  | x :: xs, j, hj, hall => by
    unfold lowB
    have hx : x < v := hall 0 (Nat.zero_le j)
    rw [if_neg (by omega : ¬ v ≤ x)]
    cases j with
    | zero => omega
    | succ j' =>
      have ih := lowB_gt v xs j' (by simpa using hj)
        (fun i hi => hall (i + 1) (by omega))
      omega

theorem lowB_mono : ∀ (l : List Nat) {v u : Nat}, v ≤ u → lowB v l ≤ lowB u l
  | [], _, _, _ => Nat.le_refl 0
  | x :: xs, v, u, h => by
    unfold lowB
    by_cases hv : v ≤ x
    · rw [if_pos hv]
      exact Nat.zero_le _
    · rw [if_neg hv, if_neg (by omega : ¬ u ≤ x)]
      have ih := lowB_mono xs h
      omega

/-- When the incoming `progress` equals the total size of the rows before
`ix` — as it does when the start is a progress point — the row loop emits
exactly the rows up to the first cumulative entry exceeding `e`. -/
theorem adjLoopF_closed (adj : List (List (Nat × Nat))) (e : Nat) :
    ∀ (fuel ix : Nat), adj.length ≤ fuel + ix →
    adjLoopF adj e fuel (((adj.map (·.length)).take ix).sum) ix
      = ((List.range' ix
          (lowB (e + 1) (cumFrom 0 (adj.map (·.length))) - ix)).map
          fun r => rowCalls r (adj.getD r [])).flatten
  | 0, ix, hle => by
    have hlen : lowB (e + 1) (cumFrom 0 (adj.map (·.length))) ≤ adj.length := by
      have h := lowB_le_length (e + 1) (cumFrom 0 (adj.map (·.length)))
      rw [cumFrom_length, List.length_map] at h
      exact h
    rw [show lowB (e + 1) (cumFrom 0 (adj.map (·.length))) - ix = 0 from by omega]
    rfl
  | fuel + 1, ix, hle => by
    rw [adjLoopF]
    by_cases hix : ix < adj.length
    · rw [if_pos hix]
      have hsz : ((adj.map (·.length)).take ix).sum + (adj.getD ix []).length
          = ((adj.map (·.length)).take (ix + 1)).sum := by
        rw [sum_take_succ _ ix (by rw [List.length_map]; exact hix),
          getD_map_len]
      have hcg : (cumFrom 0 (adj.map (·.length))).getD ix 0
          = ((adj.map (·.length)).take (ix + 1)).sum := by
        have h := cumFrom_getD (adj.map (·.length)) 0 ix
          (by rw [List.length_map]; exact hix)
        omega
      by_cases hbr : e < ((adj.map (·.length)).take ix).sum
          + (adj.getD ix []).length
      · rw [if_pos hbr]
        have hcut : lowB (e + 1) (cumFrom 0 (adj.map (·.length))) ≤ ix := by
          by_contra hcon
          push_neg at hcon
          have h := lowB_before (e + 1) (cumFrom 0 (adj.map (·.length))) ix hcon
          rw [hcg] at h
          omega
        rw [show lowB (e + 1) (cumFrom 0 (adj.map (·.length))) - ix = 0 from by
          omega]
        rfl
      · rw [if_neg hbr]
        have hlt : ix < lowB (e + 1) (cumFrom 0 (adj.map (·.length))) := by
          apply lowB_gt
          · rw [cumFrom_length, List.length_map]
            exact hix
          · intro i hi
            have hgi : (cumFrom 0 (adj.map (·.length))).getD i 0
                = ((adj.map (·.length)).take (i + 1)).sum := by
              have h := cumFrom_getD (adj.map (·.length)) 0 i
                (by rw [List.length_map]; omega)
              omega
            have hmono := sum_take_mono (adj.map (·.length))
              (show i + 1 ≤ ix + 1 by omega)
            omega
        rw [hsz, adjLoopF_closed adj e fuel (ix + 1) (by omega)]
        have hr : List.range' ix
            (lowB (e + 1) (cumFrom 0 (adj.map (·.length))) - ix)
            = ix :: List.range' (ix + 1)
              (lowB (e + 1) (cumFrom 0 (adj.map (·.length))) - (ix + 1)) := by
          rw [show lowB (e + 1) (cumFrom 0 (adj.map (·.length))) - ix
            = (lowB (e + 1) (cumFrom 0 (adj.map (·.length))) - (ix + 1)) + 1
            from by omega]
          exact List.range'_succ ix _ 1
        rw [hr, List.map_cons, List.flatten_cons]
    · rw [if_neg hix]
      push_neg at hix
      have hlen : lowB (e + 1) (cumFrom 0 (adj.map (·.length))) ≤ adj.length := by
        have h := lowB_le_length (e + 1) (cumFrom 0 (adj.map (·.length)))
        rw [cumFrom_length, List.length_map] at h
        exact h
      rw [show lowB (e + 1) (cumFrom 0 (adj.map (·.length))) - ix = 0 from by
        omega]
      rfl

/-- A progress value attained as a prefix sum of row sizes is exactly
recovered by the loop's lower-bound row search: the rows before the first
cumulative entry `≥ r + 1` total exactly `r`. -/
theorem sumTake_aligned (adj : List (List (Nat × Nat))) (r : Nat)
    (h : ∃ m, m ≤ adj.length ∧ ((adj.map (·.length)).take m).sum = r) :
    ((adj.map (·.length)).take
      (lowB (r + 1) (cumFrom 0 (adj.map (·.length))))).sum = r := by
  obtain ⟨m, hm, hsum⟩ := h
  have hlenc : (cumFrom 0 (adj.map (·.length))).length = adj.length := by
    rw [cumFrom_length, List.length_map]
  have hixle : lowB (r + 1) (cumFrom 0 (adj.map (·.length))) ≤ adj.length := by
    have h := lowB_le_length (r + 1) (cumFrom 0 (adj.map (·.length)))
    omega
  have hupper : ((adj.map (·.length)).take
      (lowB (r + 1) (cumFrom 0 (adj.map (·.length))))).sum ≤ r := by
    cases hix : lowB (r + 1) (cumFrom 0 (adj.map (·.length))) with
    | zero => simp
    | succ k =>
      have hk : k < lowB (r + 1) (cumFrom 0 (adj.map (·.length))) := by omega
      have hb := lowB_before (r + 1) (cumFrom 0 (adj.map (·.length))) k hk
      have hgd := cumFrom_getD (adj.map (·.length)) 0 k
        (by rw [List.length_map]; omega)
      omega
  have hmle : m ≤ lowB (r + 1) (cumFrom 0 (adj.map (·.length))) := by
    cases hmz : m with
    | zero => omega
    | succ k =>
      have hk : k < lowB (r + 1) (cumFrom 0 (adj.map (·.length))) := by
        apply lowB_gt
        · omega
        · intro i hi
          have hgd := cumFrom_getD (adj.map (·.length)) 0 i
            (by rw [List.length_map]; omega)
          have hmono := sum_take_mono (adj.map (·.length))
            (show i + 1 ≤ k + 1 by omega)
          rw [hmz] at hsum
          omega
      omega
  have hmono2 := sum_take_mono (adj.map (·.length)) hmle
  omega

theorem reset_cums_of_sync (st : AdjState)
    (hs0 : st.end0CumulativeEdgeCounts
      = cumFrom 0 (st.end0Adjacency.map (·.length)))
    (hs1 : st.end1CumulativeEdgeCounts
      = cumFrom 0 (st.end1Adjacency.map (·.length))) :
    (resetCumulativeEdgeCounts st).end0CumulativeEdgeCounts
      = st.end0CumulativeEdgeCounts ∧
    (resetCumulativeEdgeCounts st).end1CumulativeEdgeCounts
      = st.end1CumulativeEdgeCounts := by
  unfold resetCumulativeEdgeCounts
  cases hd : st.dirty
  · rw [if_neg Bool.false_ne_true]
    exact ⟨rfl, rfl⟩
  · rw [if_pos rfl]
    exact ⟨hs0.symm, hs1.symm⟩

theorem adj_rpp_char (st : AdjState) (w r : Nat)
    (hs0 : st.end0CumulativeEdgeCounts
      = cumFrom 0 (st.end0Adjacency.map (·.length)))
    (hs1 : st.end1CumulativeEdgeCounts
      = cumFrom 0 (st.end1Adjacency.map (·.length))) :
    st.requestPartialProgress w r
      = (if (cumFrom 0 ((if w = 0 then st.end0Adjacency
            else st.end1Adjacency).map (·.length))).isEmpty then 0
        else
          match (cumFrom 0 ((if w = 0 then st.end0Adjacency
              else st.end1Adjacency).map (·.length))).get?
            (lowB r (cumFrom 0 ((if w = 0 then st.end0Adjacency
              else st.end1Adjacency).map (·.length)))) with
          | some x => x
          | none => (cumFrom 0 ((if w = 0 then st.end0Adjacency
              else st.end1Adjacency).map (·.length))).getLastD 0) := by
  obtain ⟨h0, h1⟩ := reset_cums_of_sync st hs0 hs1
  have harr : (if w = 0
        then (resetCumulativeEdgeCounts st).end0CumulativeEdgeCounts
        else (resetCumulativeEdgeCounts st).end1CumulativeEdgeCounts)
      = cumFrom 0 ((if w = 0 then st.end0Adjacency
          else st.end1Adjacency).map (·.length)) := by
    by_cases hw : w = 0
    · rw [if_pos hw, if_pos hw, h0, hs0]
    · rw [if_neg hw, if_neg hw, h1, hs1]
  show (if (if w = 0
        then (resetCumulativeEdgeCounts st).end0CumulativeEdgeCounts
        else (resetCumulativeEdgeCounts st).end1CumulativeEdgeCounts).isEmpty
      then 0
      else
        match (if w = 0
            then (resetCumulativeEdgeCounts st).end0CumulativeEdgeCounts
            else (resetCumulativeEdgeCounts st).end1CumulativeEdgeCounts).get?
          (lowB r (if w = 0
            then (resetCumulativeEdgeCounts st).end0CumulativeEdgeCounts
            else (resetCumulativeEdgeCounts st).end1CumulativeEdgeCounts)) with
        | some x => x
        | none => (if w = 0
            then (resetCumulativeEdgeCounts st).end0CumulativeEdgeCounts
            else (resetCumulativeEdgeCounts st).end1CumulativeEdgeCounts).getLastD 0)
    = _
  rw [harr]

theorem adj_rpp_attained (st : AdjState) (w r : Nat)
    (hs0 : st.end0CumulativeEdgeCounts
      = cumFrom 0 (st.end0Adjacency.map (·.length)))
    (hs1 : st.end1CumulativeEdgeCounts
      = cumFrom 0 (st.end1Adjacency.map (·.length))) :
    ∃ m, m ≤ (if w = 0 then st.end0Adjacency else st.end1Adjacency).length ∧
      (((if w = 0 then st.end0Adjacency
          else st.end1Adjacency).map (·.length)).take m).sum
        = st.requestPartialProgress w r := by
  rw [adj_rpp_char st w r hs0 hs1]
  have hlenc : (cumFrom 0 ((if w = 0 then st.end0Adjacency
        else st.end1Adjacency).map (·.length))).length
      = (if w = 0 then st.end0Adjacency else st.end1Adjacency).length := by
    rw [cumFrom_length, List.length_map]
  by_cases hemp : (cumFrom 0 ((if w = 0 then st.end0Adjacency
      else st.end1Adjacency).map (·.length))).isEmpty
  · rw [if_pos hemp]
    exact ⟨0, Nat.zero_le _, rfl⟩
  · rw [if_neg hemp]
    by_cases hlt : lowB r (cumFrom 0 ((if w = 0 then st.end0Adjacency
        else st.end1Adjacency).map (·.length)))
        < (cumFrom 0 ((if w = 0 then st.end0Adjacency
          else st.end1Adjacency).map (·.length))).length
    · rw [List.get?_eq_getElem?, List.getElem?_eq_getElem hlt]
      refine ⟨lowB r (cumFrom 0 ((if w = 0 then st.end0Adjacency
        else st.end1Adjacency).map (·.length))) + 1, by omega, ?_⟩
      show _ = (cumFrom 0 ((if w = 0 then st.end0Adjacency
          else st.end1Adjacency).map (·.length)))[lowB r (cumFrom 0
            ((if w = 0 then st.end0Adjacency
              else st.end1Adjacency).map (·.length)))]
      have hgd := cumFrom_getD ((if w = 0 then st.end0Adjacency
          else st.end1Adjacency).map (·.length)) 0
        (lowB r (cumFrom 0 ((if w = 0 then st.end0Adjacency
          else st.end1Adjacency).map (·.length))))
        (by rw [List.length_map]; omega)
      have hge := List.getD_eq_getElem (cumFrom 0 ((if w = 0
          then st.end0Adjacency else st.end1Adjacency).map (·.length))) 0 hlt
      omega
    · rw [List.get?_eq_getElem?, List.getElem?_eq_none (by omega)]
      refine ⟨(if w = 0 then st.end0Adjacency else st.end1Adjacency).length,
        Nat.le_refl _, ?_⟩
      show _ = (cumFrom 0 ((if w = 0 then st.end0Adjacency
          else st.end1Adjacency).map (·.length))).getLastD 0
      rw [cumFrom_getLastD,
        show (if w = 0 then st.end0Adjacency else st.end1Adjacency).length
          = ((if w = 0 then st.end0Adjacency
              else st.end1Adjacency).map (·.length)).length from
          (List.length_map _ _).symm,
        List.take_length]
      omega

theorem adj_rpp_ge (st : AdjState) (w r : Nat)
    (hs0 : st.end0CumulativeEdgeCounts
      = cumFrom 0 (st.end0Adjacency.map (·.length)))
    (hs1 : st.end1CumulativeEdgeCounts
      = cumFrom 0 (st.end1Adjacency.map (·.length))) :
    min r ((cumFrom 0 ((if w = 0 then st.end0Adjacency
        else st.end1Adjacency).map (·.length))).getLastD 0)
      ≤ st.requestPartialProgress w r := by
  rw [adj_rpp_char st w r hs0 hs1]
  by_cases hemp : (cumFrom 0 ((if w = 0 then st.end0Adjacency
      else st.end1Adjacency).map (·.length))).isEmpty
  · rw [if_pos hemp]
    have he : cumFrom 0 ((if w = 0 then st.end0Adjacency
        else st.end1Adjacency).map (·.length)) = [] :=
      List.isEmpty_iff.mp hemp
    rw [he]
    simp
  · rw [if_neg hemp]
    by_cases hlt : lowB r (cumFrom 0 ((if w = 0 then st.end0Adjacency
        else st.end1Adjacency).map (·.length)))
        < (cumFrom 0 ((if w = 0 then st.end0Adjacency
          else st.end1Adjacency).map (·.length))).length
    · rw [List.get?_eq_getElem?, List.getElem?_eq_getElem hlt]
      have hge := lowB_ge r _ hlt
      have hgd := List.getD_eq_getElem (cumFrom 0 ((if w = 0
          then st.end0Adjacency else st.end1Adjacency).map (·.length))) 0 hlt
      show min r _ ≤ (cumFrom 0 ((if w = 0 then st.end0Adjacency
          else st.end1Adjacency).map (·.length)))[lowB r (cumFrom 0
            ((if w = 0 then st.end0Adjacency
              else st.end1Adjacency).map (·.length)))]
      omega
    · rw [List.get?_eq_getElem?, List.getElem?_eq_none (by omega)]
      show min r _ ≤ (cumFrom 0 ((if w = 0 then st.end0Adjacency
          else st.end1Adjacency).map (·.length))).getLastD 0
      omega

theorem attained_min (adj : List (List (Nat × Nat))) (x y : Nat)
    (hx : ∃ m, m ≤ adj.length ∧ ((adj.map (·.length)).take m).sum = x)
    (hy : ∃ m, m ≤ adj.length ∧ ((adj.map (·.length)).take m).sum = y) :
    ∃ m, m ≤ adj.length ∧ ((adj.map (·.length)).take m).sum = min x y := by
  obtain ⟨mx, hmx, hsx⟩ := hx
  obtain ⟨my, hmy, hsy⟩ := hy
  rcases le_total x y with h | h
  · exact ⟨mx, hmx, by rw [min_eq_left h]; exact hsx⟩
  · exact ⟨my, hmy, by rw [min_eq_right h]; exact hsy⟩

theorem adjState_iterate_closed (st : AdjState) (w s e : Nat)
    (hsync : (if w = 0 then st.end0CumulativeEdgeCounts
        else st.end1CumulativeEdgeCounts)
      = cumFrom 0 ((if w = 0 then st.end0Adjacency
          else st.end1Adjacency).map (·.length)))
    (hal : (((if w = 0 then st.end0Adjacency
          else st.end1Adjacency).map (·.length)).take
        (lowB (s + 1) (cumFrom 0 ((if w = 0 then st.end0Adjacency
          else st.end1Adjacency).map (·.length))))).sum = s) :
    st.iterate w s e
      = ((List.range'
          (lowB (s + 1) (cumFrom 0 ((if w = 0 then st.end0Adjacency
            else st.end1Adjacency).map (·.length))))
          (lowB (e + 1) (cumFrom 0 ((if w = 0 then st.end0Adjacency
              else st.end1Adjacency).map (·.length)))
            - lowB (s + 1) (cumFrom 0 ((if w = 0 then st.end0Adjacency
              else st.end1Adjacency).map (·.length))))).map
          fun r => rowCalls r ((if w = 0 then st.end0Adjacency
            else st.end1Adjacency).getD r [])).flatten := by
  unfold AdjState.iterate
  rw [hsync]
  have hmain := adjLoopF_closed
    (if w = 0 then st.end0Adjacency else st.end1Adjacency) e
    (if w = 0 then st.end0Adjacency else st.end1Adjacency).length
    (lowB (s + 1) (cumFrom 0 ((if w = 0 then st.end0Adjacency
      else st.end1Adjacency).map (·.length))))
    (by omega)
  rw [hal] at hmain
  exact hmain

theorem adj_max_of_sync (st : AdjState) (w : Nat)
    (hs0 : st.end0CumulativeEdgeCounts
      = cumFrom 0 (st.end0Adjacency.map (·.length)))
    (hs1 : st.end1CumulativeEdgeCounts
      = cumFrom 0 (st.end1Adjacency.map (·.length))) :
    st.maxProgress w
      = (cumFrom 0 (st.end0Adjacency.map (·.length))).getLastD 0 := by
  obtain ⟨h0, -⟩ := reset_cums_of_sync st hs0 hs1
  unfold AdjState.maxProgress
  rw [h0, hs0]

theorem range'_three' (r0 r1 r2 r3 : Nat) (h1 : r0 ≤ r1) (h2 : r1 ≤ r2)
    (h3 : r2 ≤ r3) :
    List.range' r0 (r1 - r0) ++ List.range' r1 (r2 - r1)
        ++ List.range' r2 (r3 - r2)
      = List.range' r0 (r3 - r0) := by
  have hb := range'_append_nat r0 (r1 - r0) (r2 - r1)
  rw [show r0 + (r1 - r0) = r1 from by omega] at hb
  rw [hb, show r1 - r0 + (r2 - r1) = r2 - r0 from by omega]
  have hc := range'_append_nat r0 (r2 - r0) (r3 - r2)
  rw [show r0 + (r2 - r0) = r2 from by omega] at hc
  rw [hc]
  congr 1
  omega

/-- The three adjacency-list segments concatenate to the full iteration:
the clamped progress points are prefix sums of row sizes, at which the
running-progress loop resumes exactly where it stopped. -/
theorem adj_segments (st : AdjState) (w a b : Nat) (ha : 1 ≤ a) (hb : 1 ≤ b)
    (hs0 : st.end0CumulativeEdgeCounts
      = cumFrom 0 (st.end0Adjacency.map (·.length)))
    (hs1 : st.end1CumulativeEdgeCounts
      = cumFrom 0 (st.end1Adjacency.map (·.length)))
    (htot : (st.end0Adjacency.map (·.length)).sum
      = (st.end1Adjacency.map (·.length)).sum) :
    st.iterate w 0 (min (st.requestPartialProgress w a) (st.maxProgress w))
      ++ st.iterate w (min (st.requestPartialProgress w a) (st.maxProgress w))
          (min (st.requestPartialProgress w
              (min (st.requestPartialProgress w a) (st.maxProgress w) + b))
            (st.maxProgress w))
      ++ st.iterate w (min (st.requestPartialProgress w
              (min (st.requestPartialProgress w a) (st.maxProgress w) + b))
            (st.maxProgress w))
          (st.maxProgress w)
      = st.iterate w 0 (st.maxProgress w) := by
  have hsyncw : (if w = 0 then st.end0CumulativeEdgeCounts
        else st.end1CumulativeEdgeCounts)
      = cumFrom 0 ((if w = 0 then st.end0Adjacency
          else st.end1Adjacency).map (·.length)) := by
    by_cases hw : w = 0
    · rw [if_pos hw, if_pos hw, hs0]
    · rw [if_neg hw, if_neg hw, hs1]
  have hMw : st.maxProgress w
      = (cumFrom 0 ((if w = 0 then st.end0Adjacency
          else st.end1Adjacency).map (·.length))).getLastD 0 := by
    rw [adj_max_of_sync st w hs0 hs1, cumFrom_getLastD, cumFrom_getLastD]
    by_cases hw : w = 0
    · rw [if_pos hw]
    · rw [if_neg hw]
      omega
  have hatM : ∃ m, m ≤ (if w = 0 then st.end0Adjacency
        else st.end1Adjacency).length ∧
      (((if w = 0 then st.end0Adjacency
          else st.end1Adjacency).map (·.length)).take m).sum
        = st.maxProgress w := by
    refine ⟨(if w = 0 then st.end0Adjacency else st.end1Adjacency).length,
      Nat.le_refl _, ?_⟩
    rw [hMw, cumFrom_getLastD,
      show (if w = 0 then st.end0Adjacency else st.end1Adjacency).length
        = ((if w = 0 then st.end0Adjacency
            else st.end1Adjacency).map (·.length)).length from
        (List.length_map _ _).symm,
      List.take_length]
    omega
  have hat0 : ∃ m, m ≤ (if w = 0 then st.end0Adjacency
        else st.end1Adjacency).length ∧
      (((if w = 0 then st.end0Adjacency
          else st.end1Adjacency).map (·.length)).take m).sum = 0 :=
    ⟨0, Nat.zero_le _, rfl⟩
  have hatp1 := attained_min _ _ _
    (adj_rpp_attained st w a hs0 hs1) hatM
  have hatp2 := attained_min _ _ _
    (adj_rpp_attained st w
      (min (st.requestPartialProgress w a) (st.maxProgress w) + b) hs0 hs1)
    hatM
  have hp1M : min (st.requestPartialProgress w a) (st.maxProgress w)
      ≤ st.maxProgress w := min_le_right _ _
  have hp12 : min (st.requestPartialProgress w a) (st.maxProgress w)
      ≤ min (st.requestPartialProgress w
          (min (st.requestPartialProgress w a) (st.maxProgress w) + b))
        (st.maxProgress w) := by
    apply le_min _ hp1M
    have hge := adj_rpp_ge st w
      (min (st.requestPartialProgress w a) (st.maxProgress w) + b) hs0 hs1
    rw [← hMw] at hge
    omega
  have hp2M : min (st.requestPartialProgress w
        (min (st.requestPartialProgress w a) (st.maxProgress w) + b))
      (st.maxProgress w) ≤ st.maxProgress w := min_le_right _ _
  rw [adjState_iterate_closed st w 0 _ hsyncw (sumTake_aligned _ 0 hat0),
    adjState_iterate_closed st w
      (min (st.requestPartialProgress w a) (st.maxProgress w)) _ hsyncw
      (sumTake_aligned _ _ hatp1),
    adjState_iterate_closed st w
      (min (st.requestPartialProgress w
          (min (st.requestPartialProgress w a) (st.maxProgress w) + b))
        (st.maxProgress w)) _ hsyncw
      (sumTake_aligned _ _ hatp2),
    adjState_iterate_closed st w 0 (st.maxProgress w) hsyncw
      (sumTake_aligned _ 0 hat0),
    ← List.flatten_append, ← List.flatten_append, ← List.map_append,
    ← List.map_append]
  apply congrArg List.flatten
  apply congrArg
  apply range'_three'
  · exact lowB_mono _ (by omega)
  · exact lowB_mono _ (by omega)
  · exact lowB_mono _ (by omega)

/-! ### GeneralLocal2DLink iteration (part_000, lines 371-398) -/

/-- The in-bounds test of the `initialize`/`RowFindingIteration` row checks,
as a Boolean. -/
def GL2D.validPair (L : GL2D) (p : Nat × Nat) : Bool :=
  decide (¬ (L.end0rowOf p.2 p.1 < 0
    ∨ (L.end0rows : Int) ≤ L.end0rowOf p.2 p.1))

/-- The number of kernel calls of one (in-bounds) row-row iteration.  The
column bound checks do not depend on the row, so this count is shared by
all valid `(end1row, filterRow)` pairs — which is what lets `initialize`
compute `rowrowsize` once. -/
def GL2D.kConst (L : GL2D) : Nat :=
  ((List.range L.end1cols).map fun end1col =>
    ((List.range (if L.atrousCols = 0 then 0 else L.filterCols)).map fun cIx =>
      if L.end0colOf end1col cIx < 0
          ∨ (L.end0cols : Int) ≤ L.end0colOf end1col cIx
      then 0 else L.end1depth * L.end0depth).sum).sum

/-- `end1row_start` of `RowFindingIteration` (lines 281-287): the
conservative signed lower bound, clamped to `[0, end1rows - 1]`. -/
def GL2D.rfWindowStart (L : GL2D) (rs : Nat) : Nat :=
  min (Int.toNat (div_round_neginf ((rs : Int) - L.startRow
      - (L.filterRows * L.atrousRows : Nat)) L.strideRows))
    (L.end1rows - 1)

/-- `end1row_end` of `RowFindingIteration` (lines 289-296): the
conservative signed upper bound, clamped to `[0, end1rows]`. -/
def GL2D.rfWindowEnd (L : GL2D) (re : Nat) : Nat :=
  min (Int.toNat (div_round_posinf ((re : Int) - L.startRow) L.strideRows))
    L.end1rows

/-- `GeneralLocal2DLink::RowFindingIteration` (lines 277-307): scan the
conservative end-1 row window and keep exactly the pairs whose end-0 row
lies in `[end0row_start, end0row_end)`. -/
def GL2D.rowFind (L : GL2D) (rs re : Nat) : List KCall :=
  ((List.range' (L.rfWindowStart rs)
      (L.rfWindowEnd re - L.rfWindowStart rs)).map fun er =>
    ((List.range L.filterRows).map fun fr =>
      if (rs : Int) ≤ L.end0rowOf fr er ∧ L.end0rowOf fr er < (re : Int)
      then L.rowRow fr er false else []).flatten).flatten

/-- `GeneralLocal2DLink::operator()` (lines 371-398): for end 1, rows
`[lower_bound(cum1, start+1), lower_bound(cum1, end) + 1)` of full row-row
iterations; for end 0, the analogous end-0 row window handed to
`RowFindingIteration`. -/
def GL2D.iterate (L : GL2D) (w s e : Nat) : List KCall :=
  if w = 1 then
    ((List.range' (lowB (s + 1) L.cum1)
        (lowB e L.cum1 + 1 - lowB (s + 1) L.cum1)).map fun er =>
      ((List.range L.filterRows).map fun fr => L.rowRow fr er true).flatten).flatten
  else L.rowFind (lowB (s + 1) L.cum0) (lowB e L.cum0 + 1)

theorem sum_map_const {α : Type} : ∀ (l : List α) (c : Nat),
    (l.map fun _ => c).sum = l.length * c
  | [], c => by simp
  | x :: xs, c => by
    simp only [List.map_cons, List.sum_cons, List.length_cons]
    rw [sum_map_const xs c]
    ring

theorem getD_replicate_zero : ∀ (n e : Nat),
    (List.replicate n (0 : Nat)).getD e 0 = 0
  | 0, _ => rfl
  | _ + 1, 0 => rfl
  | n + 1, e + 1 => getD_replicate_zero n e

theorem rowRow_nil (L : GL2D) (fr er : Nat) (flag : Bool)
    (hv : L.end0rowOf fr er < 0 ∨ (L.end0rows : Int) ≤ L.end0rowOf fr er) :
    L.rowRow fr er flag = [] := by
  unfold GL2D.rowRow
  rw [if_pos hv]

theorem rowRow_length (L : GL2D) (fr er : Nat) (flag : Bool)
    (hv : ¬ (L.end0rowOf fr er < 0
      ∨ (L.end0rows : Int) ≤ L.end0rowOf fr er)) :
    (L.rowRow fr er flag).length = L.kConst := by
  unfold GL2D.rowRow GL2D.kConst
  rw [if_neg hv, List.length_flatten, List.map_map]
  apply congrArg List.sum
  apply List.map_congr_left
  intro end1col _
  show (((List.range (if L.atrousCols = 0 then 0 else L.filterCols)).map fun cIx =>
      L.slotCalls fr er flag end1col cIx).flatten).length = _
  rw [List.length_flatten, List.map_map]
  apply congrArg List.sum
  apply List.map_congr_left
  intro cIx _
  show (L.slotCalls fr er flag end1col cIx).length = _
  unfold GL2D.slotCalls
  by_cases hc : L.end0colOf end1col cIx < 0
      ∨ (L.end0cols : Int) ≤ L.end0colOf end1col cIx
  · rw [if_pos hc, if_pos hc]
    rfl
  · rw [if_neg hc, if_neg hc, List.length_flatten, List.map_map]
    have hrow : ∀ i ∈ List.range L.end1depth,
        (List.length ∘ fun i => (List.range L.end0depth).map fun j =>
          if flag then
            (⟨er * L.end1cols * L.end1depth + end1col * L.end1depth + i,
              L.edgeIxBase fr er
                + (end1col * L.filterCols + cIx) * (L.end0depth * L.end1depth)
                + i * L.end0depth + j,
              (L.end0rowOf fr er).toNat * L.end0cols * L.end0depth
                + (L.end0colOf end1col cIx).toNat * L.end0depth + j,
              L.edgeIxBase fr er
                + (end1col * L.filterCols + cIx) * (L.end0depth * L.end1depth)
                + i * L.end0depth + j,
              fr * L.filterCols + cIx⟩ : KCall)
          else
            (⟨(L.end0rowOf fr er).toNat * L.end0cols * L.end0depth
                + (L.end0colOf end1col cIx).toNat * L.end0depth + j,
              L.edgeIxBase fr er
                + (end1col * L.filterCols + cIx) * (L.end0depth * L.end1depth)
                + i * L.end0depth + j,
              er * L.end1cols * L.end1depth + end1col * L.end1depth + i,
              L.edgeIxBase fr er
                + (end1col * L.filterCols + cIx) * (L.end0depth * L.end1depth)
                + i * L.end0depth + j,
              fr * L.filterCols + cIx⟩ : KCall)) i
        = L.end0depth := by
      intro i _
      show ((List.range L.end0depth).map _).length = L.end0depth
      rw [List.length_map, List.length_range]
    rw [List.map_congr_left hrow, sum_map_const, List.length_range]

theorem stepWeight_of_valid (L : GL2D) (rrs : Nat) (p : Nat × Nat)
    (hinv : rrs = 0 ∨ rrs = L.kConst)
    (hv : ¬ (L.end0rowOf p.2 p.1 < 0
      ∨ (L.end0rows : Int) ≤ L.end0rowOf p.2 p.1)) :
    L.stepWeight rrs p = L.kConst := by
  unfold GL2D.stepWeight
  by_cases hz : rrs = 0
  · rw [if_pos hz]
    exact rowRow_length L p.2 p.1 true hv
  · rw [if_neg hz]
    exact hinv.resolve_left hz

/-- Through the main loop of `initialize`, each entry of the two per-row
size vectors grows by `kConst` for every valid pair hitting that row. -/
theorem initFold_getD (L : GL2D) :
    ∀ (ps : List (Nat × Nat)) (c0 c1 : List Nat) (rrs : Nat),
    (rrs = 0 ∨ rrs = L.kConst) →
    (∀ p ∈ ps, p.1 < c1.length) →
    c0.length = L.end0rows →
    ((List.foldl L.initStep (c0, c1, rrs) ps).2.2 = 0
        ∨ (List.foldl L.initStep (c0, c1, rrs) ps).2.2 = L.kConst) ∧
    (∀ er, (List.foldl L.initStep (c0, c1, rrs) ps).2.1.getD er 0
      = c1.getD er 0
        + L.kConst * (ps.countP fun p => p.1 == er && L.validPair p)) ∧
    (∀ r, (List.foldl L.initStep (c0, c1, rrs) ps).1.getD r 0
      = c0.getD r 0
        + L.kConst * (ps.countP fun p =>
            L.validPair p && ((L.end0rowOf p.2 p.1).toNat == r)))
  | [], c0, c1, rrs, hinv, _, _ => by
    refine ⟨hinv, fun er => ?_, fun r => ?_⟩
    · simp [List.countP_nil]
    · simp [List.countP_nil]
  | p :: ps, c0, c1, rrs, hinv, hmem, hlen => by
    rw [List.foldl_cons]
    by_cases hv : L.end0rowOf p.2 p.1 < 0
        ∨ (L.end0rows : Int) ≤ L.end0rowOf p.2 p.1
    · have hskip : L.initStep (c0, c1, rrs) p = (c0, c1, rrs) := by
        unfold GL2D.initStep
        rw [if_pos hv]
      have hvp : L.validPair p = false :=
        decide_eq_false (not_not_intro hv)
      rw [hskip]
      obtain ⟨i1, i2, i3⟩ := initFold_getD L ps c0 c1 rrs hinv
        (fun q hq => hmem q (List.mem_cons_of_mem _ hq)) hlen
      refine ⟨i1, fun er => ?_, fun r => ?_⟩
      · rw [i2 er, List.countP_cons]
        simp [hvp]
      · rw [i3 r, List.countP_cons]
        simp [hvp]
    · have hw := stepWeight_of_valid L rrs p hinv hv
      have hstep : L.initStep (c0, c1, rrs) p =
          (c0.set (L.end0rowOf p.2 p.1).toNat
            (c0.getD (L.end0rowOf p.2 p.1).toNat 0 + L.kConst),
           c1.set p.1 (c1.getD p.1 0 + L.kConst),
           L.kConst) := by
        unfold GL2D.initStep
        rw [if_neg hv, hw]
      have hvp : L.validPair p = true := decide_eq_true hv
      have hb : p.1 < c1.length := hmem p (List.mem_cons_self _ _)
      have ht : (L.end0rowOf p.2 p.1).toNat < c0.length := by
        rw [hlen]
        omega
      rw [hstep]
      obtain ⟨i1, i2, i3⟩ := initFold_getD L ps
        (c0.set (L.end0rowOf p.2 p.1).toNat
          (c0.getD (L.end0rowOf p.2 p.1).toNat 0 + L.kConst))
        (c1.set p.1 (c1.getD p.1 0 + L.kConst))
        L.kConst (Or.inr rfl)
        (fun q hq => by
          rw [List.length_set]
          exact hmem q (List.mem_cons_of_mem _ hq))
        (by rw [List.length_set]; exact hlen)
      refine ⟨i1, fun er => ?_, fun r => ?_⟩
      · rw [i2 er, List.countP_cons]
        by_cases he : p.1 = er
        · rw [← he, getD_set_self _ _ _ _ hb]
          have hbe : (p.1 == p.1 && L.validPair p) = true := by
            rw [hvp, beq_self_eq_true]
            rfl
          rw [hbe]
          simp only [if_pos]
          ring
        · rw [getD_set_ne _ _ _ (fun hc => he hc)]
          have hbe : (p.1 == er && L.validPair p) = false := by
            rw [beq_eq_false_iff_ne.mpr he]
            rfl
          rw [hbe]
          rw [if_neg Bool.false_ne_true, Nat.add_zero]
      · rw [i3 r, List.countP_cons]
        by_cases he : (L.end0rowOf p.2 p.1).toNat = r
        · rw [← he, getD_set_self _ _ _ _ ht]
          have hbe : (L.validPair p
              && ((L.end0rowOf p.2 p.1).toNat == (L.end0rowOf p.2 p.1).toNat))
              = true := by
            rw [hvp, beq_self_eq_true]
            rfl
          rw [hbe]
          simp only [if_pos]
          ring
        · rw [getD_set_ne _ _ _ (fun hc => he hc)]
          have hbe : (L.validPair p && ((L.end0rowOf p.2 p.1).toNat == r))
              = false := by
            rw [hvp, beq_eq_false_iff_ne.mpr he]
            rfl
          rw [hbe]
          rw [if_neg Bool.false_ne_true, Nat.add_zero]

theorem raw1_getD (L : GL2D) (er : Nat) :
    L.rawCums.2.1.getD er 0
      = L.kConst * (L.pairList.countP fun p => p.1 == er && L.validPair p) := by
  obtain ⟨-, h1, -⟩ := initFold_getD L L.pairList
    (List.replicate L.end0rows 0) (List.replicate L.end1rows 0) 0 (Or.inl rfl)
    (fun p hp => by
      rw [List.length_replicate]
      exact (pairList_mem L p hp).1)
    (List.length_replicate _ _)
  unfold GL2D.rawCums
  rw [h1 er, getD_replicate_zero]
  omega

theorem raw0_getD (L : GL2D) (r : Nat) :
    L.rawCums.1.getD r 0
      = L.kConst * (L.pairList.countP fun p =>
          L.validPair p && ((L.end0rowOf p.2 p.1).toNat == r)) := by
  obtain ⟨-, -, h0⟩ := initFold_getD L L.pairList
    (List.replicate L.end0rows 0) (List.replicate L.end1rows 0) 0 (Or.inl rfl)
    (fun p hp => by
      rw [List.length_replicate]
      exact (pairList_mem L p hp).1)
    (List.length_replicate _ _)
  unfold GL2D.rawCums
  rw [h0 r, getD_replicate_zero]
  omega

theorem countP_flatten {α : Type} (q : α → Bool) : ∀ ll : List (List α),
    ll.flatten.countP q = (ll.map fun l => l.countP q).sum
  | [] => rfl
  | l :: ls => by
    rw [List.flatten_cons, List.countP_append, List.map_cons, List.sum_cons,
      countP_flatten q ls]

theorem sum_range_single (f : Nat → Nat) (er : Nat)
    (h : ∀ x, x ≠ er → f x = 0) :
    ∀ n, er < n → ((List.range n).map f).sum = f er
  | 0, hn => absurd hn (by omega)
  | n + 1, hn => by
    rw [List.range_succ, List.map_append, List.sum_append]
    by_cases he : er = n
    · have hzero : ∀ x ∈ List.range n, f x = (fun _ => 0) x := by
        intro x hx
        exact h x (by have := List.mem_range.mp hx; omega)
      rw [List.map_congr_left hzero, sum_map_const]
      simp [he]
    · rw [sum_range_single f er h n (by omega)]
      have hfn : f n = 0 := h n (fun hc => he hc.symm)
      simp [hfn]

theorem sum_map_ite {α : Type} (C : Nat) (q : α → Bool) : ∀ l : List α,
    (l.map fun x => if q x then C else 0).sum = C * l.countP q
  | [] => by simp
  | x :: xs => by
    rw [List.map_cons, List.sum_cons, List.countP_cons, sum_map_ite C q xs]
    by_cases h : q x
    · rw [if_pos h, if_pos h]
      ring
    · rw [if_neg h, if_neg h]
      ring

theorem pairList_countP_row (L : GL2D) (er : Nat) (her : er < L.end1rows) :
    (L.pairList.countP fun p => p.1 == er && L.validPair p)
      = ((List.range L.filterRows).countP fun fr => L.validPair (er, fr)) := by
  unfold GL2D.pairList
  rw [countP_flatten, List.map_map]
  have hpt : ∀ er' ∈ List.range L.end1rows,
      ((fun l => l.countP fun p => p.1 == er && L.validPair p)
        ∘ fun er' => (List.range L.filterRows).map fun fr => (er', fr)) er'
      = if er' = er
        then (List.range L.filterRows).countP fun fr => L.validPair (er, fr)
        else 0 := by
    intro er' _
    show ((List.range L.filterRows).map fun fr => (er', fr)).countP _ = _
    rw [List.countP_map]
    by_cases he : er' = er
    · rw [if_pos he, he]
      have hfun : ((fun p : Nat × Nat => p.1 == er && L.validPair p)
            ∘ fun fr => (er, fr))
          = fun fr => L.validPair (er, fr) := by
        funext fr
        show (((er, fr).1 == er) && L.validPair (er, fr)) = _
        rw [beq_self_eq_true]
        exact Bool.true_and _
      rw [hfun]
    · rw [if_neg he]
      rw [List.countP_eq_zero]
      intro fr _
      show ¬ (((er', fr).1 == er) && L.validPair (er', fr)) = true
      rw [beq_eq_false_iff_ne.mpr he]
      exact Bool.false_ne_true ∘ (Bool.false_and _ ▸ id)
  rw [List.map_congr_left hpt]
  rw [sum_range_single _ er (fun x hx => if_neg hx) L.end1rows her, if_pos rfl]

/-- The length of one end-1 row's emission equals that row's entry in the
raw per-row size vector built by `initialize`. -/
theorem rowEmit1_length (L : GL2D) (er : Nat) (her : er < L.end1rows) :
    (((List.range L.filterRows).map fun fr => L.rowRow fr er true).flatten).length
      = L.rawCums.2.1.getD er 0 := by
  rw [List.length_flatten, List.map_map, raw1_getD, pairList_countP_row L er her]
  have hpt : ∀ fr ∈ List.range L.filterRows,
      (List.length ∘ fun fr => L.rowRow fr er true) fr
        = if L.validPair (er, fr) then L.kConst else 0 := by
    intro fr _
    show (L.rowRow fr er true).length = _
    by_cases hv : L.end0rowOf fr er < 0
        ∨ (L.end0rows : Int) ≤ L.end0rowOf fr er
    · have hf : L.validPair (er, fr) = false :=
        decide_eq_false (not_not_intro hv)
      rw [rowRow_nil L fr er true hv,
        if_neg (by rw [hf]; exact Bool.false_ne_true)]
      rfl
    · have ht : L.validPair (er, fr) = true := decide_eq_true hv
      rw [rowRow_length L fr er true hv, if_pos ht]
  rw [List.map_congr_left hpt, sum_map_ite]

theorem lowB_le_of (v : Nat) (l : List Nat) (j : Nat) (hj : j < l.length)
    (h : v ≤ l.getD j 0) : lowB v l ≤ j := by
  by_contra hc
  push_neg at hc
  have := lowB_before v l j hc
  omega

theorem cum_mono (l : List Nat) (i k : Nat) (hik : i ≤ k) (hk : k < l.length) :
    (cumFrom 0 l).getD i 0 ≤ (cumFrom 0 l).getD k 0 := by
  have hi := cumFrom_getD l 0 i (by omega)
  have hkk := cumFrom_getD l 0 k hk
  have hm := sum_take_mono l (show i + 1 ≤ k + 1 by omega)
  omega

/-- When `v` occurs as an entry of a monotone vector, `lower_bound` lands
exactly on an entry equal to `v`. -/
theorem lowB_entry (l : List Nat) (v j : Nat) (hj : j < l.length)
    (hval : (cumFrom 0 l).getD j 0 = v) :
    (cumFrom 0 l).getD (lowB v (cumFrom 0 l)) 0 = v
      ∧ lowB v (cumFrom 0 l) < l.length := by
  have hjc : j < (cumFrom 0 l).length := by
    rw [cumFrom_length]
    exact hj
  have hle : lowB v (cumFrom 0 l) ≤ j := lowB_le_of v _ j hjc (by omega)
  have hlt : lowB v (cumFrom 0 l) < (cumFrom 0 l).length := by omega
  have hge := lowB_ge v _ hlt
  have hm := cum_mono l (lowB v (cumFrom 0 l)) j hle hj
  constructor
  · omega
  · rw [cumFrom_length] at hlt
    exact hlt

theorem lowB_succ_gt (l : List Nat) (v : Nat)
    (hE : (cumFrom 0 l).getD (lowB v (cumFrom 0 l)) 0 = v)
    (hlt : lowB v (cumFrom 0 l) < l.length) :
    lowB v (cumFrom 0 l) < lowB (v + 1) (cumFrom 0 l) := by
  apply lowB_gt (v + 1) _ (lowB v (cumFrom 0 l))
    (by rw [cumFrom_length]; exact hlt)
  intro i hi
  rcases Nat.lt_or_ge i (lowB v (cumFrom 0 l)) with h | h
  · have := lowB_before v (cumFrom 0 l) i h
    omega
  · have hie : i = lowB v (cumFrom 0 l) := by omega
    rw [hie, hE]
    omega

theorem gl2d_rpp_entry (L : GL2D) (w r : Nat)
    (hne : (L.cumFor w).isEmpty = false) :
    ∃ j, j < (L.cumFor w).length
      ∧ (L.cumFor w).getD j 0 = L.requestPartialProgress w r := by
  have hI : ¬ ((L.cumFor w).isEmpty = true) := by
    rw [hne]
    exact Bool.false_ne_true
  have hlen : 1 ≤ (L.cumFor w).length := by
    cases hc : L.cumFor w with
    | nil => rw [hc] at hne; cases hne
    | cons x xs => simp
  unfold GL2D.requestPartialProgress
  rw [if_neg hI]
  by_cases hlt : lowB r (L.cumFor w) < (L.cumFor w).length
  · rw [List.get?_eq_getElem?, List.getElem?_eq_getElem hlt]
    refine ⟨lowB r (L.cumFor w), hlt, ?_⟩
    show (L.cumFor w).getD _ 0 = (L.cumFor w)[lowB r (L.cumFor w)]
    rw [List.getD_eq_getElem _ _ hlt]
  · rw [List.get?_eq_getElem?, List.getElem?_eq_none (by omega)]
    refine ⟨(L.cumFor w).length - 1, by omega, ?_⟩
    show (L.cumFor w).getD _ 0 = (L.cumFor w).getLastD 0
    rw [getLastD_eq_getD]

theorem gl2d_rpp_ge (L : GL2D) (w r : Nat)
    (hne : (L.cumFor w).isEmpty = false) :
    min r ((L.cumFor w).getLastD 0) ≤ L.requestPartialProgress w r := by
  have hI : ¬ ((L.cumFor w).isEmpty = true) := by
    rw [hne]
    exact Bool.false_ne_true
  unfold GL2D.requestPartialProgress
  rw [if_neg hI]
  by_cases hlt : lowB r (L.cumFor w) < (L.cumFor w).length
  · rw [List.get?_eq_getElem?, List.getElem?_eq_getElem hlt]
    have hge := lowB_ge r _ hlt
    have hgd := List.getD_eq_getElem (L.cumFor w) 0 hlt
    show min r _ ≤ (L.cumFor w)[lowB r (L.cumFor w)]
    omega
  · rw [List.get?_eq_getElem?, List.getElem?_eq_none (by omega)]
    show min r _ ≤ (L.cumFor w).getLastD 0
    omega

/-- One end-1 row's emission, as run by `operator()` for `whichEnd == 1`. -/
def GL2D.rowEmit (L : GL2D) (er : Nat) : List KCall :=
  ((List.range L.filterRows).map fun fr => L.rowRow fr er true).flatten

theorem iterate1_eq (L : GL2D) (s e : Nat) :
    L.iterate 1 s e
      = ((List.range' (lowB (s + 1) L.cum1)
          (lowB e L.cum1 + 1 - lowB (s + 1) L.cum1)).map L.rowEmit).flatten := by
  unfold GL2D.iterate
  rw [if_pos rfl]
  rfl

theorem rowEmit_nil_of_gap (L : GL2D) (er : Nat) (her : er < L.end1rows)
    (hz : L.rawCums.2.1.getD er 0 = 0) : L.rowEmit er = [] := by
  have hlen := rowEmit1_length L er her
  rw [hz] at hlen
  exact List.length_eq_zero.mp hlen

theorem raw_zero_squeeze (l : List Nat) (r e : Nat) (hr : 1 ≤ r)
    (hlen : r < l.length)
    (hge : e ≤ (cumFrom 0 l).getD (r - 1) 0)
    (hle : (cumFrom 0 l).getD r 0 ≤ e) :
    l.getD r 0 = 0 := by
  have h1 := cumFrom_getD l 0 (r - 1) (by omega)
  have h2 := cumFrom_getD l 0 r hlen
  have h3 := sum_take_succ l r hlen
  have h4 : r - 1 + 1 = r := by omega
  rw [h4] at h1
  omega

theorem lowB_zero : ∀ l : List Nat, lowB 0 l = 0
  | [] => rfl
  | x :: xs => by
    unfold lowB
    rw [if_pos (Nat.zero_le x)]

theorem lowB_eq_length (v : Nat) (l : List Nat)
    (h : ∀ j, j < l.length → l.getD j 0 < v) : lowB v l = l.length := by
  have hle := lowB_le_length v l
  cases hl : l.length with
  | zero => omega
  | succ n =>
    have := lowB_gt v l n (by omega) (fun i hi => h i (by omega))
    omega

theorem entry_min (arr : List Nat) (x y : Nat)
    (hx : ∃ j, j < arr.length ∧ arr.getD j 0 = x)
    (hy : ∃ j, j < arr.length ∧ arr.getD j 0 = y) :
    ∃ j, j < arr.length ∧ arr.getD j 0 = min x y := by
  obtain ⟨jx, hjx, hvx⟩ := hx
  obtain ⟨jy, hjy, hvy⟩ := hy
  rcases le_total x y with h | h
  · exact ⟨jx, hjx, by rw [min_eq_left h]; exact hvx⟩
  · exact ⟨jy, hjy, by rw [min_eq_right h]; exact hvy⟩

/-- The code's end-1 window `[lower_bound(s+1), lower_bound(e) + 1)`
equals the canonical window `[lower_bound(s+1), lower_bound(e+1))` up to
rows of size zero, which emit nothing. -/
theorem gl2d_end1_canonical (L : GL2D) (s e : Nat) (hse : s ≤ e)
    (hE : L.cum1.getD (lowB e L.cum1) 0 = e)
    (hlt : lowB e L.cum1 < L.end1rows) :
    ((List.range' (lowB (s + 1) L.cum1)
        (lowB e L.cum1 + 1 - lowB (s + 1) L.cum1)).map L.rowEmit).flatten
      = ((List.range' (lowB (s + 1) L.cum1)
          (lowB (e + 1) L.cum1 - lowB (s + 1) L.cum1)).map L.rowEmit).flatten := by
  have hraw1len : L.rawCums.2.1.length = L.end1rows := (rawCums_lengths L).2
  have hcc : L.cum1 = cumFrom 0 L.rawCums.2.1 := rfl
  have hclen : L.cum1.length = L.end1rows := cum1_length L
  have hsucc : lowB e L.cum1 < lowB (e + 1) L.cum1 := by
    rw [hcc]
    exact lowB_succ_gt L.rawCums.2.1 e (by rw [← hcc]; exact hE)
      (by rw [hraw1len, ← hcc]; exact hlt)
  by_cases hlt_se : s < e
  · have hstart : lowB (s + 1) L.cum1 ≤ lowB e L.cum1 + 1 := by
      have := lowB_mono L.cum1 (show s + 1 ≤ e from by omega)
      omega
    have hsplit := range'_append_nat (lowB (s + 1) L.cum1)
      (lowB e L.cum1 + 1 - lowB (s + 1) L.cum1)
      (lowB (e + 1) L.cum1 - (lowB e L.cum1 + 1))
    rw [show lowB (s + 1) L.cum1
        + (lowB e L.cum1 + 1 - lowB (s + 1) L.cum1)
        = lowB e L.cum1 + 1 from by omega] at hsplit
    rw [show lowB e L.cum1 + 1 - lowB (s + 1) L.cum1
        + (lowB (e + 1) L.cum1 - (lowB e L.cum1 + 1))
        = lowB (e + 1) L.cum1 - lowB (s + 1) L.cum1 from by omega] at hsplit
    rw [← hsplit, List.map_append, List.flatten_append]
    have hnil : (((List.range' (lowB e L.cum1 + 1)
        (lowB (e + 1) L.cum1 - (lowB e L.cum1 + 1))).map L.rowEmit)).flatten
        = [] := by
      rw [List.flatten_eq_nil_iff]
      intro x hx
      rw [List.mem_map] at hx
      obtain ⟨er, her, rfl⟩ := hx
      have hmem := List.mem_range'_1.mp her
      have herlt : er < L.end1rows := by
        have hub := lowB_le_length (e + 1) L.cum1
        omega
      apply rowEmit_nil_of_gap L er herlt
      apply raw_zero_squeeze L.rawCums.2.1 er e (by omega)
        (by rw [hraw1len]; exact herlt)
      · have hmono := cum_mono L.rawCums.2.1 (lowB e L.cum1) (er - 1)
          (by omega) (by rw [hraw1len]; omega)
        rw [← hcc] at hmono
        rw [← hcc]
        omega
      · have hb := lowB_before (e + 1) L.cum1 er (by omega)
        rw [← hcc]
        omega
    rw [hnil, List.append_nil]
  · have hee : s = e := by omega
    rw [hee]
    rw [show lowB e L.cum1 + 1 - lowB (e + 1) L.cum1 = 0 from by omega,
      show lowB (e + 1) L.cum1 - lowB (e + 1) L.cum1 = 0 from by omega]

/-- The three end-1 segments of the locally connected 2D link concatenate
to the full end-1 iteration. -/
theorem gl2d_segments_end1 (L : GL2D) (a b : Nat) (ha : 1 ≤ a) (hb : 1 ≤ b)
    (h1r : 1 ≤ L.end1rows) (h0r : 1 ≤ L.end0rows) :
    L.iterate 1 0 (min (L.requestPartialProgress 1 a) (L.maxProgress 1))
      ++ L.iterate 1 (min (L.requestPartialProgress 1 a) (L.maxProgress 1))
          (min (L.requestPartialProgress 1
              (min (L.requestPartialProgress 1 a) (L.maxProgress 1) + b))
            (L.maxProgress 1))
      ++ L.iterate 1 (min (L.requestPartialProgress 1
              (min (L.requestPartialProgress 1 a) (L.maxProgress 1) + b))
            (L.maxProgress 1))
          (L.maxProgress 1)
      = L.iterate 1 0 (L.maxProgress 1) := by
  have hclen : L.cum1.length = L.end1rows := cum1_length L
  have hcfor : L.cumFor 1 = L.cum1 := by
    unfold GL2D.cumFor
    rw [if_neg one_ne_zero]
  have hne : (L.cumFor 1).isEmpty = false := by
    apply isEmpty_false_of_length
    rw [hcfor, hclen]
    exact h1r
  have hM : L.maxProgress 1 = L.cum1.getLastD 0 := by
    show L.cum0.getD (L.cum0.length - 1) 0 = _
    rw [← getLastD_eq_getD, cum_totals]
  have hraw1len : L.rawCums.2.1.length = L.end1rows := (rawCums_lengths L).2
  have hcc : L.cum1 = cumFrom 0 L.rawCums.2.1 := rfl
  by_cases hM0 : L.maxProgress 1 = 0
  · rw [hM0, Nat.min_zero, Nat.min_zero]
    have hlow1 : lowB (0 + 1) L.cum1 = L.cum1.length := by
      apply lowB_eq_length
      intro j hj
      have hgd := cumFrom_getD L.rawCums.2.1 0 j
        (by rw [hraw1len]; omega)
      have hmono := sum_take_mono L.rawCums.2.1
        (show j + 1 ≤ L.rawCums.2.1.length from by rw [hraw1len]; omega)
      rw [List.take_length] at hmono
      have hlast : L.cum1.getLastD 0 = 0 + L.rawCums.2.1.sum := by
        rw [hcc, cumFrom_getLastD]
      rw [← hcc] at hgd
      omega
    have hz : L.iterate 1 0 0 = [] := by
      rw [iterate1_eq, lowB_zero,
        show 0 + 1 - lowB (0 + 1) L.cum1 = 0 from by
          rw [hlow1]
          omega]
      rfl
    rw [hz]
    rfl
  · have hM1 : 1 ≤ L.maxProgress 1 := by omega
    set p1 := min (L.requestPartialProgress 1 a) (L.maxProgress 1) with hp1def
    set p2 := min (L.requestPartialProgress 1 (p1 + b)) (L.maxProgress 1)
      with hp2def
    have hMentry : ∃ j, j < L.cum1.length
        ∧ L.cum1.getD j 0 = L.maxProgress 1 := by
      refine ⟨L.cum1.length - 1, by omega, ?_⟩
      rw [← getLastD_eq_getD, hM]
    have hrppA := gl2d_rpp_entry L 1 a hne
    rw [hcfor] at hrppA
    have hrppGeA := gl2d_rpp_ge L 1 a hne
    rw [hcfor, ← hM] at hrppGeA
    have hP1entry := entry_min L.cum1 _ _ hrppA hMentry
    rw [← hp1def] at hP1entry
    have hrppB := gl2d_rpp_entry L 1 (p1 + b) hne
    rw [hcfor] at hrppB
    have hrppGeB := gl2d_rpp_ge L 1 (p1 + b) hne
    rw [hcfor, ← hM] at hrppGeB
    have hP2entry := entry_min L.cum1 _ _ hrppB hMentry
    rw [← hp2def] at hP2entry
    have hP12 : p1 ≤ p2 := by omega
    have hP2M : p2 ≤ L.maxProgress 1 := by omega
    obtain ⟨j1, hj1, hv1⟩ := hP1entry
    have hE1 := lowB_entry L.rawCums.2.1 p1 j1
      (by rw [hraw1len, ← hclen]; exact hj1)
      (by rw [← hcc]; exact hv1)
    rw [← hcc, hraw1len] at hE1
    obtain ⟨j2, hj2, hv2⟩ := hP2entry
    have hE2 := lowB_entry L.rawCums.2.1 p2 j2
      (by rw [hraw1len, ← hclen]; exact hj2)
      (by rw [← hcc]; exact hv2)
    rw [← hcc, hraw1len] at hE2
    obtain ⟨jM, hjM, hvM⟩ := hMentry
    have hEM := lowB_entry L.rawCums.2.1 (L.maxProgress 1) jM
      (by rw [hraw1len, ← hclen]; exact hjM)
      (by rw [← hcc]; exact hvM)
    rw [← hcc, hraw1len] at hEM
    rw [iterate1_eq, iterate1_eq, iterate1_eq, iterate1_eq]
    rw [gl2d_end1_canonical L 0 p1 (Nat.zero_le p1) hE1.1 hE1.2,
      gl2d_end1_canonical L p1 p2 hP12 hE2.1 hE2.2,
      gl2d_end1_canonical L p2 (L.maxProgress 1) hP2M hEM.1 hEM.2,
      gl2d_end1_canonical L 0 (L.maxProgress 1) (Nat.zero_le _) hEM.1 hEM.2]
    have hm1 : lowB (0 + 1) L.cum1 ≤ lowB (p1 + 1) L.cum1 :=
      lowB_mono L.cum1 (by omega)
    have hm2 : lowB (p1 + 1) L.cum1 ≤ lowB (p2 + 1) L.cum1 :=
      lowB_mono L.cum1 (by omega)
    have hm3 : lowB (p2 + 1) L.cum1 ≤ lowB (L.maxProgress 1 + 1) L.cum1 :=
      lowB_mono L.cum1 (by omega)
    have hr := range'_three' (lowB (0 + 1) L.cum1) (lowB (p1 + 1) L.cum1)
      (lowB (p2 + 1) L.cum1) (lowB (L.maxProgress 1 + 1) L.cum1) hm1 hm2 hm3
    rw [← List.flatten_append, ← List.flatten_append,
      ← List.map_append, ← List.map_append, hr]

/-- `b * ceil(a/b)` is at least `a` for a positive divisor. -/
theorem le_mul_ceilDivInt (a b : Int) (hb : 0 < b) : a ≤ b * ceilDivInt a b := by
  unfold ceilDivInt
  rw [Int.fdiv_eq_ediv _ (le_of_lt hb)]
  have h := Int.emod_add_ediv (-a) b
  have h0 := Int.emod_nonneg (-a) (ne_of_gt hb)
  have hg : b * -(-a / b) = -(b * (-a / b)) := by ring
  rw [hg]
  linarith

/-- `div_round_posinf` is a (possibly strict) upper bound for exact
division: any multiple `x * b` below the numerator has `x` below it. -/
theorem lt_div_round_posinf_of_mul_lt (x num b : Int) (hb : 0 < b)
    (h : x * b < num) : x < div_round_posinf num b := by
  have h1 := le_mul_ceilDivInt num b hb
  have h2 := ceil_le_div_round_posinf num b hb
  by_contra hc
  push_neg at hc
  have h3 : b * div_round_posinf num b ≤ b * x :=
    mul_le_mul_of_nonneg_left hc (le_of_lt hb)
  have h4 : b * ceilDivInt num b ≤ b * div_round_posinf num b :=
    mul_le_mul_of_nonneg_left h2 (le_of_lt hb)
  have h5 : b * x = x * b := mul_comm b x
  omega

/-- `div_round_neginf` (the floor) of anything at most `er * b` is at most
`er`. -/
theorem div_round_neginf_le_of_le_mul (er : Nat) (num b : Int) (hb : 0 < b)
    (h : num ≤ (er : Int) * b) : div_round_neginf num b ≤ (er : Int) := by
  rw [div_round_neginf_eq_floor num b hb]
  unfold floorDivInt
  rw [Int.fdiv_eq_ediv _ (le_of_lt hb)]
  have h1 := Int.ediv_le_ediv hb h
  rw [Int.mul_ediv_cancel _ (ne_of_gt hb)] at h1
  exact h1

/-- The conservative window of `RowFindingIteration` really covers every
end-1 row owning a pair that passes the row filter. -/
theorem cond_window (L : GL2D) (hstr : 1 ≤ L.strideRows) (rs re er fr : Nat)
    (her : er < L.end1rows) (hfr : fr < L.filterRows)
    (hc : (rs : Int) ≤ L.end0rowOf fr er ∧ L.end0rowOf fr er < (re : Int)) :
    L.rfWindowStart rs ≤ er ∧ er < L.rfWindowEnd re := by
  have hb : (0 : Int) < (L.strideRows : Int) := by exact_mod_cast hstr
  constructor
  · unfold GL2D.rfWindowStart
    have hcast : ((L.filterRows * L.atrousRows : Nat) : Int)
        = (L.filterRows : Int) * L.atrousRows := by
      push_cast
      ring
    have hfrle : (fr : Int) ≤ (L.filterRows : Int) := by
      exact_mod_cast le_of_lt hfr
    have hfa : (fr : Int) * (L.atrousRows : Int)
        ≤ ((L.filterRows * L.atrousRows : Nat) : Int) := by
      rw [hcast]
      exact mul_le_mul_of_nonneg_right hfrle (Int.natCast_nonneg _)
    have hnum : (rs : Int) - L.startRow - (L.filterRows * L.atrousRows : Nat)
        ≤ (er : Int) * L.strideRows := by
      have hc1 := hc.1
      unfold GL2D.end0rowOf at hc1
      omega
    have hle := div_round_neginf_le_of_le_mul er _ _ hb hnum
    have ht : Int.toNat (div_round_neginf ((rs : Int) - L.startRow
        - (L.filterRows * L.atrousRows : Nat)) L.strideRows) ≤ er := by
      rw [Int.toNat_le]
      exact hle
    exact le_trans (min_le_left _ _) ht
  · unfold GL2D.rfWindowEnd
    rw [lt_min_iff]
    refine ⟨?_, her⟩
    have hfa0 : (0 : Int) ≤ (fr : Int) * (L.atrousRows : Int) :=
      mul_nonneg (Int.natCast_nonneg _) (Int.natCast_nonneg _)
    have hmul : (er : Int) * L.strideRows < (re : Int) - L.startRow := by
      have hc2 := hc.2
      unfold GL2D.end0rowOf at hc2
      omega
    have hlt := lt_div_round_posinf_of_mul_lt er _ _ hb hmul
    rw [← Int.lt_toNat] at hlt
    exact hlt

/-- The per-pair form of the row filter of `RowFindingIteration`. -/
def GL2D.pairFind (L : GL2D) (rs re : Nat) (p : Nat × Nat) : List KCall :=
  if (rs : Int) ≤ L.end0rowOf p.2 p.1 ∧ L.end0rowOf p.2 p.1 < (re : Int)
  then L.rowRow p.2 p.1 false else []

theorem flatten_map_flatten {α β γ : Type} (l : List α) (h : α → List β)
    (g : β → List γ) :
    ((l.map h).flatten.map g).flatten
      = (l.map fun x => ((h x).map g).flatten).flatten := by
  induction l with
  | nil => rfl
  | cons x xs ih =>
    rw [List.map_cons, List.flatten_cons, List.map_append, List.flatten_append,
      ih, List.map_cons, List.flatten_cons]

theorem pairFind_flatten (L : GL2D) (rs re : Nat) :
    (L.pairList.map (L.pairFind rs re)).flatten
      = ((List.range L.end1rows).map fun er =>
          ((List.range L.filterRows).map fun fr =>
            L.pairFind rs re (er, fr)).flatten).flatten := by
  unfold GL2D.pairList
  rw [flatten_map_flatten]
  apply congrArg List.flatten
  apply List.map_congr_left
  intro er _
  rw [List.map_map]
  rfl

/-- Restricting a flatten-of-map to a window is harmless when the rows
outside the window are all empty. -/
theorem window_restrict {α : Type} (G : Nat → List α) (ws we n : Nat)
    (hwe : we ≤ n) (hws : ws ≤ n)
    (hnil : ∀ er, er < n → (er < ws ∨ we ≤ er) → G er = []) :
    ((List.range' ws (we - ws)).map G).flatten
      = ((List.range n).map G).flatten := by
  by_cases hw : ws < we
  · have hthree := range'_three' 0 ws we n (Nat.zero_le _) (le_of_lt hw) hwe
    rw [Nat.sub_zero, Nat.sub_zero] at hthree
    rw [List.range_eq_range' n, ← hthree, List.map_append, List.map_append,
      List.flatten_append, List.flatten_append]
    have hleft : ((List.range' 0 ws).map G).flatten = [] := by
      rw [List.flatten_eq_nil_iff]
      intro x hx
      rw [List.mem_map] at hx
      obtain ⟨er, her, rfl⟩ := hx
      have hm := List.mem_range'_1.mp her
      exact hnil er (by omega) (Or.inl (by omega))
    have hright : ((List.range' we (n - we)).map G).flatten = [] := by
      rw [List.flatten_eq_nil_iff]
      intro x hx
      rw [List.mem_map] at hx
      obtain ⟨er, her, rfl⟩ := hx
      have hm := List.mem_range'_1.mp her
      exact hnil er (by omega) (Or.inr (by omega))
    rw [hleft, hright, List.nil_append, List.append_nil]
  · rw [show we - ws = 0 from by omega]
    have hall : ((List.range n).map G).flatten = [] := by
      rw [List.flatten_eq_nil_iff]
      intro x hx
      rw [List.mem_map] at hx
      obtain ⟨er, her, rfl⟩ := hx
      exact hnil er (List.mem_range.mp her) (by omega)
    rw [hall]
    rfl

/-- `RowFindingIteration` equals the unwindowed per-pair filter: the
conservative window never loses a passing pair, and rows it adds beyond
the exact ones contribute nothing. -/
theorem rowFind_eq_pairs (L : GL2D) (hstr : 1 ≤ L.strideRows) (rs re : Nat) :
    L.rowFind rs re = (L.pairList.map (L.pairFind rs re)).flatten := by
  rw [pairFind_flatten]
  have hws : L.rfWindowStart rs ≤ L.end1rows := by
    unfold GL2D.rfWindowStart
    omega
  have hwe : L.rfWindowEnd re ≤ L.end1rows := by
    unfold GL2D.rfWindowEnd
    omega
  exact window_restrict (fun er => ((List.range L.filterRows).map fun fr =>
      L.pairFind rs re (er, fr)).flatten) (L.rfWindowStart rs)
    (L.rfWindowEnd re) L.end1rows hwe hws (by
      intro er her hout
      rw [List.flatten_eq_nil_iff]
      intro x hx
      rw [List.mem_map] at hx
      obtain ⟨fr, hfr, rfl⟩ := hx
      show (if (rs : Int) ≤ L.end0rowOf fr er ∧ L.end0rowOf fr er < (re : Int)
        then L.rowRow fr er false else []) = []
      have hnc : ¬ ((rs : Int) ≤ L.end0rowOf fr er
          ∧ L.end0rowOf fr er < (re : Int)) := by
        intro hc
        have hwd := cond_window L hstr rs re er fr her
          (List.mem_range.mp hfr) hc
        omega
      rw [if_neg hnc])

theorem iterate0_eq (L : GL2D) (hstr : 1 ≤ L.strideRows) (s e : Nat) :
    L.iterate 0 s e = (L.pairList.map
      (L.pairFind (lowB (s + 1) L.cum0) (lowB e L.cum0 + 1))).flatten := by
  unfold GL2D.iterate
  rw [if_neg (show ¬ (0 : Nat) = 1 from by omega)]
  exact rowFind_eq_pairs L hstr _ _

theorem perm_flatten_map_append {α β : Type} (l : List α) (f g : α → List β) :
    ((l.map f).flatten ++ (l.map g).flatten).Perm
      ((l.map fun x => f x ++ g x).flatten) := by
  induction l with
  | nil => exact List.Perm.refl _
  | cons x xs ih =>
    rw [List.map_cons, List.map_cons, List.map_cons, List.flatten_cons,
      List.flatten_cons, List.flatten_cons]
    have hmid : ((xs.map f).flatten ++ (g x ++ (xs.map g).flatten)).Perm
        (g x ++ ((xs.map f).flatten ++ (xs.map g).flatten)) := by
      rw [← List.append_assoc, ← List.append_assoc]
      exact List.perm_append_comm.append_right _
    rw [List.append_assoc, List.append_assoc]
    exact List.Perm.append_left (f x)
      (hmid.trans (List.Perm.append_left (g x) ih))

/-- The generic shape of the per-pair case split: three disjoint windows
inside a full window, with rows of the full window missed by all three
known to emit nothing. -/
theorem three_ite_append {α : Type} (R : List α) (c1 c2 c3 cf : Prop)
    [Decidable c1] [Decidable c2] [Decidable c3] [Decidable cf]
    (h12 : ¬(c1 ∧ c2)) (h13 : ¬(c1 ∧ c3)) (h23 : ¬(c2 ∧ c3))
    (hf1 : c1 → cf) (hf2 : c2 → cf) (hf3 : c3 → cf)
    (hgap : cf → ¬c1 → ¬c2 → ¬c3 → R = []) :
    (if c1 then R else []) ++ ((if c2 then R else []) ++ (if c3 then R else []))
      = (if cf then R else []) := by
  by_cases h1 : c1
  · rw [if_pos h1, if_pos (hf1 h1), if_neg (fun h2 => h12 ⟨h1, h2⟩),
      if_neg (fun h3 => h13 ⟨h1, h3⟩)]
    simp
  · rw [if_neg h1]
    by_cases h2 : c2
    · rw [if_pos h2, if_pos (hf2 h2), if_neg (fun h3 => h23 ⟨h2, h3⟩)]
      simp
    · rw [if_neg h2]
      by_cases h3 : c3
      · rw [if_pos h3, if_pos (hf3 h3)]
        simp
      · rw [if_neg h3]
        by_cases hf : cf
        · rw [if_pos hf, hgap hf h1 h2 h3]
          simp
        · rw [if_neg hf]
          simp

/-- The three end-0 segments of the locally connected 2D link concatenate,
up to permutation, to the full end-0 iteration. -/
theorem gl2d_segments_end0 (L : GL2D) (a b : Nat) (ha : 1 ≤ a) (hb : 1 ≤ b)
    (h0r : 1 ≤ L.end0rows) (hstr : 1 ≤ L.strideRows) :
    (L.iterate 0 0 (min (L.requestPartialProgress 0 a) (L.maxProgress 0))
      ++ L.iterate 0 (min (L.requestPartialProgress 0 a) (L.maxProgress 0))
          (min (L.requestPartialProgress 0
              (min (L.requestPartialProgress 0 a) (L.maxProgress 0) + b))
            (L.maxProgress 0))
      ++ L.iterate 0 (min (L.requestPartialProgress 0
              (min (L.requestPartialProgress 0 a) (L.maxProgress 0) + b))
            (L.maxProgress 0))
          (L.maxProgress 0)).Perm
      (L.iterate 0 0 (L.maxProgress 0)) := by
  have hclen : L.cum0.length = L.end0rows := cum0_length L
  have hcfor : L.cumFor 0 = L.cum0 := by
    unfold GL2D.cumFor
    rw [if_pos rfl]
  have hne : (L.cumFor 0).isEmpty = false := by
    apply isEmpty_false_of_length
    rw [hcfor, hclen]
    exact h0r
  have hM : L.maxProgress 0 = L.cum0.getLastD 0 := by
    show L.cum0.getD (L.cum0.length - 1) 0 = _
    rw [← getLastD_eq_getD]
  have hraw0len : L.rawCums.1.length = L.end0rows := (rawCums_lengths L).1
  have hcc : L.cum0 = cumFrom 0 L.rawCums.1 := rfl
  by_cases hM0 : L.maxProgress 0 = 0
  · rw [hM0, Nat.min_zero, Nat.min_zero]
    have hlow1 : lowB (0 + 1) L.cum0 = L.cum0.length := by
      apply lowB_eq_length
      intro j hj
      have hgd := cumFrom_getD L.rawCums.1 0 j
        (by rw [hraw0len]; omega)
      have hmono := sum_take_mono L.rawCums.1
        (show j + 1 ≤ L.rawCums.1.length from by rw [hraw0len]; omega)
      rw [List.take_length] at hmono
      have hlast : L.cum0.getLastD 0 = 0 + L.rawCums.1.sum := by
        rw [hcc, cumFrom_getLastD]
      rw [← hcc] at hgd
      omega
    have hz : L.iterate 0 0 0 = [] := by
      rw [iterate0_eq L hstr, lowB_zero]
      rw [List.flatten_eq_nil_iff]
      intro x hx
      rw [List.mem_map] at hx
      obtain ⟨p, hp, rfl⟩ := hx
      show (if ((lowB (0 + 1) L.cum0 : Nat) : Int) ≤ L.end0rowOf p.2 p.1
          ∧ L.end0rowOf p.2 p.1 < ((0 + 1 : Nat) : Int)
        then L.rowRow p.2 p.1 false else []) = []
      have hnc : ¬ (((lowB (0 + 1) L.cum0 : Nat) : Int) ≤ L.end0rowOf p.2 p.1
          ∧ L.end0rowOf p.2 p.1 < ((0 + 1 : Nat) : Int)) := by
        intro hc
        have h1 : lowB (0 + 1) L.cum0 = L.end0rows := by
          rw [hlow1, hclen]
        omega
      rw [if_neg hnc]
    rw [hz]
    exact List.Perm.refl _
  · have hM1 : 1 ≤ L.maxProgress 0 := by omega
    set p1 := min (L.requestPartialProgress 0 a) (L.maxProgress 0) with hp1def
    set p2 := min (L.requestPartialProgress 0 (p1 + b)) (L.maxProgress 0)
      with hp2def
    have hMentry : ∃ j, j < L.cum0.length
        ∧ L.cum0.getD j 0 = L.maxProgress 0 := by
      refine ⟨L.cum0.length - 1, by omega, ?_⟩
      rw [← getLastD_eq_getD, hM]
    have hrppA := gl2d_rpp_entry L 0 a hne
    rw [hcfor] at hrppA
    have hrppGeA := gl2d_rpp_ge L 0 a hne
    rw [hcfor, ← hM] at hrppGeA
    have hP1entry := entry_min L.cum0 _ _ hrppA hMentry
    rw [← hp1def] at hP1entry
    have hrppB := gl2d_rpp_entry L 0 (p1 + b) hne
    rw [hcfor] at hrppB
    have hrppGeB := gl2d_rpp_ge L 0 (p1 + b) hne
    rw [hcfor, ← hM] at hrppGeB
    have hP2entry := entry_min L.cum0 _ _ hrppB hMentry
    rw [← hp2def] at hP2entry
    have hP1ge : 1 ≤ p1 := by omega
    have hP12 : p1 ≤ p2 := by omega
    have hP2M : p2 ≤ L.maxProgress 0 := by omega
    obtain ⟨j1, hj1, hv1⟩ := hP1entry
    have hE1 := lowB_entry L.rawCums.1 p1 j1
      (by rw [hraw0len, ← hclen]; exact hj1)
      (by rw [← hcc]; exact hv1)
    rw [← hcc, hraw0len] at hE1
    obtain ⟨j2, hj2, hv2⟩ := hP2entry
    have hE2 := lowB_entry L.rawCums.1 p2 j2
      (by rw [hraw0len, ← hclen]; exact hj2)
      (by rw [← hcc]; exact hv2)
    rw [← hcc, hraw0len] at hE2
    have hg1 : lowB p1 L.cum0 < lowB (p1 + 1) L.cum0 := by
      rw [hcc]
      exact lowB_succ_gt L.rawCums.1 p1 (by rw [← hcc]; exact hE1.1)
        (by rw [hraw0len, ← hcc]; exact hE1.2)
    have hg2 : lowB p2 L.cum0 < lowB (p2 + 1) L.cum0 := by
      rw [hcc]
      exact lowB_succ_gt L.rawCums.1 p2 (by rw [← hcc]; exact hE2.1)
        (by rw [hraw0len, ← hcc]; exact hE2.2)
    have hm01 : lowB (0 + 1) L.cum0 ≤ lowB p1 L.cum0 :=
      lowB_mono L.cum0 (by omega)
    have hm0A2 : lowB (0 + 1) L.cum0 ≤ lowB (p1 + 1) L.cum0 :=
      lowB_mono L.cum0 (by omega)
    have hm0A3 : lowB (0 + 1) L.cum0 ≤ lowB (p2 + 1) L.cum0 :=
      lowB_mono L.cum0 (by omega)
    have hmB1B3 : lowB p1 L.cum0 ≤ lowB (L.maxProgress 0) L.cum0 :=
      lowB_mono L.cum0 (by omega)
    have hmB2B3 : lowB p2 L.cum0 ≤ lowB (L.maxProgress 0) L.cum0 :=
      lowB_mono L.cum0 (by omega)
    have hmA2A3 : lowB (p1 + 1) L.cum0 ≤ lowB (p2 + 1) L.cum0 :=
      lowB_mono L.cum0 (by omega)
    have hpt : ∀ p ∈ L.pairList,
        L.pairFind (lowB (0 + 1) L.cum0) (lowB p1 L.cum0 + 1) p
          ++ (L.pairFind (lowB (p1 + 1) L.cum0) (lowB p2 L.cum0 + 1) p
            ++ L.pairFind (lowB (p2 + 1) L.cum0)
                (lowB (L.maxProgress 0) L.cum0 + 1) p)
        = L.pairFind (lowB (0 + 1) L.cum0)
            (lowB (L.maxProgress 0) L.cum0 + 1) p := by
      intro p hp
      by_cases hval : L.end0rowOf p.2 p.1 < 0
          ∨ (L.end0rows : Int) ≤ L.end0rowOf p.2 p.1
      · have hR := rowRow_nil L p.2 p.1 false hval
        simp only [GL2D.pairFind]
        rw [hR]
        simp only [ite_self, List.append_nil, List.nil_append]
      · push_neg at hval
        have hrow0 : L.end0rowOf p.2 p.1
            = ((L.end0rowOf p.2 p.1).toNat : Int) :=
          (Int.toNat_of_nonneg hval.1).symm
        set r := (L.end0rowOf p.2 p.1).toNat with hrdef
        have hrlt : r < L.end0rows := by
          rw [hrdef]
          omega
        simp only [GL2D.pairFind]
        rw [hrow0]
        apply three_ite_append
        · intro hcon
          omega
        · intro hcon
          omega
        · intro hcon
          omega
        · intro hcon
          omega
        · intro hcon
          omega
        · intro hcon
          omega
        · intro hcf hn1 hn2 hn3
          have hB1r : lowB p1 L.cum0 + 1 ≤ r := by omega
          have hrA3 : r < lowB (p2 + 1) L.cum0 := by omega
          have hraw : L.rawCums.1.getD r 0 = 0 := by
            by_cases hA2r : r < lowB (p1 + 1) L.cum0
            · apply raw_zero_squeeze L.rawCums.1 r p1 (by omega)
                (by rw [hraw0len]; exact hrlt)
              · have hcm := cum_mono L.rawCums.1 (lowB p1 L.cum0) (r - 1)
                  (by omega) (by rw [hraw0len]; omega)
                rw [← hcc] at hcm
                rw [← hcc]
                have hv := hE1.1
                omega
              · have hbb := lowB_before (p1 + 1) L.cum0 r hA2r
                rw [← hcc]
                omega
            · have hB2r : lowB p2 L.cum0 + 1 ≤ r := by omega
              apply raw_zero_squeeze L.rawCums.1 r p2 (by omega)
                (by rw [hraw0len]; exact hrlt)
              · have hcm := cum_mono L.rawCums.1 (lowB p2 L.cum0) (r - 1)
                  (by omega) (by rw [hraw0len]; omega)
                rw [← hcc] at hcm
                rw [← hcc]
                have hv := hE2.1
                omega
              · have hbb := lowB_before (p2 + 1) L.cum0 r hrA3
                rw [← hcc]
                omega
          have hcount : 0 < L.pairList.countP
              (fun q => L.validPair q
                && ((L.end0rowOf q.2 q.1).toNat == r)) := by
            rw [List.countP_pos_iff]
            refine ⟨p, hp, ?_⟩
            rw [← hrdef, beq_self_eq_true, Bool.and_true]
            unfold GL2D.validPair
            rw [decide_eq_true_eq]
            intro hd
            omega
          have hz0 := raw0_getD L r
          rw [hraw] at hz0
          have hk0 : L.kConst = 0 := by
            rcases Nat.mul_eq_zero.mp hz0.symm with hk | hcz
            · exact hk
            · omega
          have hlen := rowRow_length L p.2 p.1 false (by
            intro hd
            omega)
          rw [hk0] at hlen
          exact List.length_eq_zero.mp hlen
    rw [iterate0_eq L hstr, iterate0_eq L hstr, iterate0_eq L hstr,
      iterate0_eq L hstr]
    rw [List.append_assoc]
    have h123 : ((L.pairList.map (L.pairFind (lowB (0 + 1) L.cum0)
            (lowB p1 L.cum0 + 1))).flatten
        ++ ((L.pairList.map (L.pairFind (lowB (p1 + 1) L.cum0)
            (lowB p2 L.cum0 + 1))).flatten
          ++ (L.pairList.map (L.pairFind (lowB (p2 + 1) L.cum0)
            (lowB (L.maxProgress 0) L.cum0 + 1))).flatten)).Perm
        ((L.pairList.map fun x =>
          L.pairFind (lowB (0 + 1) L.cum0) (lowB p1 L.cum0 + 1) x
            ++ (L.pairFind (lowB (p1 + 1) L.cum0) (lowB p2 L.cum0 + 1) x
              ++ L.pairFind (lowB (p2 + 1) L.cum0)
                  (lowB (L.maxProgress 0) L.cum0 + 1) x)).flatten) := by
      have ha23 := perm_flatten_map_append L.pairList
        (L.pairFind (lowB (p1 + 1) L.cum0) (lowB p2 L.cum0 + 1))
        (L.pairFind (lowB (p2 + 1) L.cum0)
          (lowB (L.maxProgress 0) L.cum0 + 1))
      have hb123 := perm_flatten_map_append L.pairList
        (L.pairFind (lowB (0 + 1) L.cum0) (lowB p1 L.cum0 + 1))
        (fun q => L.pairFind (lowB (p1 + 1) L.cum0) (lowB p2 L.cum0 + 1) q
          ++ L.pairFind (lowB (p2 + 1) L.cum0)
              (lowB (L.maxProgress 0) L.cum0 + 1) q)
      exact (List.Perm.append_left _ ha23).trans hb123
    have hmapeq : (L.pairList.map fun x =>
          L.pairFind (lowB (0 + 1) L.cum0) (lowB p1 L.cum0 + 1) x
            ++ (L.pairFind (lowB (p1 + 1) L.cum0) (lowB p2 L.cum0 + 1) x
              ++ L.pairFind (lowB (p2 + 1) L.cum0)
                  (lowB (L.maxProgress 0) L.cum0 + 1) x))
        = L.pairList.map (L.pairFind (lowB (0 + 1) L.cum0)
            (lowB (L.maxProgress 0) L.cum0 + 1)) :=
      List.map_congr_left hpt
    rw [hmapeq] at h123
    exact h123

def sameDemo : SameLink := ⟨[2], [2]⟩

def denseDemo : DenseLink := ⟨[2], [3]⟩

/-- A small adjacency-list state whose cumulative edge counts are in sync
with its adjacency lists (as `resetCumulativeEdgeCounts` leaves them). -/
def adjSyncDemo : AdjState :=
  ⟨[2], [2], [[(0, 1)], []], [[], [(0, 0)]], 1, [false], [7], [8], false,
    [1, 1], [0, 1]⟩

/-- C1: for every link type (`SameLink`, `DenseLink`, `GL2D` embedding
`GeneralLocal2DLink`, `AdjState` embedding `AdjListLink`), every end `w`,
and arbitrary `a, b ≥ 1`: with `p1 = requestPartialProgress w a` and
`p2 = requestPartialProgress w (p1 + b)`, both clamped to `maxProgress`,
iterating `[0, p1)`, `[p1, p2)`, `[p2, maxProgress)` in sequence invokes
the kernel with exactly the same multiset of
`(near_node_ix, far_node_ix, near_edge_ix, edge_info)` tuples
(`KCall.obs`) as a single iteration over `[0, maxProgress)`.  Validity
assumptions: the dense link's two flat dimension sizes are positive; the
2D link has at least one end-1 row, one end-0 row and a positive row
stride (what its `initialize` requires); and the adjacency-list link's
cumulative edge counts are in sync with its adjacency lists (as
`resetCumulativeEdgeCounts`, called by `requestPartialProgress` and
`maxProgress`, leaves them). -/
theorem link_three_segment_iteration
    (S : SameLink) (D : DenseLink) (L : GL2D) (st : AdjState)
    (wS wD wL wA a b : Nat) (ha : 1 ≤ a) (hb : 1 ≤ b)
    (hD0 : 0 < prodDims (if wD = 0 then D.dim1 else D.dim0))
    (hD1 : 0 < prodDims (if wD = 0 then D.dim0 else D.dim1))
    (hL1 : 1 ≤ L.end1rows) (hL0 : 1 ≤ L.end0rows) (hLs : 1 ≤ L.strideRows)
    (hwL : wL = 0 ∨ wL = 1)
    (hs0 : st.end0CumulativeEdgeCounts
      = cumFrom 0 (st.end0Adjacency.map (·.length)))
    (hs1 : st.end1CumulativeEdgeCounts
      = cumFrom 0 (st.end1Adjacency.map (·.length)))
    (htot : (st.end0Adjacency.map (·.length)).sum
      = (st.end1Adjacency.map (·.length)).sum) :
    (((S.iterate wS 0 (min (S.requestPartialProgress wS a) (S.maxProgress wS))
      ++ S.iterate wS (min (S.requestPartialProgress wS a) (S.maxProgress wS))
          (min (S.requestPartialProgress wS
              (min (S.requestPartialProgress wS a) (S.maxProgress wS) + b))
            (S.maxProgress wS))
      ++ S.iterate wS (min (S.requestPartialProgress wS
              (min (S.requestPartialProgress wS a) (S.maxProgress wS) + b))
            (S.maxProgress wS))
          (S.maxProgress wS)).map KCall.obs).Perm
      ((S.iterate wS 0 (S.maxProgress wS)).map KCall.obs))
    ∧ (((D.iterate wD 0
          (min (D.requestPartialProgress wD a) (D.maxProgress wD))
      ++ D.iterate wD (min (D.requestPartialProgress wD a) (D.maxProgress wD))
          (min (D.requestPartialProgress wD
              (min (D.requestPartialProgress wD a) (D.maxProgress wD) + b))
            (D.maxProgress wD))
      ++ D.iterate wD (min (D.requestPartialProgress wD
              (min (D.requestPartialProgress wD a) (D.maxProgress wD) + b))
            (D.maxProgress wD))
          (D.maxProgress wD)).map KCall.obs).Perm
      ((D.iterate wD 0 (D.maxProgress wD)).map KCall.obs))
    ∧ (((L.iterate wL 0
          (min (L.requestPartialProgress wL a) (L.maxProgress wL))
      ++ L.iterate wL (min (L.requestPartialProgress wL a) (L.maxProgress wL))
          (min (L.requestPartialProgress wL
              (min (L.requestPartialProgress wL a) (L.maxProgress wL) + b))
            (L.maxProgress wL))
      ++ L.iterate wL (min (L.requestPartialProgress wL
              (min (L.requestPartialProgress wL a) (L.maxProgress wL) + b))
            (L.maxProgress wL))
          (L.maxProgress wL)).map KCall.obs).Perm
      ((L.iterate wL 0 (L.maxProgress wL)).map KCall.obs))
    ∧ (((st.iterate wA 0
          (min (st.requestPartialProgress wA a) (st.maxProgress wA))
      ++ st.iterate wA (min (st.requestPartialProgress wA a) (st.maxProgress wA))
          (min (st.requestPartialProgress wA
              (min (st.requestPartialProgress wA a) (st.maxProgress wA) + b))
            (st.maxProgress wA))
      ++ st.iterate wA (min (st.requestPartialProgress wA
              (min (st.requestPartialProgress wA a) (st.maxProgress wA) + b))
            (st.maxProgress wA))
          (st.maxProgress wA)).map KCall.obs).Perm
      ((st.iterate wA 0 (st.maxProgress wA)).map KCall.obs)) := by
  refine ⟨?_, ?_, ?_, ?_⟩
  · rw [same_segments S wS a b]
  · rw [dense_segments D wD a b ha hb hD0 hD1]
  · rcases hwL with h0 | h1
    · subst h0
      exact (gl2d_segments_end0 L a b ha hb hL0 hLs).map KCall.obs
    · subst h1
      rw [gl2d_segments_end1 L a b ha hb hL1 hL0]
  · rw [adj_segments st wA a b ha hb hs0 hs1 htot]

/-- C1, witness (the `SameLink` conjunct at a concrete configuration;
all validity hypotheses are discharged by computation). -/
theorem link_three_segment_iteration_witness :
    (((sameDemo.iterate 0 0
        (min (sameDemo.requestPartialProgress 0 1) (sameDemo.maxProgress 0))
      ++ sameDemo.iterate 0
          (min (sameDemo.requestPartialProgress 0 1) (sameDemo.maxProgress 0))
          (min (sameDemo.requestPartialProgress 0
              (min (sameDemo.requestPartialProgress 0 1)
                (sameDemo.maxProgress 0) + 1))
            (sameDemo.maxProgress 0))
      ++ sameDemo.iterate 0
          (min (sameDemo.requestPartialProgress 0
              (min (sameDemo.requestPartialProgress 0 1)
                (sameDemo.maxProgress 0) + 1))
            (sameDemo.maxProgress 0))
          (sameDemo.maxProgress 0)).map KCall.obs).Perm
      ((sameDemo.iterate 0 0 (sameDemo.maxProgress 0)).map KCall.obs)) :=
  (link_three_segment_iteration sameDemo denseDemo gl2dDemo adjSyncDemo
    0 0 0 0 1 1 (by decide) (by decide) (by decide) (by decide)
    (by decide) (by decide) (by decide) (Or.inl rfl)
    (by decide) (by decide) (by decide)).1

end llrt
